import Mathlib

/-!
# NeuQuant colour quantisation: a shallow embedding of `quantization.go`

The Go package `quantization` trains a frequency-sensitive self-organising map
on the pixels of an image, extracts a palette from the trained weights, sorts
that palette by green channel and answers nearest-colour queries through a
65536-entry index.

Conventions of the embedding

* `float64` values are exact rationals (`ℚ`): every arithmetic step is taken
  without rounding.  `math.MaxFloat64` is the rational number it denotes.  The
  one function whose result depends on the rounding at ordinary values,
  `contest`, has a second copy `contestF64` in which every operation is rounded
  to the nearest binary64 value.
* `uint32` values are natural numbers; the operations of `indexSearch`, which
  can wrap, are taken modulo `2^32`.
* `int` values are integers (`Int`).  The products of image bounds and of pixel
  coordinates in `Learn` wrap as 64-bit values (`wrapInt`); no other `int`
  computation of the package comes near the 64-bit range.
* Slices are lists.  Every slice access is checked: an index out of range makes
  the function return `none`, which stands for the Go run-time panic.  The same
  holds for an integer division by zero and for `make` with a negative
  capacity.
* The 65536-entry `Netindex` slice is a length together with a content
  function, see `IntSlice`.
* Methods with a pointer receiver take the state and return the new state.
-/

namespace Quantization

/-! ## Constants -/

def RADIUS_DEC : Int := 30
def ALPHA_BIASSHIFT : Nat := 10
def INIT_ALPHA : Int := 1 <<< ALPHA_BIASSHIFT
def GAMMA : ℚ := 1024
def BETA : ℚ := 1 / GAMMA
def BETAGAMMA : ℚ := BETA * GAMMA
def NCYCLES : Int := 600

/-- The largest finite `float64`, `math.MaxFloat64 = 2^1024 - 2^971`. -/
def MaxFloat64 : ℚ := 2 ^ 1024 - 2 ^ 971

/-- The constant `math.MaxUint32`. -/
def MaxUint32 : Nat := 4294967295

/-- The constant `math.MaxInt32`. -/
def MaxInt32 : Nat := 2147483647

/-! ## Data model -/

structure Neuron where
  r : ℚ
  g : ℚ
  b : ℚ
  a : ℚ
deriving DecidableEq, Repr

structure Color where
  r : Nat
  g : Nat
  b : Nat
  a : Nat
deriving DecidableEq, Repr

/-- A Go `[]int` slice: its length and its contents.  Only positions below
`len` are meaningful. -/
structure IntSlice where
  len : Nat
  val : Nat → Int

structure NeuQuant where
  Network : List Neuron
  Colormap : List Color
  Netindex : IntSlice
  Bias : List ℚ
  Freq : List ℚ
  Samplefrac : Int
  Netsize : Int

/-- The four values `img.At(x, y).RGBA()` returns. -/
structure Pixel where
  r : Nat
  g : Nat
  b : Nat
  a : Nat
deriving DecidableEq, Repr

/-- What the package uses of an `image.Image`: `Bounds().Max` and `At`. -/
structure Image where
  MaxX : Int
  MaxY : Int
  At : Int → Int → Pixel

/-- An 8-bit-per-channel `color.RGBA`. -/
structure RGBA where
  R : Nat
  G : Nat
  B : Nat
  A : Nat
deriving DecidableEq, Repr

/-! ## Slice access -/

/-- The read `xs[i]` with an `int` index; `none` is the index-out-of-range panic. -/
def index? {α : Type} (xs : List α) (i : Int) : Option α :=
  if 0 ≤ i then xs[i.toNat]? else none

/-- The write `xs[i] = v`; `none` is the index-out-of-range panic. -/
def store? {α : Type} (xs : List α) (i : Int) (v : α) : Option (List α) :=
  if 0 ≤ i ∧ i.toNat < xs.length then some (xs.set i.toNat v) else none

/-- The read `s[i]` of an `[]int`. -/
def IntSlice.read (s : IntSlice) (i : Int) : Option Int :=
  if 0 ≤ i ∧ i.toNat < s.len then some (s.val i.toNat) else none

/-- The write `s[i] = v` of an `[]int`. -/
def IntSlice.store (s : IntSlice) (i : Int) (v : Int) : Option IntSlice :=
  if 0 ≤ i ∧ i.toNat < s.len then
    some { len := s.len, val := fun k => if k = i.toNat then v else s.val k }
  else none

/-- The loop `for j := lo; j < hi; j++ { s[j] = v }` in closed form: nothing
happens when `hi ≤ lo`; otherwise the positions `lo .. hi - 1` are written, and
the loop panics when one of them is out of range. -/
def IntSlice.fill (s : IntSlice) (lo hi : Int) (v : Int) : Option IntSlice :=
  if lo < hi then
    if 0 ≤ lo ∧ hi ≤ (s.len : Int) then
      some { len := s.len,
             val := fun k => if lo ≤ (k : Int) ∧ (k : Int) < hi then v else s.val k }
    else none
  else some s

/-- The same loop, one write per iteration; `fuel` bounds the iterations. -/
def IntSlice.fillLoop (s : IntSlice) (hi : Int) (v : Int) : Nat → Int → Option IntSlice
  | 0, _ => none
  | fuel + 1, j =>
    if j < hi then
      match s.store j v with
      | none => none
      | some s1 => IntSlice.fillLoop s1 hi v fuel (j + 1)
    else some s

/-- The statement `s = append(s, 0)` executed `k` times. -/
def IntSlice.appendZeros (s : IntSlice) (k : Nat) : IntSlice :=
  { len := s.len + k, val := fun i => if i < s.len then s.val i else 0 }

/-! ## Competitive selection -/

/-- The function `math.Abs`. -/
def fabs (x : ℚ) : ℚ := if x < 0 then -x else x

/-- The four local variables of `contest`. -/
structure Best where
  bestd : ℚ
  bestbiasd : ℚ
  bestpos : Int
  bestbiaspos : Int
deriving DecidableEq, Repr

/-- The part of the loop body of `contest` that examines neuron `i` (its weights
`neuron`, its bias `bias`) and updates the four local variables.  Every
operation is exact here; `updateBestF64` is the same code with the rounding of
`float64`, under which the test of the early filter can come out differently. -/
def updateBest (b g r a : ℚ) (bs : Best) (i : Nat) (neuron : Neuron) (bias : ℚ) : Best :=
  let bestbiasd_biased := bs.bestbiasd + bias
  let dist := fabs (neuron.b - b) + fabs (neuron.r - r)
  if dist < bs.bestd ∨ dist < bestbiasd_biased then
    let dist := dist + fabs (neuron.g - g) + fabs (neuron.a - a)
    let bs0 : Best :=
      if dist < bs.bestd then { bs with bestd := dist, bestpos := i } else bs
    let biasdist := dist - bias
    if biasdist < bs0.bestbiasd then
      { bs0 with bestbiasd := biasdist, bestbiaspos := i }
    else bs0
  else bs

/-- One iteration of the loop of `contest`, for neuron `i`. -/
def contestStep (b g r a : ℚ) (st : NeuQuant × Best) (i : Nat) : Option (NeuQuant × Best) :=
  let n := st.1
  let bs := st.2
  match index? n.Bias i, index? n.Network i, index? n.Freq i with
  | some bias, some neuron, some freq =>
    let bs1 := updateBest b g r a bs i neuron bias
    let freq1 := freq - BETA * freq
    match store? n.Freq i freq1 with
    | none => none
    | some Freq1 =>
      match store? n.Bias i (bias + BETAGAMMA * freq1) with
      | none => none
      | some Bias1 => some ({ n with Freq := Freq1, Bias := Bias1 }, bs1)
  | _, _, _ => none

/-- The method `contest`: the index it returns and the state it leaves. -/
def contest (n : NeuQuant) (b g r a : ℚ) : Option (Int × NeuQuant) :=
  let init : Best :=
    { bestd := MaxFloat64, bestbiasd := MaxFloat64, bestpos := -1, bestbiaspos := -1 }
  match (List.range n.Netsize.toNat).foldlM (contestStep b g r a) (n, init) with
  | none => none
  | some (n1, bs) =>
    match index? n1.Freq bs.bestpos, index? n1.Bias bs.bestpos with
    | some f, some bi =>
      match store? n1.Freq bs.bestpos (f + BETA), store? n1.Bias bs.bestpos (bi - BETAGAMMA) with
      | some Freq2, some Bias2 => some (bs.bestbiaspos, { n1 with Freq := Freq2, Bias := Bias2 })
      | _, _ => none
    | _, _ => none

/-! ## Competitive selection in binary64

The definitions above take every `float64` operation of `contest` exactly.  The
copy below rounds the result of every operation to the nearest binary64 value,
as the Go program does; it shows where the comparisons of `contest` depend on
the rounding.  Values are assumed finite (no overflow to infinity). -/

/-- The number of binary digits of `n`; the first argument bounds the recursion
and `n` itself is enough. -/
def bitLength : Nat → Nat → Nat
  | 0, _ => 0
  | fuel + 1, n => if n = 0 then 0 else bitLength fuel (n / 2) + 1

/-- The exponent `e` with `2^e ≤ p / q < 2^(e+1)`, for `p, q > 0`. -/
def log2Floor (p q : Nat) : Int :=
  let e0 : Int := (bitLength p p : Int) - (bitLength q q : Int)
  if (if 0 ≤ e0 then 2 ^ e0.toNat * q ≤ p else q ≤ p * 2 ^ (-e0).toNat) then e0 else e0 - 1

/-- The binary64 value nearest to `x`, ties to the even significand: the
rounding of every `float64` operation.  The significand has 53 bits, the least
exponent is `-1022` (below it the spacing stays `2^-1074`); results beyond the
largest finite value are not modelled. -/
def roundF64 (x : ℚ) : ℚ :=
  if x = 0 then 0
  else
    let p := x.num.natAbs
    let q := x.den
    let e := max (log2Floor p q) (-1022)
    let k := e - 52
    let num := if k < 0 then p * 2 ^ (-k).toNat else p
    let den := if k < 0 then q else q * 2 ^ k.toNat
    let n := num / den
    let rem := num % den
    let m := if 2 * rem < den then n else if den < 2 * rem then n + 1 else n + n % 2
    let v : ℚ :=
      if k < 0 then (m : ℚ) / ((2 ^ (-k).toNat : Nat) : ℚ)
      else (m : ℚ) * ((2 ^ k.toNat : Nat) : ℚ)
    if x < 0 then -v else v

/-- The operator `+` on `float64`. -/
def addF64 (x y : ℚ) : ℚ := roundF64 (x + y)

/-- The operator `-` on `float64`. -/
def subF64 (x y : ℚ) : ℚ := roundF64 (x - y)

/-- The operator `*` on `float64`. -/
def mulF64 (x y : ℚ) : ℚ := roundF64 (x * y)

/-- The part of the loop body of `contest` that examines neuron `i`, every
operation rounded. -/
def updateBestF64 (b g r a : ℚ) (bs : Best) (i : Nat) (neuron : Neuron) (bias : ℚ) : Best :=
  let bestbiasd_biased := addF64 bs.bestbiasd bias
  let dist := fabs (subF64 neuron.b b)
  let dist := addF64 dist (fabs (subF64 neuron.r r))
  if dist < bs.bestd ∨ dist < bestbiasd_biased then
    let dist := addF64 dist (fabs (subF64 neuron.g g))
    let dist := addF64 dist (fabs (subF64 neuron.a a))
    let bs0 : Best :=
      if dist < bs.bestd then { bs with bestd := dist, bestpos := i } else bs
    let biasdist := subF64 dist bias
    if biasdist < bs0.bestbiasd then
      { bs0 with bestbiasd := biasdist, bestbiaspos := i }
    else bs0
  else bs

/-- One iteration of the loop of `contest`, every operation rounded; `upd` is
the part that updates the four local variables.  The products with `BETA`
(`2^-10`) and `BETAGAMMA` (`1`) are exact, so a fused multiply-add gives the
same values. -/
def contestStepF64 (upd : Best → Nat → Neuron → ℚ → Best) (st : NeuQuant × Best) (i : Nat) :
    Option (NeuQuant × Best) :=
  let n := st.1
  let bs := st.2
  match index? n.Bias i, index? n.Network i, index? n.Freq i with
  | some bias, some neuron, some freq =>
    let bs1 := upd bs i neuron bias
    let freq1 := subF64 freq (mulF64 BETA freq)
    match store? n.Freq i freq1 with
    | none => none
    | some Freq1 =>
      match store? n.Bias i (addF64 bias (mulF64 BETAGAMMA freq1)) with
      | none => none
      | some Bias1 => some ({ n with Freq := Freq1, Bias := Bias1 }, bs1)
  | _, _, _ => none

/-- The loop of `contest` and the two updates after it, every operation
rounded; `upd` is the part of the loop body that updates the four local
variables. -/
def contestWithF64 (upd : Best → Nat → Neuron → ℚ → Best) (n : NeuQuant) :
    Option (Int × NeuQuant) :=
  let init : Best :=
    { bestd := MaxFloat64, bestbiasd := MaxFloat64, bestpos := -1, bestbiaspos := -1 }
  match (List.range n.Netsize.toNat).foldlM (contestStepF64 upd) (n, init) with
  | none => none
  | some (n1, bs) =>
    match index? n1.Freq bs.bestpos, index? n1.Bias bs.bestpos with
    | some f, some bi =>
      match store? n1.Freq bs.bestpos (addF64 f BETA),
          store? n1.Bias bs.bestpos (subF64 bi BETAGAMMA) with
      | some Freq2, some Bias2 => some (bs.bestbiaspos, { n1 with Freq := Freq2, Bias := Bias2 })
      | _, _ => none
    | _, _ => none

/-- The method `contest` in binary64: the index it returns and the state it
leaves. -/
def contestF64 (n : NeuQuant) (b g r a : ℚ) : Option (Int × NeuQuant) :=
  contestWithF64 (updateBestF64 b g r a) n

/-! ## Weight update -/

/-- The four assignments `neuron.c -= alpha * (neuron.c - quad.c)`. -/
def moveToward (alpha : ℚ) (neuron quad : Neuron) : Neuron :=
  { b := neuron.b - alpha * (neuron.b - quad.b),
    g := neuron.g - alpha * (neuron.g - quad.g),
    r := neuron.r - alpha * (neuron.r - quad.r),
    a := neuron.a - alpha * (neuron.a - quad.a) }

/-- The five lines `neuron := n.Network[pos]; neuron.b -= ...; ...` that
`alterSingle` and (twice) `alterNeigh` contain, on the `Network` slice. -/
def moveAt (alpha : ℚ) (quad : Neuron) (net : List Neuron) (pos : Int) :
    Option (List Neuron) :=
  match index? net pos with
  | none => none
  | some neuron => store? net pos (moveToward alpha neuron quad)

/-- The method `alterSingle`. -/
def alterSingle (n : NeuQuant) (alpha : ℚ) (i : Int) (quad : Neuron) : Option NeuQuant :=
  match moveAt alpha quad n.Network i with
  | none => none
  | some net => some { n with Network := net }

/-- The loop of `alterNeigh` on the `Network` slice; `fuel` bounds the
iterations, and `alterNeigh` passes enough of it.  `none` is a panic. -/
def alterNeighLoop (alpha : ℚ) (rad lo hi : Int) (quad : Neuron) :
    Nat → List Neuron → Int → Int → Int → Option (List Neuron)
  | 0, _, _, _, _ => none
  | fuel + 1, net, j, k, q =>
    if j < hi ∨ k > lo then
      let rad_sq : ℚ := (rad : ℚ) * (rad : ℚ)
      let alpha_ : ℚ := (alpha * (rad_sq - (q : ℚ) * (q : ℚ))) / rad_sq
      let q1 := q + 1
      let up : Option (List Neuron × Int) :=
        if j < hi then (moveAt alpha_ quad net j).map (fun net1 => (net1, j + 1))
        else some (net, j)
      match up with
      | none => none
      | some (net1, j1) =>
        let down : Option (List Neuron × Int) :=
          if k > lo then (moveAt alpha_ quad net1 k).map (fun net2 => (net2, k - 1))
          else some (net1, k)
        match down with
        | none => none
        | some (net2, k1) => alterNeighLoop alpha rad lo hi quad fuel net2 j1 k1 q1
    else some net

/-- The method `alterNeigh`. -/
def alterNeigh (n : NeuQuant) (alpha : ℚ) (rad : Int) (i : Int) (quad : Neuron) :
    Option NeuQuant :=
  let lo := max (i - rad) 0
  let hi := min (i + rad) n.Netsize
  let j := i + 1
  let k := i - 1
  match alterNeighLoop alpha rad lo hi quad ((hi - j).toNat + (k - lo).toNat + 1)
      n.Network j k 0 with
  | none => none
  | some net => some { n with Network := net }

/-! ## Training loop -/

/-- The value a Go `int` (64 bits) holds after an operation whose exact result
is `z`: `z` wrapped into `-2^63 .. 2^63 - 1`. -/
def wrapInt (z : Int) : Int :=
  (z + 9223372036854775808) % 18446744073709551616 - 9223372036854775808

/-- The variables of `Learn` that change during the scan, together with the
network.  `decays` is bookkeeping of the embedding: it counts how often the
decay step (`alpha -= alpha / alphadec` and the lines after it) has run. -/
structure LearnState where
  net : NeuQuant
  alpha : ℚ
  bias_radius : Int
  rad : Int
  decays : Nat

/-- The body of the inner loop of `Learn` at pixel `(x, y)`.  The product
`x * y` is an `int` and wraps.  In the one case `alphadec = 0` (a negative
`Samplefrac` near `-23040`) the float division `alpha / alphadec` is infinite
in Go and `0` here. -/
def learnPixel (img : Image) (alphadec : ℚ) (delta : Int) (x y : Nat) (st : LearnState) :
    Option LearnState :=
  let px := img.At x y
  let r_f64 : ℚ := px.r
  let g_f64 : ℚ := px.g
  let b_f64 : ℚ := px.b
  let a_f64 : ℚ := px.a
  match contest st.net b_f64 g_f64 r_f64 a_f64 with
  | none => none
  | some (j, n1) =>
    let alpha_ : ℚ := (1 * st.alpha) / (INIT_ALPHA : ℚ)
    let quad : Neuron := { b := b_f64, g := g_f64, r := r_f64, a := a_f64 }
    match alterSingle n1 alpha_ j quad with
    | none => none
    | some n2 =>
      match (if st.rad > 0 then alterNeigh n2 alpha_ st.rad j quad else some n2) with
      | none => none
      | some n3 =>
        if (x > 0 ∧ y > 0) ∧ (wrapInt ((x : Int) * (y : Int))).tmod delta = 0 then
          let alpha := st.alpha - st.alpha / alphadec
          let bias_radius := st.bias_radius - st.bias_radius.tdiv RADIUS_DEC
          let rad := bias_radius >>> 6
          some { net := n3, alpha := alpha, bias_radius := bias_radius,
                 rad := if rad ≤ 1 then 0 else rad, decays := st.decays + 1 }
        else some { st with net := n3 }

/-- The inner loop of `Learn`, `for y := 0; y < bounds.Max.Y; y++`, for one `x`. -/
def learnColumn (img : Image) (alphadec : ℚ) (delta : Int) (st : LearnState) (x : Nat) :
    Option LearnState :=
  (List.range img.MaxY.toNat).foldlM (fun st y => learnPixel img alphadec delta x y st) st

/-- The method `Learn`, with the final values of its local variables.  The
product of the image bounds and its quotient by `Samplefrac` are `int` values
and wrap. -/
def learnScan (n : NeuQuant) (img : Image) : Option LearnState :=
  let initrad := n.Netsize.tdiv 8
  let radiusbiasshift : Nat := 6
  let radiusbias : Int := 1 <<< radiusbiasshift
  let init_bias_radius := initrad * radiusbias
  let bias_radius := init_bias_radius
  let alphadec : ℚ := ((((30 : Int) <<< 8) + (n.Samplefrac - 1).tdiv 3 : Int) : ℚ)
  if n.Samplefrac = 0 then none
  else
    let delta := (wrapInt ((wrapInt (img.MaxX * img.MaxY)).tdiv n.Samplefrac)).tdiv NCYCLES
    let delta := if delta ≤ 0 then 1 else delta
    let alpha : ℚ := (INIT_ALPHA : ℚ)
    let rad := bias_radius >>> radiusbiasshift
    let rad := if rad ≤ 1 then 0 else rad
    (List.range img.MaxX.toNat).foldlM (learnColumn img alphadec delta)
      { net := n, alpha := alpha, bias_radius := bias_radius, rad := rad, decays := 0 }

/-- The method `Learn`. -/
def Learn (n : NeuQuant) (img : Image) : Option NeuQuant :=
  (learnScan n img).map (fun st => st.net)

/-! ## Palette builder -/

/-- Modelled from the spec: `round.AwayFromZero(x, 0)` of the external package
`github.com/a-h/round`, which is not part of the repository: `x` rounded to the
nearest integer, ties away from zero. -/
def AwayFromZero (x : ℚ) : Int :=
  if x < 0 then -⌊-x + 1 / 2⌋ else ⌊x + 1 / 2⌋

/-- The conversion `uint32(f)` of an integral `float64`.  It is exact on
`0 .. 2^32 - 1`; outside that range Go leaves the result to the implementation,
and the value here is the two's-complement wrap. -/
def toUint32 (z : Int) : Nat := (z % 4294967296).toNat

/-- The function `clamp`. -/
def clamp (x : ℚ) : Nat :=
  let r := toUint32 (AwayFromZero x)
  if r < 0 then 0
  else if r > MaxInt32 then MaxInt32
  else r

/-- One iteration of the loop of `buildColormap`. -/
def buildColormapStep (n : NeuQuant) (i : Nat) : Option NeuQuant :=
  match index? n.Colormap i, index? n.Network i with
  | some _, some w =>
    match store? n.Colormap i
        { b := clamp w.b, g := clamp w.g, r := clamp w.r, a := clamp w.a } with
    | none => none
    | some cm => some { n with Colormap := cm }
  | _, _ => none

/-- The method `buildColormap`. -/
def buildColormap (n : NeuQuant) : Option NeuQuant :=
  (List.range n.Netsize.toNat).foldlM buildColormapStep n

/-- One iteration of the inner loop of `buildIndex`; `acc` is the pair
`(smallpos, smallval)`. -/
def smallestStep (cm : List Color) (acc : Int × Nat) (j : Nat) : Option (Int × Nat) :=
  match index? cm j with
  | none => none
  | some q => if q.g < acc.2 then some ((j : Int), q.g) else some acc

/-- The inner loop of `buildIndex`: position and green value of the first
smallest green among positions `i .. Netsize - 1`. -/
def findSmallest (cm : List Color) (netsize : Int) (i : Nat) (smallval : Nat) :
    Option (Int × Nat) :=
  (List.range' i (netsize.toNat - i)).foldlM (smallestStep cm) ((i : Int), smallval)

/-- The variables of `buildIndex` that live across iterations. -/
structure IndexState where
  net : NeuQuant
  previousCol : Int
  startpos : Int

/-- One iteration of the outer loop of `buildIndex`. -/
def buildIndexStep (st : IndexState) (i : Nat) : Option IndexState :=
  let n := st.net
  match index? n.Colormap i with
  | none => none
  | some p =>
    match findSmallest n.Colormap n.Netsize i p.g with
    | none => none
    | some (smallpos, smallval) =>
      match index? n.Colormap smallpos with
      | none => none
      | some q =>
        let swapped : Option (List Color) :=
          if (i : Int) ≠ smallpos then
            match store? n.Colormap i q with
            | none => none
            | some cm1 => store? cm1 smallpos p
          else some n.Colormap
        match swapped with
        | none => none
        | some cm =>
          if (smallval : Int) ≠ st.previousCol then
            match n.Netindex.store st.previousCol (st.startpos + i) with
            | none => none
            | some ni1 =>
              match ni1.fill st.previousCol (smallval : Int) (i : Int) with
              | none => none
              | some ni2 =>
                some { net := { n with Colormap := cm, Netindex := ni2 },
                       previousCol := (smallval : Int), startpos := (i : Int) }
          else some { st with net := { n with Colormap := cm } }

/-- The method `buildIndex`. -/
def buildIndex (n : NeuQuant) : Option NeuQuant :=
  match (List.range n.Netsize.toNat).foldlM buildIndexStep
      { net := n, previousCol := 0, startpos := 0 } with
  | none => none
  | some st =>
    let max_netpos := st.net.Netsize - 1
    match st.net.Netindex.store st.previousCol (st.startpos + max_netpos) with
    | none => none
    | some ni1 =>
      match ni1.fill st.previousCol (1 <<< 16) max_netpos with
      | none => none
      | some ni2 => some { st.net with Netindex := ni2 }

/-! ## Palette query -/

/-- The operator `-` on `uint32`. -/
def sub32 (x y : Nat) : Nat := (x + 4294967296 - y % 4294967296) % 4294967296

/-- The operator `*` on `uint32`. -/
def mul32 (x y : Nat) : Nat := (x * y) % 4294967296

/-- The operator `+` on `uint32`. -/
def add32 (x y : Nat) : Nat := (x + y) % 4294967296

/-- What examining one palette entry does in `indexSearch`: either the loop is
left (`brk`), or the running best is kept or replaced (`next`). -/
inductive Visit where
  | brk : Visit
  | next : Nat → Int → Visit
deriving DecidableEq, Repr

/-- The code `indexSearch` runs on the entry `p` at position `pos`; it is the
same for the increasing and the decreasing side. -/
def visit (p : Color) (b g r a : Nat) (bestd : Nat) (best pos : Int) : Visit :=
  let e := sub32 p.g g
  let dist := mul32 e e
  if dist ≥ bestd then Visit.brk
  else
    let e := sub32 p.b b
    let dist := add32 dist (mul32 e e)
    if dist < bestd then
      let e := sub32 p.r r
      let dist := add32 dist (mul32 e e)
      if dist < bestd then
        let e := sub32 p.a a
        let dist := add32 dist (mul32 e e)
        if dist < bestd then Visit.next dist pos else Visit.next bestd best
      else Visit.next bestd best
    else Visit.next bestd best

/-- The loop of `indexSearch`; `fuel` bounds the iterations, and `indexSearch`
passes enough of it.  `none` is a panic. -/
def searchLoop (cm : List Color) (netsize : Int) (b g r a : Nat) :
    Nat → Nat → Int → Int → Int → Option Int
  | 0, _, _, _, _ => none
  | fuel + 1, bestd, best, i, j =>
    if i < netsize ∨ j > 0 then
      let up : Option (Option (Nat × Int × Int)) :=
        if i < netsize then
          match index? cm i with
          | none => none
          | some p =>
            match visit p b g r a bestd best i with
            | Visit.brk => some none
            | Visit.next bestd1 best1 => some (some (bestd1, best1, i + 1))
        else some (some (bestd, best, i))
      match up with
      | none => none
      | some none => some best
      | some (some (bestd1, best1, i1)) =>
        if j > 0 then
          match index? cm j with
          | none => none
          | some p =>
            match visit p b g r a bestd1 best1 j with
            | Visit.brk => some best1
            | Visit.next bestd2 best2 =>
              searchLoop cm netsize b g r a fuel bestd2 best2 i1 (j - 1)
        else searchLoop cm netsize b g r a fuel bestd1 best1 i1 j
    else some best

/-- The method `indexSearch`. -/
def indexSearch (n : NeuQuant) (b g r a : Nat) : Option Int :=
  let bestd := MaxUint32
  let best : Int := 0
  match n.Netindex.read (g : Int) with
  | none => none
  | some i =>
    let j : Int := if i > 0 then i - 1 else 0
    searchLoop n.Colormap n.Netsize b g r a ((n.Netsize - i).toNat + j.toNat + 1)
      bestd best i j

/-- The conversion `uint8(c >> 8)` of a `uint32`. -/
def toUint8Hi (c : Nat) : Nat := (c >>> 8) % 256

/-- One iteration of the loop of `GetPalette`. -/
def paletteStep (n : NeuQuant) (palette : List RGBA) (i : Nat) : Option (List RGBA) :=
  match index? n.Colormap i with
  | none => none
  | some c =>
    some (palette ++ [{ R := toUint8Hi c.r, G := toUint8Hi c.g,
                        B := toUint8Hi c.b, A := toUint8Hi c.a }])

/-- The method `GetPalette`: the palette it returns and the state it leaves;
`make` with a negative capacity panics. -/
def GetPalette (n : NeuQuant) : Option (List RGBA × NeuQuant) :=
  if n.Netsize < 0 then none
  else
    match (List.range n.Netsize.toNat).foldlM (paletteStep n) [] with
    | none => none
    | some palette => some (palette, n)

/-! ## Construction -/

/-- One iteration of the first loop of `Init`; `freq` is `float64(n.Netsize)`. -/
def initStep (freq : ℚ) (m : NeuQuant) (i : Nat) : NeuQuant :=
  let tmp : ℚ := (i : ℚ)
  let a : ℚ := 255
  { m with Network := m.Network ++ [{ r := tmp, g := tmp, b := tmp, a := a }],
           Colormap := m.Colormap ++ [{ r := 0, g := 0, b := 0, a := 0 }],
           Bias := m.Bias ++ [0],
           Freq := m.Freq ++ [freq] }

/-- The part of `Init` that precedes the call of `Learn`: the slices are reset
and filled, and 65536 zeros are appended to `Netindex`. -/
def initArrays (n : NeuQuant) : NeuQuant :=
  let n0 : NeuQuant := { n with Network := [], Colormap := [], Bias := [], Freq := [] }
  let freq : ℚ := (n.Netsize : ℚ)
  let n1 : NeuQuant := (List.range n.Netsize.toNat).foldl (initStep freq) n0
  { n1 with Netindex := n1.Netindex.appendZeros (1 <<< 16) }

/-- The method `Init`. -/
def Init (n : NeuQuant) (img : Image) : Option NeuQuant :=
  match Learn (initArrays n) img with
  | none => none
  | some n1 =>
    match buildColormap n1 with
    | none => none
    | some n2 => buildIndex n2

/-- The function `NewNeuquant`; `make` with a negative capacity panics. -/
def NewNeuquant (samplefrac colors : Int) (img : Image) : Option NeuQuant :=
  if colors < 0 then none
  else
    Init { Network := [], Colormap := [], Netindex := { len := 0, val := fun _ => 0 },
           Bias := [], Freq := [], Samplefrac := samplefrac, Netsize := colors } img

/-! ## Specification-side notions and concrete inputs -/

/-- The exact (non-wrapping) squared Euclidean distance between a palette entry
and a query colour. -/
def sqDist (c : Color) (b g r a : Nat) : Int :=
  ((c.b : Int) - b) ^ 2 + ((c.g : Int) - g) ^ 2 + ((c.r : Int) - r) ^ 2 + ((c.a : Int) - a) ^ 2

/-- The query `indexSearch(p.b, p.g, p.r, p.a)` for the colour of a pixel. -/
def query (n : NeuQuant) (p : Pixel) : Option Int := indexSearch n p.b p.g p.r p.a

/-- The 8-bit colour `GetPalette` makes of a palette entry. -/
def toRGBA (c : Color) : RGBA :=
  { R := toUint8Hi c.r, G := toUint8Hi c.g, B := toUint8Hi c.b, A := toUint8Hi c.a }

/-- A `Netindex` of 65536 zeros, as `Init` leaves it. -/
def zeroIndex : IntSlice := IntSlice.appendZeros { len := 0, val := fun _ => 0 } (1 <<< 16)

/-- The struct literal of `NewNeuquant`, before `Init` runs on it. -/
def emptyNet (samplefrac colors : Int) : NeuQuant :=
  { Network := [], Colormap := [], Netindex := { len := 0, val := fun _ => 0 },
    Bias := [], Freq := [], Samplefrac := samplefrac, Netsize := colors }

/-- An image of `w` by `h` pixels that all have the colour `p`. -/
def solidImage (w h : Int) (p : Pixel) : Image :=
  { MaxX := w, MaxY := h, At := fun _ _ => p }

def pureRed : Pixel := { r := 65535, g := 0, b := 0, a := 65535 }
def pureGreen : Pixel := { r := 0, g := 65535, b := 0, a := 65535 }
def pureBlue : Pixel := { r := 0, g := 0, b := 65535, a := 65535 }
def black : Pixel := { r := 0, g := 0, b := 0, a := 65535 }

/-- The 2 by 2 image with `p00` at `(0, 0)`, `p01` at `(0, 1)`, `p10` at `(1, 0)`
and `p11` at `(1, 1)`. -/
def fourPixels (p00 p01 p10 p11 : Pixel) : Image :=
  { MaxX := 2, MaxY := 2,
    At := fun x y =>
      if x = 0 then (if y = 0 then p00 else p01) else (if y = 0 then p10 else p11) }

/-- A trained two-neuron network: weights `(0,0,0,0)` and `(0,1,0,0)` (only the
green of the second is `1`), before `buildColormap` and `buildIndex`. -/
def twoGreens : NeuQuant :=
  { Network := [{ r := 0, g := 0, b := 0, a := 0 }, { r := 0, g := 1, b := 0, a := 0 }],
    Colormap := [{ r := 0, g := 0, b := 0, a := 0 }, { r := 0, g := 0, b := 0, a := 0 }],
    Netindex := zeroIndex, Bias := [0, 0], Freq := [2, 2], Samplefrac := 1, Netsize := 2 }

/-- A state whose three palette entries have greens above the 16-bit range and
are not in ascending order. -/
def wideGreens : NeuQuant :=
  { Network := [{ r := 0, g := 70000, b := 0, a := 0 }, { r := 0, g := 90000, b := 0, a := 0 },
                { r := 0, g := 80000, b := 0, a := 0 }],
    Colormap := [{ r := 0, g := 70000, b := 0, a := 0 }, { r := 0, g := 90000, b := 0, a := 0 },
                 { r := 0, g := 80000, b := 0, a := 0 }],
    Netindex := zeroIndex, Bias := [0, 0, 0], Freq := [3, 3, 3], Samplefrac := 1, Netsize := 3 }

/-- A state with the single neuron `(0,0,0,0)`, bias `0` and frequency `1`. -/
def oneNeuron : NeuQuant :=
  { Network := [{ r := 0, g := 0, b := 0, a := 0 }],
    Colormap := [{ r := 0, g := 0, b := 0, a := 0 }],
    Netindex := zeroIndex, Bias := [0], Freq := [1], Samplefrac := 1, Netsize := 1 }

/-- A state whose two palette entries have eight different non-zero channels,
all of 16 bits. -/
def mixedPalette : NeuQuant :=
  { Network := [{ r := 0, g := 0, b := 0, a := 0 }, { r := 0, g := 0, b := 0, a := 0 }],
    Colormap := [{ r := 65535, g := 4660, b := 513, a := 256 },
                 { r := 255, g := 43981, b := 32768, a := 1 }],
    Netindex := zeroIndex, Bias := [0, 0], Freq := [2, 2], Samplefrac := 1, Netsize := 2 }

/-- A state whose single palette entry has the red channel `65536`. -/
def wideRed : NeuQuant :=
  { Network := [{ r := 65536, g := 0, b := 0, a := 0 }],
    Colormap := [{ r := 65536, g := 0, b := 0, a := 0 }],
    Netindex := zeroIndex, Bias := [0], Freq := [1], Samplefrac := 1, Netsize := 1 }

/-- The distance `D` of a neuron from a sample: the sum of the four absolute
channel differences. -/
def absDist (w : Neuron) (b g r a : ℚ) : ℚ :=
  |w.b - b| + |w.g - g| + |w.r - r| + |w.a - a|

/-- The neuron `Network[i]` (a zero neuron outside the slice). -/
def neuronAt (n : NeuQuant) (i : Nat) : Neuron :=
  n.Network.getD i { r := 0, g := 0, b := 0, a := 0 }

/-- The value `Bias[i]` (zero outside the slice). -/
def biasAt (n : NeuQuant) (i : Nat) : ℚ := n.Bias.getD i 0

/-- The bias-adjusted distance `D(i) - Bias[i]` of neuron `i` from a sample. -/
def biasedDist (n : NeuQuant) (b g r a : ℚ) (i : Nat) : ℚ :=
  absDist (neuronAt n i) b g r a - biasAt n i

/-- What the local variables of `contest` satisfy after neurons `0 .. k - 1`. -/
def BestInv (n : NeuQuant) (b g r a : ℚ) (k : Nat) (bs : Best) : Prop :=
  bs.bestd ≤ MaxFloat64 ∧ bs.bestbiasd ≤ MaxFloat64 ∧
  (∀ i, i < k → bs.bestd ≤ absDist (neuronAt n i) b g r a) ∧
  (∀ i, i < k → bs.bestbiasd ≤ biasedDist n b g r a i) ∧
  ((bs.bestpos = -1 ∧ bs.bestd = MaxFloat64) ∨
    (∃ p : Nat, bs.bestpos = (p : Int) ∧ p < k ∧ bs.bestd = absDist (neuronAt n p) b g r a)) ∧
  ((bs.bestbiaspos = -1 ∧ bs.bestbiasd = MaxFloat64) ∨
    (∃ p : Nat, bs.bestbiaspos = (p : Int) ∧ p < k ∧ bs.bestbiasd = biasedDist n b g r a p ∧
      ∀ j, j < p → biasedDist n b g r a p < biasedDist n b g r a j))

/-- What the state of `contest` satisfies after neurons `0 .. k - 1`, relative to
the state `n` at the call. -/
def ContestInv (n : NeuQuant) (b g r a : ℚ) (k : Nat) (s : NeuQuant × Best) : Prop :=
  s.1.Network = n.Network ∧ s.1.Colormap = n.Colormap ∧ s.1.Netindex = n.Netindex ∧
  s.1.Samplefrac = n.Samplefrac ∧ s.1.Netsize = n.Netsize ∧
  s.1.Bias.length = n.Bias.length ∧ s.1.Freq.length = n.Freq.length ∧
  (∀ i, k ≤ i → s.1.Bias[i]? = n.Bias[i]?) ∧
  BestInv n b g r a k s.2

/-- What the state of `buildIndex` satisfies after `k` iterations of its outer
loop, relative to the state `n` at the call: only `Colormap` and `Netindex`
change, the palette keeps its length and its entries come from the old one,
`previousCol` is a 16-bit value, and the first `k` entries are in ascending
green order and not above any later entry. -/
def IndexInv (n : NeuQuant) (k : Nat) (st : IndexState) : Prop :=
  st.net.Network = n.Network ∧ st.net.Bias = n.Bias ∧ st.net.Freq = n.Freq ∧
  st.net.Samplefrac = n.Samplefrac ∧ st.net.Netsize = n.Netsize ∧
  st.net.Colormap.length = n.Colormap.length ∧
  (∀ c, c ∈ st.net.Colormap → c ∈ n.Colormap) ∧
  st.net.Netindex.len = n.Netindex.len ∧
  (0 ≤ st.previousCol ∧ st.previousCol ≤ 65535) ∧
  (∀ (i j : Nat) (ci cj : Color), i < k → i ≤ j → st.net.Colormap[i]? = some ci →
    st.net.Colormap[j]? = some cj → ci.g ≤ cj.g)

/-- A state whose palette has the greens `7`, `3`, `5`. -/
def smallGreens : NeuQuant :=
  { Network := [{ r := 0, g := 7, b := 0, a := 0 }, { r := 0, g := 3, b := 0, a := 0 },
                { r := 0, g := 5, b := 0, a := 0 }],
    Colormap := [{ r := 0, g := 7, b := 0, a := 0 }, { r := 0, g := 3, b := 0, a := 0 },
                 { r := 0, g := 5, b := 0, a := 0 }],
    Netindex := zeroIndex, Bias := [0, 0, 0], Freq := [3, 3, 3], Samplefrac := 1, Netsize := 3 }

/-- The value of the local variable `delta` of `Learn`. -/
def scanDelta (n : NeuQuant) (img : Image) : Int :=
  let delta := (wrapInt ((wrapInt (img.MaxX * img.MaxY)).tdiv n.Samplefrac)).tdiv NCYCLES
  if delta ≤ 0 then 1 else delta

/-- The number of pixel positions `(x, y)` with `0 < x < w`, `0 < y < h` and
`x * y` divisible by `delta`. -/
def decayPositions (w h : Nat) (delta : Int) : Nat :=
  ((List.range w).map (fun (x : Nat) =>
    ((List.range h).filter
      (fun (y : Nat) => decide ((0 < x ∧ 0 < y) ∧ ((x : Int) * (y : Int)) % delta = 0))).length)).sum

/-- The four weights of a neuron lie in `[0, M]`. -/
def InRange (M : ℚ) (w : Neuron) : Prop :=
  (0 ≤ w.r ∧ w.r ≤ M) ∧ (0 ≤ w.g ∧ w.g ≤ M) ∧ (0 ≤ w.b ∧ w.b ≤ M) ∧ (0 ≤ w.a ∧ w.a ≤ M)

/-- The colour of a pixel as the sample `Learn` passes to the weight update. -/
def sampleOf (px : Pixel) : Neuron :=
  { b := (px.b : ℚ), g := (px.g : ℚ), r := (px.r : ℚ), a := (px.a : ℚ) }

/-- What the loop state of `Learn` satisfies after `c` pixels, relative to the
state `n0` at the call: only `Network`, `Bias` and `Freq` change, they keep
`Netsize` entries, every weight lies in `[0, M]`, every frequency is
non-negative, no bias is below `-c`, and `alpha` lies in `[0, 1024]`. -/
def TrainInv (M : ℚ) (n0 : NeuQuant) (c : Nat) (st : LearnState) : Prop :=
  st.net.Colormap = n0.Colormap ∧ st.net.Netindex = n0.Netindex ∧
  st.net.Samplefrac = n0.Samplefrac ∧ st.net.Netsize = n0.Netsize ∧
  (st.net.Network.length : Int) = n0.Netsize ∧ (st.net.Bias.length : Int) = n0.Netsize ∧
  (st.net.Freq.length : Int) = n0.Netsize ∧
  (∀ w, w ∈ st.net.Network → InRange M w) ∧ (∀ f, f ∈ st.net.Freq → 0 ≤ f) ∧
  (∀ β, β ∈ st.net.Bias → -(c : ℚ) ≤ β) ∧
  0 ≤ st.alpha ∧ st.alpha ≤ 1024

/-- The sum of the `Freq` slice. -/
def freqSum (n : NeuQuant) : ℚ := n.Freq.sum

/-- The part of the loop body of `contest` that updates the four local
variables, with the early filter removed: the full four-channel distance is
computed for every neuron. -/
def updateBestUnpruned (b g r a : ℚ) (bs : Best) (i : Nat) (neuron : Neuron) (bias : ℚ) :
    Best :=
  let dist := fabs (neuron.b - b) + fabs (neuron.r - r)
  let dist := dist + fabs (neuron.g - g) + fabs (neuron.a - a)
  let bs0 : Best :=
    if dist < bs.bestd then { bs with bestd := dist, bestpos := i } else bs
  let biasdist := dist - bias
  if biasdist < bs0.bestbiasd then
    { bs0 with bestbiasd := biasdist, bestbiaspos := i }
  else bs0

/-- One iteration of the loop of `contest` with the early filter removed. -/
def contestStepUnpruned (b g r a : ℚ) (st : NeuQuant × Best) (i : Nat) :
    Option (NeuQuant × Best) :=
  let n := st.1
  let bs := st.2
  match index? n.Bias i, index? n.Network i, index? n.Freq i with
  | some bias, some neuron, some freq =>
    let bs1 := updateBestUnpruned b g r a bs i neuron bias
    let freq1 := freq - BETA * freq
    match store? n.Freq i freq1 with
    | none => none
    | some Freq1 =>
      match store? n.Bias i (bias + BETAGAMMA * freq1) with
      | none => none
      | some Bias1 => some ({ n with Freq := Freq1, Bias := Bias1 }, bs1)
  | _, _, _ => none

/-- The method `contest` with the early filter removed. -/
def contestUnpruned (n : NeuQuant) (b g r a : ℚ) : Option (Int × NeuQuant) :=
  let init : Best :=
    { bestd := MaxFloat64, bestbiasd := MaxFloat64, bestpos := -1, bestbiaspos := -1 }
  match (List.range n.Netsize.toNat).foldlM (contestStepUnpruned b g r a) (n, init) with
  | none => none
  | some (n1, bs) =>
    match index? n1.Freq bs.bestpos, index? n1.Bias bs.bestpos with
    | some f, some bi =>
      match store? n1.Freq bs.bestpos (f + BETA), store? n1.Bias bs.bestpos (bi - BETAGAMMA) with
      | some Freq2, some Bias2 => some (bs.bestbiaspos, { n1 with Freq := Freq2, Bias := Bias2 })
      | _, _ => none
    | _, _ => none

/-- The bias the doc comment of `contest` gives for neuron `i`:
`gamma * ((1 / netsize) - freq[i])`. -/
def biasFromFreq (n : NeuQuant) (i : Nat) : ℚ :=
  GAMMA * (1 / (n.Netsize : ℚ) - n.Freq.getD i 0)

/-- The colour `buildColormap` stores for a neuron: each weight through `clamp`. -/
def quantise (w : Neuron) : Color :=
  { b := clamp w.b, g := clamp w.g, r := clamp w.r, a := clamp w.a }

/-- The rounding and clamping the specification asks of `buildColormap`:
`min (max R 0) (2^31 - 1)` for `R` the weight rounded half away from zero. -/
def clampSpec (x : ℚ) : Int := min (max (AwayFromZero x) 0) 2147483647

/-- A state with one neuron whose weights are `r = -1`, `g = 0`, `b = 2^32`
and `a = 5/2`. -/
def outOfRangeWeights : NeuQuant :=
  { Network := [{ r := -1, g := 0, b := 4294967296, a := 5 / 2 }],
    Colormap := [{ r := 0, g := 0, b := 0, a := 0 }],
    Netindex := zeroIndex, Bias := [0], Freq := [1], Samplefrac := 1, Netsize := 1 }

/-- The factor `alterNeigh` computes in the iteration whose counter is `q`:
`alpha * (rad^2 - q^2) / rad^2`. -/
def neighFactor (alpha : ℚ) (rad q : Int) : ℚ :=
  (alpha * ((rad : ℚ) * (rad : ℚ) - (q : ℚ) * (q : ℚ))) / ((rad : ℚ) * (rad : ℚ))

/-- What the loop of `alterNeigh`, entered with the variables `j` and `k`,
leaves at position `p` of the slice `net`: the positions `j .. hi - 1` and
`lo + 1 .. k` are moved toward `quad`, position `p` by the factor whose counter
is its distance from `i` less one. -/
def neighOutcome (alpha : ℚ) (rad lo hi i : Int) (quad : Neuron) (net : List Neuron)
    (j k : Int) (p : Nat) : Option Neuron :=
  if j ≤ (p : Int) ∧ (p : Int) < hi then
    (net[p]?).map (fun w => moveToward (neighFactor alpha rad ((p : Int) - i - 1)) w quad)
  else if lo < (p : Int) ∧ (p : Int) ≤ k then
    (net[p]?).map (fun w => moveToward (neighFactor alpha rad (i - 1 - (p : Int))) w quad)
  else net[p]?

/-- A state with the three neurons `(10,10,10,10)`, `(20,20,20,20)` and
`(30,30,30,30)`. -/
def threeNeurons : NeuQuant :=
  { Network := [{ r := 10, g := 10, b := 10, a := 10 }, { r := 20, g := 20, b := 20, a := 20 },
                { r := 30, g := 30, b := 30, a := 30 }],
    Colormap := [{ r := 0, g := 0, b := 0, a := 0 }, { r := 0, g := 0, b := 0, a := 0 },
                 { r := 0, g := 0, b := 0, a := 0 }],
    Netindex := zeroIndex, Bias := [0, 0, 0], Freq := [3, 3, 3], Samplefrac := 1, Netsize := 3 }

/-- A state with the four neurons `(9,9,9,9)`, `(18,18,18,18)`, `(27,27,27,27)`
and `(36,36,36,36)`. -/
def fourNeurons : NeuQuant :=
  { Network := [{ r := 9, g := 9, b := 9, a := 9 }, { r := 18, g := 18, b := 18, a := 18 },
                { r := 27, g := 27, b := 27, a := 27 }, { r := 36, g := 36, b := 36, a := 36 }],
    Colormap := [{ r := 0, g := 0, b := 0, a := 0 }, { r := 0, g := 0, b := 0, a := 0 },
                 { r := 0, g := 0, b := 0, a := 0 }, { r := 0, g := 0, b := 0, a := 0 }],
    Netindex := zeroIndex, Bias := [0, 0, 0, 0], Freq := [4, 4, 4, 4], Samplefrac := 1,
    Netsize := 4 }

/-- The number of palette entries whose green is at most `v`. -/
def countLE (cm : List Color) (v : Nat) : Nat := cm.countP (fun c => decide (c.g ≤ v))

/-- What the state of `buildIndex` satisfies after `k` iterations of its outer
loop, beside `IndexInv`: the palette is a permutation of the one at the call;
`previousCol` is `0` or a green of the palette, is not below the green of any
of the first `k` entries and not above that of any later entry; and for every
`v` below `previousCol` the entry `Netindex[v]` is the number of palette
entries with green at most `v`. -/
def IndexInv2 (n : NeuQuant) (k : Nat) (st : IndexState) : Prop :=
  List.Perm st.net.Colormap n.Colormap ∧
  (st.previousCol = 0 ∨ st.previousCol ∈ n.Colormap.map (fun c => (c.g : Int))) ∧
  (∀ (p : Nat) (c : Color), p < k → st.net.Colormap[p]? = some c →
    (c.g : Int) ≤ st.previousCol) ∧
  (∀ (p : Nat) (c : Color), k ≤ p → st.net.Colormap[p]? = some c →
    st.previousCol ≤ (c.g : Int)) ∧
  (∀ v : Nat, (v : Int) < st.previousCol →
    st.net.Netindex.val v = (countLE n.Colormap v : Int))

/-- The value of the local variable `alphadec` of `Learn`. -/
def scanAlphadec (n : NeuQuant) : ℚ :=
  ((((30 : Int) <<< 8) + (n.Samplefrac - 1).tdiv 3 : Int) : ℚ)

/-- The values of the local variables of `Learn` when its scan starts. -/
def scanStart (n : NeuQuant) : LearnState :=
  let initrad := n.Netsize.tdiv 8
  let radiusbiasshift : Nat := 6
  let radiusbias : Int := 1 <<< radiusbiasshift
  let bias_radius := initrad * radiusbias
  let rad := bias_radius >>> radiusbiasshift
  { net := n, alpha := (INIT_ALPHA : ℚ), bias_radius := bias_radius,
    rad := if rad ≤ 1 then 0 else rad, decays := 0 }

/-- The state in which `Learn` enters the body of its inner loop at pixel
`(x, y)`: `x` whole columns and the pixels `0 .. y - 1` of column `x` have been
processed. -/
def learnBefore (n : NeuQuant) (img : Image) (x y : Nat) : Option LearnState :=
  if n.Samplefrac = 0 then none
  else
    match (List.range x).foldlM (learnColumn img (scanAlphadec n) (scanDelta n img))
        (scanStart n) with
    | none => none
    | some st =>
      (List.range y).foldlM
        (fun st y => learnPixel img (scanAlphadec n) (scanDelta n img) x y st) st

/-- The invariant of the scan of `Learn` with a strictly positive `alpha`. -/
def TrainInvPos (M : ℚ) (n0 : NeuQuant) (c : Nat) (st : LearnState) : Prop :=
  TrainInv M n0 c st ∧ 0 < st.alpha

/-- The part of the loop body of `contest` that updates the four local
variables, every operation rounded, with the early filter removed. -/
def updateBestUnprunedF64 (b g r a : ℚ) (bs : Best) (i : Nat) (neuron : Neuron) (bias : ℚ) :
    Best :=
  let dist := fabs (subF64 neuron.b b)
  let dist := addF64 dist (fabs (subF64 neuron.r r))
  let dist := addF64 dist (fabs (subF64 neuron.g g))
  let dist := addF64 dist (fabs (subF64 neuron.a a))
  let bs0 : Best :=
    if dist < bs.bestd then { bs with bestd := dist, bestpos := i } else bs
  let biasdist := subF64 dist bias
  if biasdist < bs0.bestbiasd then
    { bs0 with bestbiasd := biasdist, bestbiaspos := i }
  else bs0

/-- The method `contest` in binary64 with the early filter removed. -/
def contestUnprunedF64 (n : NeuQuant) (b g r a : ℚ) : Option (Int × NeuQuant) :=
  contestWithF64 (updateBestUnprunedF64 b g r a) n

/-- The `float64` nearest to `0.1`. -/
def f64Tenth : ℚ := 3602879701896397 / 36028797018963968

/-- The `float64` nearest to `0.4`. -/
def f64TwoFifths : ℚ := 3602879701896397 / 9007199254740992

/-- The `float64` nearest to `0.7`. -/
def f64SevenTenths : ℚ := 3152519739159347 / 4503599627370496

/-- The `float64` below the one nearest to `0.8`, printed `0.7999999999999999`;
it is the `float64` sum `0.1 + 0.7`. -/
def f64BelowFourFifths : ℚ := 7205759403792793 / 9007199254740992

/-- A state of two neurons with `b` weights `0.1` and `0.7999999999999999`
(other weights `0`) and `Bias = [0, 0.7]`. -/
def biasSevenTenths : NeuQuant :=
  { Network := [{ r := 0, g := 0, b := f64Tenth, a := 0 },
                { r := 0, g := 0, b := f64BelowFourFifths, a := 0 }],
    Colormap := [{ r := 0, g := 0, b := 0, a := 0 }, { r := 0, g := 0, b := 0, a := 0 }],
    Netindex := zeroIndex, Bias := [0, f64SevenTenths], Freq := [1 / 2, 1 / 2],
    Samplefrac := 1, Netsize := 2 }

/-- A state of two neurons with `b` weights `0.1` and `0.5` (other weights `0`)
and `Bias = [0, 0.4]`. -/
def biasTwoFifths : NeuQuant :=
  { Network := [{ r := 0, g := 0, b := f64Tenth, a := 0 },
                { r := 0, g := 0, b := 1 / 2, a := 0 }],
    Colormap := [{ r := 0, g := 0, b := 0, a := 0 }, { r := 0, g := 0, b := 0, a := 0 }],
    Netindex := zeroIndex, Bias := [0, f64TwoFifths], Freq := [1 / 2, 1 / 2],
    Samplefrac := 1, Netsize := 2 }

/-! ## Loops over `List.range` -/

theorem foldlM_range_succ {σ : Type} (f : σ → Nat → Option σ) (a : σ) (k : Nat) :
    (List.range (k + 1)).foldlM f a = ((List.range k).foldlM f a).bind (fun s => f s k) := by
  rw [List.range_succ, List.foldlM_append]
  cases h : List.foldlM f a (List.range k) with
  | none => rfl
  | some s =>
    simp only [bind, Option.bind]
    cases hf : f s k <;> simp [List.foldlM, hf, bind, pure]

/-- Invariant rule for a `for i := 0; i < k; i++` loop that may panic: when every
iteration keeps the invariant and does not panic, the loop does not panic and
the invariant holds at exit. -/
theorem foldlM_range_inv {σ : Type} (f : σ → Nat → Option σ) (P : Nat → σ → Prop) (a : σ)
    (k : Nat) (h0 : P 0 a)
    (hstep : ∀ i s, i < k → P i s → ∃ s1, f s i = some s1 ∧ P (i + 1) s1) :
    ∃ s, (List.range k).foldlM f a = some s ∧ P k s := by
  induction k with
  | zero => exact ⟨a, rfl, h0⟩
  | succ m ih =>
    obtain ⟨s, hs, hP⟩ := ih (fun i s hi => hstep i s (Nat.lt_succ_of_lt hi))
    obtain ⟨s1, hf, hP1⟩ := hstep m s (Nat.lt_succ_self m) hP
    exact ⟨s1, by rw [foldlM_range_succ, hs]; exact hf, hP1⟩

/-- A loop whose first iteration panics panics. -/
theorem foldlM_range_first_none {σ : Type} (f : σ → Nat → Option σ) (a : σ) (k : Nat)
    (hk : 0 < k) (h : f a 0 = none) : (List.range k).foldlM f a = none := by
  obtain ⟨m, rfl⟩ : ∃ m, k = m + 1 := ⟨k - 1, by omega⟩
  rw [List.range_succ_eq_map, List.foldlM_cons, h]
  rfl

theorem index?_natCast {α : Type} (xs : List α) (i : Nat) : index? xs (i : Int) = xs[i]? := by
  simp [index?]

theorem store?_natCast {α : Type} (xs : List α) (i : Nat) (v : α) (h : i < xs.length) :
    store? xs (i : Int) v = some (xs.set i v) := by
  simp [store?, h]

/-! ## Initialisation -/

theorem initStep_loop (freq : ℚ) (n0 : NeuQuant) (k : Nat) :
    ((List.range k).foldl (initStep freq) n0).Freq = n0.Freq ++ List.replicate k freq ∧
    ((List.range k).foldl (initStep freq) n0).Bias = n0.Bias ++ List.replicate k 0 ∧
    ((List.range k).foldl (initStep freq) n0).Network =
      n0.Network ++ (List.range k).map
        (fun (i : Nat) => ({ r := (i : ℚ), g := (i : ℚ), b := (i : ℚ), a := 255 } : Neuron)) ∧
    ((List.range k).foldl (initStep freq) n0).Colormap =
      n0.Colormap ++ List.replicate k ({ r := 0, g := 0, b := 0, a := 0 } : Color) ∧
    ((List.range k).foldl (initStep freq) n0).Netindex = n0.Netindex ∧
    ((List.range k).foldl (initStep freq) n0).Samplefrac = n0.Samplefrac ∧
    ((List.range k).foldl (initStep freq) n0).Netsize = n0.Netsize := by
  induction k with
  | zero => simp
  | succ m ih =>
    obtain ⟨h1, h2, h3, h4, h5, h6, h7⟩ := ih
    rw [List.range_succ, List.foldl_append]
    simp only [List.foldl_cons, List.foldl_nil, initStep, h1, h2, h3, h4, h5, h6, h7,
      List.map_append, List.map_cons, List.map_nil, List.append_assoc, List.replicate_succ',
      and_self]

theorem initArrays_Freq (n : NeuQuant) :
    (initArrays n).Freq = List.replicate n.Netsize.toNat (n.Netsize : ℚ) := by
  have h := (initStep_loop (n.Netsize : ℚ)
    { n with Network := [], Colormap := [], Bias := [], Freq := [] } n.Netsize.toNat).1
  simpa [initArrays] using h

theorem initArrays_Bias (n : NeuQuant) :
    (initArrays n).Bias = List.replicate n.Netsize.toNat 0 := by
  have h := (initStep_loop (n.Netsize : ℚ)
    { n with Network := [], Colormap := [], Bias := [], Freq := [] } n.Netsize.toNat).2.1
  simpa [initArrays] using h

theorem initArrays_Samplefrac (n : NeuQuant) : (initArrays n).Samplefrac = n.Samplefrac := by
  have h := (initStep_loop (n.Netsize : ℚ)
    { n with Network := [], Colormap := [], Bias := [], Freq := [] } n.Netsize.toNat).2.2.2.2.2.1
  simpa [initArrays] using h

theorem initArrays_Netsize (n : NeuQuant) : (initArrays n).Netsize = n.Netsize := by
  have h := (initStep_loop (n.Netsize : ℚ)
    { n with Network := [], Colormap := [], Bias := [], Freq := [] } n.Netsize.toNat).2.2.2.2.2.2
  simpa [initArrays] using h

/-! ## Palette export -/

theorem paletteStep_loop (n : NeuQuant) (k : Nat) (hk : k ≤ n.Colormap.length) :
    (List.range k).foldlM (paletteStep n) [] = some ((n.Colormap.take k).map toRGBA) := by
  induction k with
  | zero => rfl
  | succ m ih =>
    have hm : m < n.Colormap.length := hk
    rw [foldlM_range_succ, ih (Nat.le_of_lt hm)]
    simp only [Option.bind, paletteStep, index?_natCast, List.getElem?_eq_getElem hm]
    rw [List.take_succ, List.getElem?_eq_getElem hm]
    simp only [Option.toList, List.map_append, List.map_cons, List.map_nil, toRGBA]

theorem GetPalette_eq (n : NeuQuant) (hlen : (n.Colormap.length : Int) = n.Netsize) :
    GetPalette n = some (n.Colormap.map toRGBA, n) := by
  have hN : n.Netsize.toNat = n.Colormap.length := by omega
  have h0 : ¬ n.Netsize < 0 := by omega
  unfold GetPalette
  rw [if_neg h0, hN, paletteStep_loop n _ (Nat.le_refl _), List.take_length]

theorem toUint8Hi_of_le (c : Nat) (h : c ≤ 65535) :
    toUint8Hi c = c / 256 ∧ c / 256 ≤ 255 := by
  unfold toUint8Hi
  rw [Nat.shiftRight_eq_div_pow]
  omega

/-- C10: in the state `Init` constructs before the first training step every
`Freq` entry is `Netsize` itself (the source assigns `freq := float64(n.Netsize)`),
not `1 / Netsize`; every `Bias` entry is `0`. -/
theorem Init_initial_Freq_is_Netsize (n : NeuQuant) :
    (initArrays n).Freq = List.replicate n.Netsize.toNat (n.Netsize : ℚ) ∧
    (initArrays n).Bias = List.replicate n.Netsize.toNat 0 ∧
    (initArrays (emptyNet 1 2)).Freq = [2, 2] ∧ (2 : ℚ) ≠ 1 / 2 :=
  ⟨initArrays_Freq n, initArrays_Bias n, by decide!, by norm_num⟩

/-- C3, counterexample: for the one-entry palette with red channel `65536` the
palette `GetPalette` returns is not the list of the stored channels shifted
right by 8 bits (`65536 >> 8 = 256`, the returned component is `0`). -/
theorem GetPalette_not_plain_shift :
    (GetPalette wideRed).map (fun x => x.1) ≠
      some (wideRed.Colormap.map
        (fun c => ({ R := c.r >>> 8, G := c.g >>> 8, B := c.b >>> 8, A := c.a >>> 8 } : RGBA))) := by
  decide!

/-- C3, amended: `GetPalette` returns `Netsize` colours in `Colormap` order, entry
`i` having as components the low 8 bits of the stored channels of `Colormap[i]`
shifted right by 8 bits (for a stored channel `≤ 65535` that is
`channel / 256`, at most `255`), and leaves the state, hence `Colormap`,
unchanged. -/
theorem GetPalette_exports_high_bytes (n : NeuQuant)
    (hlen : (n.Colormap.length : Int) = n.Netsize) :
    ∃ palette, GetPalette n = some (palette, n) ∧ (palette.length : Int) = n.Netsize ∧
      ∀ (i : Nat) (c : Color), n.Colormap[i]? = some c →
        palette[i]? = some { R := (c.r >>> 8) % 256, G := (c.g >>> 8) % 256,
                                B := (c.b >>> 8) % 256, A := (c.a >>> 8) % 256 } ∧
        (c.r ≤ 65535 → (c.r >>> 8) % 256 = c.r / 256 ∧ c.r / 256 ≤ 255) ∧
        (c.g ≤ 65535 → (c.g >>> 8) % 256 = c.g / 256 ∧ c.g / 256 ≤ 255) ∧
        (c.b ≤ 65535 → (c.b >>> 8) % 256 = c.b / 256 ∧ c.b / 256 ≤ 255) ∧
        (c.a ≤ 65535 → (c.a >>> 8) % 256 = c.a / 256 ∧ c.a / 256 ≤ 255) := by
  refine ⟨n.Colormap.map toRGBA, GetPalette_eq n hlen, by simpa using hlen, ?_⟩
  intro i c hc
  refine ⟨?_, toUint8Hi_of_le c.r, toUint8Hi_of_le c.g, toUint8Hi_of_le c.b,
    toUint8Hi_of_le c.a⟩
  rw [List.getElem?_map, hc]
  rfl

/-- C3, witness: the theorem at the two-entry palette of `mixedPalette`, whose
entries `(65535, 4660, 513, 256)` and `(255, 43981, 32768, 1)` are exported, in
this order, as `(255, 18, 2, 1)` and `(0, 171, 128, 0)`. -/
theorem GetPalette_exports_high_bytes_witness :
    (∃ palette, GetPalette mixedPalette = some (palette, mixedPalette) ∧
      (palette.length : Int) = mixedPalette.Netsize ∧
      ∀ (i : Nat) (c : Color), mixedPalette.Colormap[i]? = some c →
        palette[i]? = some { R := (c.r >>> 8) % 256, G := (c.g >>> 8) % 256,
                                B := (c.b >>> 8) % 256, A := (c.a >>> 8) % 256 } ∧
        (c.r ≤ 65535 → (c.r >>> 8) % 256 = c.r / 256 ∧ c.r / 256 ≤ 255) ∧
        (c.g ≤ 65535 → (c.g >>> 8) % 256 = c.g / 256 ∧ c.g / 256 ≤ 255) ∧
        (c.b ≤ 65535 → (c.b >>> 8) % 256 = c.b / 256 ∧ c.b / 256 ≤ 255) ∧
        (c.a ≤ 65535 → (c.a >>> 8) % 256 = c.a / 256 ∧ c.a / 256 ≤ 255)) ∧
    (GetPalette mixedPalette).map (fun x => x.1) =
      some [{ R := 255, G := 18, B := 2, A := 1 }, { R := 0, G := 171, B := 128, A := 0 }] :=
  ⟨GetPalette_exports_high_bytes mixedPalette (by decide), by decide!⟩

/-! ## Failing runs of the query -/

/-- C1: on the palette `[(0,0,0,0), (r=0,g=1,b=0,a=0)]`, built by `buildColormap`
and `buildIndex` from `twoGreens`, the query `(0,0,0,0)` returns index `1`,
although the entry at index `0` is strictly closer (distance `0` against `1`). -/
theorem indexSearch_misses_nearest_entry :
    ((buildColormap twoGreens).bind buildIndex).map
        (fun n => (n.Colormap, indexSearch n 0 0 0 0)) =
      some ([{ r := 0, g := 0, b := 0, a := 0 }, { r := 0, g := 1, b := 0, a := 0 }], some 1) ∧
    sqDist { r := 0, g := 0, b := 0, a := 0 } 0 0 0 0 <
      sqDist { r := 0, g := 1, b := 0, a := 0 } 0 0 0 0 := by
  constructor
  · decide!
  · decide

/-- C4: for `Netsize = 2`, `Samplefrac = 1` and the 1 by 1 image whose pixel is
pure red, the palette is `[red, (1,1,1,255)]` and the query for red returns
index `1`, whose entry is not red. -/
theorem solid_red_query_misses_red :
    (NewNeuquant 1 2 (solidImage 1 1 pureRed)).map (fun n => (n.Colormap, query n pureRed)) =
      some ([{ r := 65535, g := 0, b := 0, a := 65535 }, { r := 1, g := 1, b := 1, a := 255 }],
        some 1) := by
  decide!

set_option maxRecDepth 100000 in
/-- C5: for `Netsize = 16`, `Samplefrac = 1` and the 2 by 2 image with black at
`(0,0)`, blue at `(0,1)`, green at `(1,0)` and red at `(1,1)`, the queries for
red, green, blue and black return `2`, `15`, `3` and `3`: blue and black share
an index. -/
theorem four_colours_blue_black_collide :
    (NewNeuquant 1 16 (fourPixels black pureBlue pureGreen pureRed)).map
        (fun n => (query n pureRed, query n pureGreen, query n pureBlue, query n black)) =
      some (some 2, some 15, some 3, some 3) := by
  decide!

/-- C8: in the state `Init` creates for `Netsize = 2` the sum of `Freq` is `4`;
after one call of `contest` (sample `(0,0,0,0)`) it is `4093 / 1024`. -/
theorem contest_changes_Freq_sum :
    freqSum (initArrays (emptyNet 1 2)) = 4 ∧
    (contest (initArrays (emptyNet 1 2)) 0 0 0 0).map (fun x => freqSum x.2) =
      some (4093 / 1024) := by
  constructor <;> decide!

/-! ## Preconditions of `NewNeuquant` -/

theorem contest_none_of_Netsize_zero (n : NeuQuant) (b g r a : ℚ) (h : n.Netsize = 0) :
    contest n b g r a = none := by
  simp [contest, h, index?]

theorem learnScan_none_of_Samplefrac_zero (n : NeuQuant) (img : Image)
    (h : n.Samplefrac = 0) : learnScan n img = none := by
  simp [learnScan, h]

theorem learnScan_none_of_Netsize_zero (n : NeuQuant) (img : Image) (h : n.Netsize = 0)
    (hx : 1 ≤ img.MaxX) (hy : 1 ≤ img.MaxY) : learnScan n img = none := by
  unfold learnScan
  by_cases hs : n.Samplefrac = 0
  · simp [hs]
  · simp only [hs, if_false]
    apply foldlM_range_first_none _ _ _ (by omega)
    unfold learnColumn
    apply foldlM_range_first_none _ _ _ (by omega)
    simp only [learnPixel]
    rw [contest_none_of_Netsize_zero _ _ _ _ _ h]

/-- C6, counterexample: `NewNeuquant` returns a network for a zero-pixel image
(`Samplefrac = 1`, `Netsize = 1`, width and height `0`) and for the negative
`Samplefrac = -1` (`Netsize = 1`, a 1 by 1 image). -/
theorem NewNeuquant_returns_despite_violation :
    (NewNeuquant 1 1 (solidImage 0 0 black)).isSome = true ∧
    (NewNeuquant (-1) 1 (solidImage 1 1 black)).isSome = true := by
  constructor <;> decide!

/-- C6, amended: `NewNeuquant` panics when `Samplefrac = 0` (integer division by
zero in `Learn`), when `Netsize < 0` (`make` with a negative capacity), and when
`Netsize = 0` and the image has at least one pixel (`Freq[-1]` in `contest`). -/
theorem NewNeuquant_panics (samplefrac colors : Int) (img : Image)
    (h : samplefrac = 0 ∨ colors < 0 ∨ (colors = 0 ∧ 1 ≤ img.MaxX ∧ 1 ≤ img.MaxY)) :
    NewNeuquant samplefrac colors img = none := by
  unfold NewNeuquant
  by_cases hc : colors < 0
  · simp [hc]
  · simp only [hc, if_false]
    have hL : Learn (initArrays (emptyNet samplefrac colors)) img = none := by
      unfold Learn
      rcases h with h | h | ⟨h0, hx, hy⟩
      · rw [learnScan_none_of_Samplefrac_zero _ _ (by rw [initArrays_Samplefrac]; exact h)]
        rfl
      · exact absurd h hc
      · rw [learnScan_none_of_Netsize_zero _ _ (by rw [initArrays_Netsize]; exact h0) hx hy]
        rfl
    show Init (emptyNet samplefrac colors) img = none
    unfold Init
    rw [hL]

/-- C6, witness: `Samplefrac = 0` with 16 colours on a 2 by 2 image. -/
theorem NewNeuquant_panics_witness :
    NewNeuquant 0 16 (solidImage 2 2 black) = none :=
  NewNeuquant_panics 0 16 (solidImage 2 2 black) (Or.inl rfl)

/-! ## The winner of a contest -/

theorem fabs_eq_abs (x : ℚ) : fabs x = |x| := by
  unfold fabs
  split_ifs with h
  · exact (abs_of_neg h).symm
  · exact (abs_of_nonneg (not_lt.mp h)).symm

theorem partial_le_absDist (w : Neuron) (b g r a : ℚ) :
    fabs (w.b - b) + fabs (w.r - r) ≤ absDist w b g r a := by
  simp only [fabs_eq_abs, absDist]
  have h1 := abs_nonneg (w.g - g)
  have h2 := abs_nonneg (w.a - a)
  linarith

theorem full_eq_absDist (w : Neuron) (b g r a : ℚ) :
    fabs (w.b - b) + fabs (w.r - r) + fabs (w.g - g) + fabs (w.a - a) = absDist w b g r a := by
  simp only [fabs_eq_abs, absDist]
  ring

theorem updateBest_inv (n : NeuQuant) (b g r a : ℚ) (k : Nat) (bs : Best)
    (h : BestInv n b g r a k bs) :
    BestInv n b g r a (k + 1) (updateBest b g r a bs k (neuronAt n k) (biasAt n k)) := by
  obtain ⟨hd, hbd, hall, hball, hpos, hbpos⟩ := h
  have hpart := partial_le_absDist (neuronAt n k) b g r a
  have hfull := full_eq_absDist (neuronAt n k) b g r a
  have hpos1 : (bs.bestpos = -1 ∧ bs.bestd = MaxFloat64) ∨
      (∃ p : Nat, bs.bestpos = (p : Int) ∧ p < k + 1 ∧
        bs.bestd = absDist (neuronAt n p) b g r a) := by
    rcases hpos with h | ⟨p, h1, h2, h3⟩
    · exact Or.inl h
    · exact Or.inr ⟨p, h1, Nat.lt_succ_of_lt h2, h3⟩
  have hbpos1 : (bs.bestbiaspos = -1 ∧ bs.bestbiasd = MaxFloat64) ∨
      (∃ p : Nat, bs.bestbiaspos = (p : Int) ∧ p < k + 1 ∧
        bs.bestbiasd = biasedDist n b g r a p ∧
        ∀ j, j < p → biasedDist n b g r a p < biasedDist n b g r a j) := by
    rcases hbpos with h | ⟨p, h1, h2, h3, h4⟩
    · exact Or.inl h
    · exact Or.inr ⟨p, h1, Nat.lt_succ_of_lt h2, h3, h4⟩
  have hbk : biasedDist n b g r a k = absDist (neuronAt n k) b g r a - biasAt n k := rfl
  unfold updateBest
  simp only [hfull]
  by_cases hf : fabs ((neuronAt n k).b - b) + fabs ((neuronAt n k).r - r) < bs.bestd ∨
      fabs ((neuronAt n k).b - b) + fabs ((neuronAt n k).r - r) < bs.bestbiasd + biasAt n k
  · rw [if_pos hf]
    by_cases h1 : absDist (neuronAt n k) b g r a < bs.bestd
    · rw [if_pos h1]
      by_cases h2 : absDist (neuronAt n k) b g r a - biasAt n k < bs.bestbiasd
      · rw [if_pos h2]
        refine ⟨le_trans (le_of_lt h1) hd, le_trans (le_of_lt h2) hbd, ?_, ?_, ?_, ?_⟩
        · intro i hi
          rcases Nat.lt_succ_iff_lt_or_eq.mp hi with hi | rfl
          · exact le_trans (le_of_lt h1) (hall i hi)
          · exact le_refl _
        · intro i hi
          rcases Nat.lt_succ_iff_lt_or_eq.mp hi with hi | rfl
          · exact le_trans (le_of_lt h2) (hball i hi)
          · exact le_refl _
        · exact Or.inr ⟨k, rfl, Nat.lt_succ_self k, rfl⟩
        · exact Or.inr ⟨k, rfl, Nat.lt_succ_self k, rfl,
            fun j hj => lt_of_lt_of_le h2 (hball j hj)⟩
      · rw [if_neg h2]
        refine ⟨le_trans (le_of_lt h1) hd, hbd, ?_, ?_, ?_, hbpos1⟩
        · intro i hi
          rcases Nat.lt_succ_iff_lt_or_eq.mp hi with hi | rfl
          · exact le_trans (le_of_lt h1) (hall i hi)
          · exact le_refl _
        · intro i hi
          rcases Nat.lt_succ_iff_lt_or_eq.mp hi with hi | rfl
          · exact hball i hi
          · exact not_lt.mp h2
        · exact Or.inr ⟨k, rfl, Nat.lt_succ_self k, rfl⟩
    · rw [if_neg h1]
      by_cases h2 : absDist (neuronAt n k) b g r a - biasAt n k < bs.bestbiasd
      · rw [if_pos h2]
        refine ⟨hd, le_trans (le_of_lt h2) hbd, ?_, ?_, hpos1, ?_⟩
        · intro i hi
          rcases Nat.lt_succ_iff_lt_or_eq.mp hi with hi | rfl
          · exact hall i hi
          · exact not_lt.mp h1
        · intro i hi
          rcases Nat.lt_succ_iff_lt_or_eq.mp hi with hi | rfl
          · exact le_trans (le_of_lt h2) (hball i hi)
          · exact le_refl _
        · exact Or.inr ⟨k, rfl, Nat.lt_succ_self k, rfl,
            fun j hj => lt_of_lt_of_le h2 (hball j hj)⟩
      · rw [if_neg h2]
        refine ⟨hd, hbd, ?_, ?_, hpos1, hbpos1⟩
        · intro i hi
          rcases Nat.lt_succ_iff_lt_or_eq.mp hi with hi | rfl
          · exact hall i hi
          · exact not_lt.mp h1
        · intro i hi
          rcases Nat.lt_succ_iff_lt_or_eq.mp hi with hi | rfl
          · exact hball i hi
          · exact not_lt.mp h2
  · rw [if_neg hf]
    have hf1 : bs.bestd ≤ fabs ((neuronAt n k).b - b) + fabs ((neuronAt n k).r - r) :=
      not_lt.mp (fun h => hf (Or.inl h))
    have hf2 : bs.bestbiasd + biasAt n k ≤
        fabs ((neuronAt n k).b - b) + fabs ((neuronAt n k).r - r) :=
      not_lt.mp (fun h => hf (Or.inr h))
    refine ⟨hd, hbd, ?_, ?_, hpos1, hbpos1⟩
    · intro i hi
      rcases Nat.lt_succ_iff_lt_or_eq.mp hi with hi | rfl
      · exact hall i hi
      · exact le_trans hf1 hpart
    · intro i hi
      rcases Nat.lt_succ_iff_lt_or_eq.mp hi with hi | rfl
      · exact hball i hi
      · rw [hbk]; linarith

theorem contestStep_inv (n : NeuQuant) (b g r a : ℚ) (k : Nat) (s : NeuQuant × Best)
    (hkN : k < n.Network.length) (hkB : k < n.Bias.length) (hkF : k < n.Freq.length)
    (h : ContestInv n b g r a k s) :
    ∃ s1, contestStep b g r a s k = some s1 ∧ ContestInv n b g r a (k + 1) s1 := by
  obtain ⟨hNet, hCm, hNi, hSf, hNs, hBl, hFl, hBk, hbest⟩ := h
  have hB : index? s.1.Bias (k : Int) = some (biasAt n k) := by
    rw [index?_natCast, hBk k (Nat.le_refl k), List.getElem?_eq_getElem hkB]
    simp [biasAt, List.getElem?_eq_getElem hkB]
  have hW : index? s.1.Network (k : Int) = some (neuronAt n k) := by
    rw [index?_natCast, hNet, List.getElem?_eq_getElem hkN]
    simp [neuronAt, List.getElem?_eq_getElem hkN]
  have hkF1 : k < s.1.Freq.length := by rw [hFl]; exact hkF
  have hkB1 : k < s.1.Bias.length := by rw [hBl]; exact hkB
  have hF : index? s.1.Freq (k : Int) = some (s.1.Freq[k]) := by
    rw [index?_natCast, List.getElem?_eq_getElem hkF1]
  simp only [contestStep, hB, hW, hF, store?_natCast _ _ _ hkF1, store?_natCast _ _ _ hkB1]
  refine ⟨_, rfl, hNet, hCm, hNi, hSf, hNs, ?_, ?_, ?_, updateBest_inv n b g r a k s.2 hbest⟩
  · simp [hBl]
  · simp [hFl]
  · intro i hi
    have hne : k ≠ i := by omega
    simp only [List.getElem?_set_ne hne]
    exact hBk i (by omega)

theorem contest_loop (n : NeuQuant) (b g r a : ℚ)
    (hNet : n.Network.length = n.Netsize.toNat) (hB : n.Bias.length = n.Netsize.toNat)
    (hF : n.Freq.length = n.Netsize.toNat) :
    ∃ s, (List.range n.Netsize.toNat).foldlM (contestStep b g r a)
        (n, { bestd := MaxFloat64, bestbiasd := MaxFloat64, bestpos := -1, bestbiaspos := -1 })
          = some s ∧
      ContestInv n b g r a n.Netsize.toNat s := by
  apply foldlM_range_inv (contestStep b g r a) (ContestInv n b g r a)
  · refine ⟨rfl, rfl, rfl, rfl, rfl, rfl, rfl, fun _ _ => rfl, le_refl _, le_refl _, ?_, ?_,
      Or.inl ⟨rfl, rfl⟩, Or.inl ⟨rfl, rfl⟩⟩
    · intro i hi; exact absurd hi (Nat.not_lt_zero i)
    · intro i hi; exact absurd hi (Nat.not_lt_zero i)
  · intro i s hi hs
    exact contestStep_inv n b g r a i s (by omega) (by omega) (by omega) hs

/-- What `contest` does on a state whose three slices have `Netsize` entries,
when some neuron is closer to the sample than `MaxFloat64`: it does not panic,
changes only `Freq` and `Bias` (not their lengths), and returns either `-1` (no
bias-adjusted distance is below `MaxFloat64`) or the first index of least
bias-adjusted distance. -/
theorem contest_result (n : NeuQuant) (b g r a : ℚ)
    (hNet : n.Network.length = n.Netsize.toNat) (hB : n.Bias.length = n.Netsize.toNat)
    (hF : n.Freq.length = n.Netsize.toNat)
    (h1 : ∃ i, i < n.Netsize.toNat ∧ absDist (neuronAt n i) b g r a < MaxFloat64) :
    ∃ (j : Int) (n1 : NeuQuant), contest n b g r a = some (j, n1) ∧
      n1.Network = n.Network ∧ n1.Colormap = n.Colormap ∧ n1.Netindex = n.Netindex ∧
      n1.Samplefrac = n.Samplefrac ∧ n1.Netsize = n.Netsize ∧
      n1.Bias.length = n.Bias.length ∧ n1.Freq.length = n.Freq.length ∧
      ((j = -1 ∧ ∀ i, i < n.Netsize.toNat → MaxFloat64 ≤ biasedDist n b g r a i) ∨
       (∃ p : Nat, j = (p : Int) ∧ p < n.Netsize.toNat ∧
          (∀ i, i < n.Netsize.toNat → biasedDist n b g r a p ≤ biasedDist n b g r a i) ∧
          ∀ i, i < p → biasedDist n b g r a p < biasedDist n b g r a i)) := by
  obtain ⟨⟨n1, bs⟩, hs, hNet1, hCm, hNi, hSf, hNs, hBl, hFl, _, hd, hbd, hall, hball, hpos,
    hbpos⟩ := contest_loop n b g r a hNet hB hF
  obtain ⟨i0, hi0, hlt0⟩ := h1
  obtain ⟨p, hp, hpk, _⟩ : ∃ p : Nat, bs.bestpos = (p : Int) ∧ p < n.Netsize.toNat ∧
      bs.bestd = absDist (neuronAt n p) b g r a := by
    rcases hpos with ⟨_, h⟩ | h
    · exact absurd (hall i0 hi0) (by rw [h]; exact not_le.mpr hlt0)
    · exact h
  simp only at hNet1 hCm hNi hSf hNs hBl hFl hd hbd hall hball hbpos hp
  have hpF : p < n1.Freq.length := by omega
  have hpB : p < n1.Bias.length := by omega
  refine ⟨bs.bestbiaspos, NeuQuant.mk n1.Network n1.Colormap n1.Netindex
      (n1.Bias.set p (n1.Bias[p] - BETAGAMMA)) (n1.Freq.set p (n1.Freq[p] + BETA))
      n1.Samplefrac n1.Netsize, ?_, hNet1, hCm, hNi, hSf, hNs,
      by simp [hBl], by simp [hFl], ?_⟩
  · unfold contest
    simp only [hs, hp, index?_natCast, List.getElem?_eq_getElem hpF,
      List.getElem?_eq_getElem hpB, store?_natCast _ _ _ hpF, store?_natCast _ _ _ hpB]
  · rcases hbpos with ⟨h, hm⟩ | ⟨q, hq, hqk, hqd, hqlt⟩
    · exact Or.inl ⟨h, fun i hi => by rw [← hm]; exact hball i hi⟩
    · exact Or.inr ⟨q, hq, hqk, fun i hi => by rw [← hqd]; exact hball i hi, hqlt⟩

/-- The initial value `MaxFloat64` of the two minima is finite: with one neuron
`(0,0,0,0)` and bias `0`, the sample `b = MaxFloat64` makes `contest` panic (no
distance is below the initial `bestd`, so `bestpos` stays `-1`); with bias
`-MaxFloat64` and the sample `(0,0,0,0)` it returns `-1`.  All values of the
two runs are `float64` values and no operation rounds. -/
theorem contest_returns_no_valid_index :
    (contest oneNeuron MaxFloat64 0 0 0).isSome = false ∧
    (contest { oneNeuron with Bias := [-MaxFloat64] } 0 0 0 0).map (fun x => x.1) = some (-1) := by
  constructor <;> decide!

/-- With every operation exact: on a state whose `Network`, `Bias` and `Freq`
have `Netsize` entries, for a sample from which some neuron has a distance
`D(i)` below `MaxFloat64` and some neuron a bias-adjusted distance
`D(i) - Bias[i]` below `MaxFloat64` (so `Netsize ≥ 1`), `contest` returns an
index `p` in `[0, Netsize)` that minimises `D(i) - Bias[i]`, `Bias` taken
before the call, strictly below every `j < p`.  With binary64 rounding this
fails, see `contestF64`. -/
theorem contest_returns_biased_winner (n : NeuQuant) (b g r a : ℚ)
    (hNet : (n.Network.length : Int) = n.Netsize) (hB : (n.Bias.length : Int) = n.Netsize)
    (hF : (n.Freq.length : Int) = n.Netsize)
    (h1 : ∃ i : Nat, (i : Int) < n.Netsize ∧ absDist (neuronAt n i) b g r a < MaxFloat64)
    (h2 : ∃ i : Nat, (i : Int) < n.Netsize ∧ biasedDist n b g r a i < MaxFloat64) :
    ∃ (p : Nat) (n1 : NeuQuant), contest n b g r a = some ((p : Int), n1) ∧
      (p : Int) < n.Netsize ∧
      (∀ j : Nat, (j : Int) < n.Netsize → biasedDist n b g r a p ≤ biasedDist n b g r a j) ∧
      (∀ j : Nat, j < p → biasedDist n b g r a p < biasedDist n b g r a j) := by
  obtain ⟨i1, hi1, hd1⟩ := h1
  obtain ⟨i2, hi2, hd2⟩ := h2
  obtain ⟨j, n1, hc, _, _, _, _, _, _, _, hj⟩ :=
    contest_result n b g r a (by omega) (by omega) (by omega) ⟨i1, by omega, hd1⟩
  rcases hj with ⟨_, hall⟩ | ⟨p, hp, hpN, hmin, hlt⟩
  · exact absurd (hall i2 (by omega)) (not_le.mpr hd2)
  · exact ⟨p, n1, by rw [hc, hp], by omega, fun j hj => hmin j (by omega), hlt⟩

/-! ## The palette sort of buildIndex -/

/-- Invariant rule for a `for j := s; j < s + m; j++` loop that may panic. -/
theorem foldlM_range'_inv {σ : Type} (f : σ → Nat → Option σ) (P : Nat → σ → Prop) (a : σ)
    (s m : Nat) (h0 : P 0 a)
    (hstep : ∀ t st, t < m → P t st → ∃ st1, f st (s + t) = some st1 ∧ P (t + 1) st1) :
    ∃ st, (List.range' s m).foldlM f a = some st ∧ P m st := by
  induction m with
  | zero => exact ⟨a, rfl, h0⟩
  | succ m ih =>
    obtain ⟨st, hs, hP⟩ := ih (fun t st ht => hstep t st (Nat.lt_succ_of_lt ht))
    obtain ⟨st1, hf, hP1⟩ := hstep m st (Nat.lt_succ_self m) hP
    refine ⟨st1, ?_, hP1⟩
    rw [List.range'_concat, List.foldlM_append, hs]
    simp only [Nat.one_mul]
    show (f st (s + m)).bind (fun x => List.foldlM f x []) = some st1
    rw [hf]
    rfl

theorem findSmallest_spec (cm : List Color) (netsize : Int) (i : Nat) (p : Color)
    (hlen : cm.length = netsize.toNat) (hp : cm[i]? = some p) :
    ∃ (sp : Nat) (q : Color), findSmallest cm netsize i p.g = some ((sp : Int), q.g) ∧
      i ≤ sp ∧ cm[sp]? = some q ∧
      ∀ (j : Nat) (c : Color), i ≤ j → cm[j]? = some c → q.g ≤ c.g := by
  have hi : i < cm.length := by
    rcases Nat.lt_or_ge i cm.length with h | h
    · exact h
    · rw [List.getElem?_eq_none h] at hp; exact absurd hp (by simp)
  obtain ⟨acc, hacc, sp, q, hsp, hisp, hq, hmin⟩ :=
    foldlM_range'_inv (smallestStep cm)
      (fun t acc => ∃ (sp : Nat) (q : Color), acc = ((sp : Int), q.g) ∧ i ≤ sp ∧
        cm[sp]? = some q ∧
        ∀ (j : Nat) (c : Color), i ≤ j → j < i + t → cm[j]? = some c → q.g ≤ c.g)
      ((i : Int), p.g) i (netsize.toNat - i)
      ⟨i, p, rfl, Nat.le_refl i, hp, fun j c h1 h2 _ => absurd h2 (by omega)⟩
      (by
        intro t acc ht ⟨sp, q, hacc, hisp, hq, hmin⟩
        have hj : i + t < cm.length := by omega
        subst hacc
        simp only [smallestStep, index?_natCast, List.getElem?_eq_getElem hj]
        by_cases hlt : cm[i + t].g < q.g
        · rw [if_pos hlt]
          refine ⟨_, rfl, i + t, cm[i + t], rfl, Nat.le_add_right i t,
            List.getElem?_eq_getElem hj, ?_⟩
          intro j c h1 h2 hc
          rcases Nat.lt_succ_iff_lt_or_eq.mp (show j < (i + t) + 1 from h2) with h | h
          · exact le_trans (le_of_lt hlt) (hmin j c h1 h hc)
          · subst h
            rw [List.getElem?_eq_getElem hj] at hc
            cases hc
            exact le_refl _
        · rw [if_neg hlt]
          refine ⟨_, rfl, sp, q, rfl, hisp, hq, ?_⟩
          intro j c h1 h2 hc
          rcases Nat.lt_succ_iff_lt_or_eq.mp (show j < (i + t) + 1 from h2) with h | h
          · exact hmin j c h1 h hc
          · subst h
            rw [List.getElem?_eq_getElem hj] at hc
            cases hc
            exact not_lt.mp hlt)
  refine ⟨sp, q, ?_, hisp, hq, ?_⟩
  · unfold findSmallest
    rw [hacc, hsp]
  · intro j c h1 hc
    have hj : j < cm.length := by
      rcases Nat.lt_or_ge j cm.length with h | h
      · exact h
      · rw [List.getElem?_eq_none h] at hc; exact absurd hc (by simp)
    exact hmin j c h1 (by omega) hc

theorem IntSlice.store_some (s : IntSlice) (i v : Int) (h0 : 0 ≤ i) (h1 : i < (s.len : Int)) :
    ∃ s1, s.store i v = some s1 ∧ s1.len = s.len := by
  have h : 0 ≤ i ∧ i.toNat < s.len := ⟨h0, by omega⟩
  exact ⟨{ len := s.len, val := fun k => if k = i.toNat then v else s.val k },
    by simp only [IntSlice.store, if_pos h], rfl⟩

theorem IntSlice.fill_some (s : IntSlice) (lo hi v : Int) (h0 : 0 ≤ lo)
    (h1 : hi ≤ (s.len : Int)) : ∃ s1, s.fill lo hi v = some s1 ∧ s1.len = s.len := by
  unfold IntSlice.fill
  by_cases h : lo < hi
  · rw [if_pos h, if_pos ⟨h0, h1⟩]
    exact ⟨_, rfl, rfl⟩
  · rw [if_neg h]
    exact ⟨_, rfl, rfl⟩

theorem getElem?_some_lt {α : Type} {l : List α} {i : Nat} {x : α} (h : l[i]? = some x) :
    i < l.length := by
  rcases Nat.lt_or_ge i l.length with h1 | h1
  · exact h1
  · rw [List.getElem?_eq_none h1] at h; exact absurd h (by simp)

/-- The exchange of the entries at positions `k` and `sp` of the palette, as
`buildIndex` does it: the entries before `k` stay, the entry at `k` becomes the
old entry at `sp`, and every entry from `k` on is an old entry from `k` on. -/
theorem swap_facts (cm : List Color) (k sp : Nat) (p q : Color) (hk : cm[k]? = some p)
    (hq : cm[sp]? = some q) (hksp : k ≤ sp) :
    ∃ cm1, (if (k : Int) ≠ (sp : Int) then
        (match store? cm (k : Int) q with
          | none => none
          | some c1 => store? c1 (sp : Int) p)
        else some cm) = some cm1 ∧
      cm1.length = cm.length ∧ (∀ c, c ∈ cm1 → c ∈ cm) ∧
      (∀ j, j < k → cm1[j]? = cm[j]?) ∧ cm1[k]? = some q ∧
      (∀ j c, k ≤ j → cm1[j]? = some c → ∃ j1, k ≤ j1 ∧ cm[j1]? = some c) := by
  have hkl := getElem?_some_lt hk
  have hspl := getElem?_some_lt hq
  have hpm : p ∈ cm := List.getElem?_mem hk
  have hqm : q ∈ cm := List.getElem?_mem hq
  by_cases h : k = sp
  · subst h
    rw [hk] at hq
    cases hq
    exact ⟨cm, by simp, rfl, fun c hc => hc, fun j _ => rfl, hk, fun j c hj hc => ⟨j, hj, hc⟩⟩
  · have hne : (k : Int) ≠ (sp : Int) := by omega
    refine ⟨(cm.set k q).set sp p, ?_, by simp, ?_, ?_, ?_, ?_⟩
    · rw [if_pos hne, store?_natCast _ _ _ hkl]
      simp only
      rw [store?_natCast _ _ _ (by simpa using hspl)]
    · intro c hc
      rcases List.mem_or_eq_of_mem_set hc with h1 | h1
      · rcases List.mem_or_eq_of_mem_set h1 with h2 | h2
        · exact h2
        · rw [h2]; exact hqm
      · rw [h1]; exact hpm
    · intro j hj
      rw [List.getElem?_set_ne (by omega), List.getElem?_set_ne (by omega)]
    · rw [List.getElem?_set_ne (by omega), List.getElem?_set_eq_of_lt _ hkl]
    · intro j c hj hc
      by_cases h1 : sp = j
      · subst h1
        rw [List.getElem?_set_eq_of_lt _ (by simpa using hspl)] at hc
        cases hc
        exact ⟨k, Nat.le_refl k, hk⟩
      · rw [List.getElem?_set_ne h1] at hc
        by_cases h2 : k = j
        · subst h2
          rw [List.getElem?_set_eq_of_lt _ hkl] at hc
          cases hc
          exact ⟨sp, hksp, hq⟩
        · rw [List.getElem?_set_ne h2] at hc
          exact ⟨j, hj, hc⟩

theorem buildIndexStep_inv (n : NeuQuant) (k : Nat) (st : IndexState)
    (hlen : n.Colormap.length = n.Netsize.toNat) (hidx : 65536 ≤ n.Netindex.len)
    (hg : ∀ c, c ∈ n.Colormap → c.g ≤ 65535) (hk : k < n.Netsize.toNat)
    (h : IndexInv n k st) :
    ∃ st1, buildIndexStep st k = some st1 ∧ IndexInv n (k + 1) st1 := by
  obtain ⟨hNet, hBias, hFreq, hSf, hNs, hCl, hmem, hNl, ⟨hpc0, hpc1⟩, hsorted⟩ := h
  have hkl : k < st.net.Colormap.length := by omega
  have hp : st.net.Colormap[k]? = some st.net.Colormap[k] := List.getElem?_eq_getElem hkl
  obtain ⟨sp, q, hfs, hksp, hq, hmin⟩ :=
    findSmallest_spec st.net.Colormap st.net.Netsize k st.net.Colormap[k] (by omega) hp
  obtain ⟨cm1, hswap, hl1, hmem1, hbefore, hatk, hafter⟩ :=
    swap_facts st.net.Colormap k sp st.net.Colormap[k] q hp hq hksp
  have hqg : q.g ≤ 65535 := hg q (hmem q (List.getElem?_mem hq))
  have hsorted1 : ∀ (i j : Nat) (ci cj : Color), i < k + 1 → i ≤ j → cm1[i]? = some ci →
      cm1[j]? = some cj → ci.g ≤ cj.g := by
    intro i j ci cj hi hij hci hcj
    rcases Nat.lt_succ_iff_lt_or_eq.mp hi with hik | hik
    · rw [hbefore i hik] at hci
      rcases Nat.lt_or_ge j k with hjk | hjk
      · rw [hbefore j hjk] at hcj
        exact hsorted i j ci cj hik hij hci hcj
      · obtain ⟨j1, hj1, hcj1⟩ := hafter j cj hjk hcj
        exact hsorted i j1 ci cj hik (by omega) hci hcj1
    · subst hik
      rw [hatk] at hci
      cases hci
      obtain ⟨j1, hj1, hcj1⟩ := hafter j cj hij hcj
      exact hmin j1 cj hj1 hcj1
  unfold buildIndexStep
  simp only [index?_natCast, hp, hfs, hq, hswap]
  by_cases hne : (q.g : Int) ≠ st.previousCol
  · obtain ⟨ni1, hst, hl2⟩ :=
      IntSlice.store_some st.net.Netindex st.previousCol (st.startpos + (k : Int)) hpc0
        (by omega)
    obtain ⟨ni2, hfill, hl3⟩ :=
      IntSlice.fill_some ni1 st.previousCol (q.g : Int) (k : Int) hpc0 (by omega)
    rw [if_pos hne]
    simp only [hst, hfill]
    exact ⟨_, rfl, hNet, hBias, hFreq, hSf, hNs, by rw [hl1, hCl],
      fun c hc => hmem c (hmem1 c hc), by rw [hl3, hl2, hNl],
      ⟨Int.natCast_nonneg q.g, by show ((q.g : Nat) : Int) ≤ 65535; omega⟩, hsorted1⟩
  · rw [if_neg hne]
    exact ⟨_, rfl, hNet, hBias, hFreq, hSf, hNs, by rw [hl1, hCl],
      fun c hc => hmem c (hmem1 c hc), hNl, ⟨hpc0, hpc1⟩, hsorted1⟩

theorem buildIndex_loop (n : NeuQuant) (hlen : n.Colormap.length = n.Netsize.toNat)
    (hidx : 65536 ≤ n.Netindex.len) (hg : ∀ c, c ∈ n.Colormap → c.g ≤ 65535) :
    ∃ st, (List.range n.Netsize.toNat).foldlM buildIndexStep
        { net := n, previousCol := 0, startpos := 0 } = some st ∧
      IndexInv n n.Netsize.toNat st := by
  apply foldlM_range_inv buildIndexStep (IndexInv n)
  · exact ⟨rfl, rfl, rfl, rfl, rfl, rfl, fun c hc => hc, rfl,
      ⟨le_refl _, by show (0 : Int) ≤ 65535; decide⟩,
      fun i j ci cj hi => absurd hi (Nat.not_lt_zero i)⟩
  · intro i st hi hst
    exact buildIndexStep_inv n i st hlen hidx hg hi hst

/-- On a state whose palette has `Netsize` entries with 16-bit greens and whose
`Netindex` has at least 65536 entries, `buildIndex` does not panic; it changes
only `Colormap` and `Netindex`, keeps their lengths, keeps the palette entries
among the old ones, and leaves the palette in ascending green order. -/
theorem buildIndex_result (n : NeuQuant) (hlen : n.Colormap.length = n.Netsize.toNat)
    (hidx : 65536 ≤ n.Netindex.len) (hg : ∀ c, c ∈ n.Colormap → c.g ≤ 65535) :
    ∃ n1, buildIndex n = some n1 ∧
      n1.Network = n.Network ∧ n1.Bias = n.Bias ∧ n1.Freq = n.Freq ∧
      n1.Samplefrac = n.Samplefrac ∧ n1.Netsize = n.Netsize ∧
      n1.Colormap.length = n.Colormap.length ∧ (∀ c, c ∈ n1.Colormap → c ∈ n.Colormap) ∧
      n1.Netindex.len = n.Netindex.len ∧
      ∀ (i j : Nat) (ci cj : Color), i ≤ j → n1.Colormap[i]? = some ci →
        n1.Colormap[j]? = some cj → ci.g ≤ cj.g := by
  obtain ⟨st, hst, hNet, hBias, hFreq, hSf, hNs, hCl, hmem, hNl, ⟨hpc0, hpc1⟩, hsorted⟩ :=
    buildIndex_loop n hlen hidx hg
  obtain ⟨ni1, hs1, hl1⟩ :=
    IntSlice.store_some st.net.Netindex st.previousCol (st.startpos + (st.net.Netsize - 1))
      hpc0 (by omega)
  obtain ⟨ni2, hs2, hl2⟩ :=
    IntSlice.fill_some ni1 st.previousCol (1 <<< 16) (st.net.Netsize - 1) hpc0
      (by rw [hl1, hNl]; have : ((1 : Int) <<< 16) = 65536 := by decide
          omega)
  refine ⟨{ st.net with Netindex := ni2 }, ?_, hNet, hBias, hFreq, hSf, hNs, hCl, hmem,
    by rw [hl2, hl1, hNl], ?_⟩
  · unfold buildIndex
    simp only [hst, hs1, hs2]
  · intro i j ci cj hij hci hcj
    have hj := getElem?_some_lt hcj
    exact hsorted i j ci cj (by simp only at hj; omega) hij hci hcj

/-- C2, counterexample: on the three-entry palette with greens `70000`, `90000`,
`80000` (and a 65536-entry `Netindex`) `buildIndex` panics, so it does not leave
a sorted palette. -/
theorem buildIndex_panics_on_wide_green : (buildIndex wideGreens).isSome = false := by
  decide!

/-- C2, amended: for every palette of `Netsize` entries whose greens are at most
`65535`, with the `Netindex` of at least 65536 entries that `Init` allocates,
`buildIndex` completes and leaves a palette of the same length that is sorted
ascending by green channel. -/
theorem buildIndex_sorts_by_green (n : NeuQuant)
    (hlen : (n.Colormap.length : Int) = n.Netsize) (hidx : 65536 ≤ n.Netindex.len)
    (hg : ∀ c, c ∈ n.Colormap → c.g ≤ 65535) :
    ∃ n1, buildIndex n = some n1 ∧ (n1.Colormap.length : Int) = n.Netsize ∧
      ∀ (i j : Nat) (ci cj : Color), i ≤ j → n1.Colormap[i]? = some ci →
        n1.Colormap[j]? = some cj → ci.g ≤ cj.g := by
  obtain ⟨n1, h1, _, _, _, _, _, hl, _, _, hs⟩ := buildIndex_result n (by omega) hidx hg
  exact ⟨n1, h1, by omega, hs⟩

/-- C2, witness: the palette with greens `7`, `3`, `5`. -/
theorem buildIndex_sorts_by_green_witness :
    ∃ n1, buildIndex smallGreens = some n1 ∧ (n1.Colormap.length : Int) = smallGreens.Netsize ∧
      ∀ (i j : Nat) (ci cj : Color), i ≤ j → n1.Colormap[i]? = some ci →
        n1.Colormap[j]? = some cj → ci.g ≤ cj.g :=
  buildIndex_sorts_by_green smallGreens (by decide) (by decide) (by decide)

/-! ## Counting the decay steps -/

/-- Invariant rule for the runs of a loop that do not panic. -/
theorem foldlM_range_partial {σ : Type} (f : σ → Nat → Option σ) (P : Nat → σ → Prop) (a : σ)
    (k : Nat) (h0 : P 0 a)
    (hstep : ∀ i s s1, i < k → P i s → f s i = some s1 → P (i + 1) s1) :
    ∀ s, (List.range k).foldlM f a = some s → P k s := by
  induction k with
  | zero =>
    intro s hs
    cases hs
    exact h0
  | succ m ih =>
    intro s hs
    rw [foldlM_range_succ] at hs
    cases h1 : (List.range m).foldlM f a with
    | none => rw [h1] at hs; cases hs
    | some s0 =>
      rw [h1] at hs
      exact hstep m s0 s (Nat.lt_succ_self m)
        (ih (fun i s s1 hi => hstep i s s1 (Nat.lt_succ_of_lt hi)) s0 h1) hs

theorem wrapInt_of_range (z : Int) (h0 : -9223372036854775808 ≤ z)
    (h1 : z < 9223372036854775808) : wrapInt z = z := by
  unfold wrapInt
  omega

theorem learnPixel_decays (img : Image) (alphadec : ℚ) (delta : Int) (x y : Nat)
    (st st1 : LearnState) (hd : 0 < delta) (hxy : x * y < 2 ^ 63)
    (h : learnPixel img alphadec delta x y st = some st1) :
    st1.decays = st.decays +
      (if (0 < x ∧ 0 < y) ∧ ((x : Int) * (y : Int)) % delta = 0 then 1 else 0) := by
  have hpos : (0 : Int) ≤ (x : Int) * (y : Int) := by positivity
  have hlt : (x : Int) * (y : Int) < 9223372036854775808 := by
    have : ((x * y : Nat) : Int) < ((2 ^ 63 : Nat) : Int) := by exact_mod_cast hxy
    simpa using this
  have hmod : (wrapInt ((x : Int) * (y : Int))).tmod delta = ((x : Int) * (y : Int)) % delta := by
    rw [wrapInt_of_range _ (by omega) hlt]
    exact Int.tmod_eq_emod hpos (le_of_lt hd)
  unfold learnPixel at h
  simp only [hmod] at h
  split at h
  · cases h
  · split at h
    · cases h
    · split at h
      · cases h
      · split at h
        · rename_i hc
          cases h
          simp only [gt_iff_lt] at hc
          rw [if_pos hc]
        · rename_i hc
          cases h
          simp only [gt_iff_lt] at hc
          rw [if_neg hc]
          rfl

theorem learnColumn_decays (img : Image) (alphadec : ℚ) (delta : Int) (x : Nat)
    (st st1 : LearnState) (hd : 0 < delta) (hxy : x * img.MaxY.toNat < 2 ^ 63)
    (h : learnColumn img alphadec delta st x = some st1) :
    st1.decays = st.decays + ((List.range img.MaxY.toNat).filter
      (fun (y : Nat) => decide ((0 < x ∧ 0 < y) ∧ ((x : Int) * (y : Int)) % delta = 0))).length := by
  refine foldlM_range_partial (fun st y => learnPixel img alphadec delta x y st)
    (fun t s => s.decays = st.decays + ((List.range t).filter
      (fun (y : Nat) => decide ((0 < x ∧ 0 < y) ∧ ((x : Int) * (y : Int)) % delta = 0))).length)
    st img.MaxY.toNat (by simp) ?_ st1 h
  intro i s s1 hi hP hs
  have hxi : x * i < 2 ^ 63 :=
    lt_of_le_of_lt (Nat.mul_le_mul_left x (le_of_lt hi)) hxy
  rw [learnPixel_decays img alphadec delta x i s s1 hd hxi hs, hP, List.range_succ,
    List.filter_append, List.length_append, Nat.add_assoc]
  congr 2
  by_cases hc : (0 < x ∧ 0 < i) ∧ ((x : Int) * (i : Int)) % delta = 0
  · rw [if_pos hc, List.filter_cons_of_pos (by simpa using hc)]
    rfl
  · rw [if_neg hc, List.filter_cons_of_neg (by simpa using hc)]
    rfl

/-! ## The range write of buildIndex -/

theorem IntSlice.ext_val (len : Nat) (f g : Nat → Int) (h : ∀ k, f k = g k) :
    ({ len := len, val := f } : IntSlice) = { len := len, val := g } := by
  have : f = g := funext h
  rw [this]

/-- The closed form `IntSlice.fill` is what the loop computes, write by write,
and it panics exactly when the loop does. -/
theorem IntSlice.fillLoop_eq_fill (hi v : Int) :
    ∀ (fuel : Nat) (s : IntSlice) (lo : Int), (hi - lo).toNat + 1 ≤ fuel →
      IntSlice.fillLoop s hi v fuel lo = s.fill lo hi v := by
  intro fuel
  induction fuel with
  | zero => intro s lo h; omega
  | succ m ih =>
    intro s lo hfuel
    unfold IntSlice.fillLoop
    by_cases hlt : lo < hi
    · rw [if_pos hlt]
      by_cases hst : 0 ≤ lo ∧ lo.toNat < s.len
      · have hstore : s.store lo v =
            some { len := s.len, val := fun k => if k = lo.toNat then v else s.val k } := by
          simp only [IntSlice.store, if_pos hst]
        rw [hstore]
        simp only
        rw [ih _ (lo + 1) (by omega)]
        unfold IntSlice.fill
        rw [if_pos hlt]
        by_cases hnext : lo + 1 < hi
        · rw [if_pos hnext]
          simp only
          by_cases hb : hi ≤ (s.len : Int)
          · rw [if_pos ⟨by omega, hb⟩, if_pos ⟨hst.1, hb⟩]
            congr 1
            apply IntSlice.ext_val
            intro k
            by_cases h1 : lo + 1 ≤ (k : Int) ∧ (k : Int) < hi
            · rw [if_pos h1, if_pos ⟨by omega, h1.2⟩]
            · rw [if_neg h1]
              by_cases h2 : k = lo.toNat
              · rw [if_pos h2, if_pos ⟨by omega, by omega⟩]
              · rw [if_neg h2, if_neg (by omega)]
          · rw [if_neg (fun h => hb h.2), if_neg (fun h => hb h.2)]
        · rw [if_neg hnext, if_pos ⟨hst.1, by omega⟩]
          congr 1
          apply IntSlice.ext_val
          intro k
          by_cases h2 : k = lo.toNat
          · rw [if_pos h2, if_pos ⟨by omega, by omega⟩]
          · rw [if_neg h2, if_neg (by omega)]
      · have hstore : s.store lo v = none := by
          simp only [IntSlice.store, if_neg hst]
        rw [hstore]
        unfold IntSlice.fill
        rw [if_pos hlt, if_neg (by omega)]
    · rw [if_neg hlt]
      unfold IntSlice.fill
      rw [if_neg hlt]

/-! ## Training never panics -/

theorem convex_in_range (M t w q : ℚ) (ht0 : 0 ≤ t) (ht1 : t ≤ 1) (hw : 0 ≤ w ∧ w ≤ M)
    (hq : 0 ≤ q ∧ q ≤ M) : 0 ≤ w - t * (w - q) ∧ w - t * (w - q) ≤ M := by
  have h1 : w - t * (w - q) = (1 - t) * w + t * q := by ring
  rw [h1]
  have h2 : 0 ≤ 1 - t := by linarith
  constructor
  · exact add_nonneg (mul_nonneg h2 hw.1) (mul_nonneg ht0 hq.1)
  · have h3 : (1 - t) * w ≤ (1 - t) * M := mul_le_mul_of_nonneg_left hw.2 h2
    have h4 : t * q ≤ t * M := mul_le_mul_of_nonneg_left hq.2 ht0
    linarith

theorem moveToward_inRange (M alpha : ℚ) (w quad : Neuron) (h0 : 0 ≤ alpha) (h1 : alpha ≤ 1)
    (hw : InRange M w) (hq : InRange M quad) : InRange M (moveToward alpha w quad) := by
  obtain ⟨wr, wg, wb, wa⟩ := hw
  obtain ⟨qr, qg, qb, qa⟩ := hq
  exact ⟨convex_in_range M alpha w.r quad.r h0 h1 wr qr,
    convex_in_range M alpha w.g quad.g h0 h1 wg qg,
    convex_in_range M alpha w.b quad.b h0 h1 wb qb,
    convex_in_range M alpha w.a quad.a h0 h1 wa qa⟩

theorem index?_of_lt {α : Type} (xs : List α) (i : Int) (h0 : 0 ≤ i)
    (h1 : i < (xs.length : Int)) : ∃ x, index? xs i = some x ∧ x ∈ xs := by
  have hlt : i.toNat < xs.length := by omega
  refine ⟨xs[i.toNat], ?_, List.getElem_mem _⟩
  simp only [index?, if_pos h0, List.getElem?_eq_getElem hlt]

theorem store?_of_lt {α : Type} (xs : List α) (i : Int) (v : α) (h0 : 0 ≤ i)
    (h1 : i < (xs.length : Int)) :
    ∃ ys, store? xs i v = some ys ∧ ys.length = xs.length ∧
      ∀ y, y ∈ ys → y ∈ xs ∨ y = v := by
  have hlt : i.toNat < xs.length := by omega
  refine ⟨xs.set i.toNat v, ?_, List.length_set _ _ _, fun y hy => List.mem_or_eq_of_mem_set hy⟩
  simp only [store?, if_pos (And.intro h0 hlt)]

/-- Moving the neuron at a valid position toward a sample in range, by a factor
in `[0, 1]`, does not panic and keeps the length and the range of the weights. -/
theorem moveAt_inRange (M t : ℚ) (net : List Neuron) (i : Int) (quad : Neuron)
    (h0 : 0 ≤ i) (h1 : i < (net.length : Int)) (ht0 : 0 ≤ t) (ht1 : t ≤ 1)
    (hnet : ∀ w, w ∈ net → InRange M w) (hq : InRange M quad) :
    ∃ net1, moveAt t quad net i = some net1 ∧
      net1.length = net.length ∧ ∀ w, w ∈ net1 → InRange M w := by
  obtain ⟨w, hw, hwm⟩ := index?_of_lt net i h0 h1
  obtain ⟨net1, hs, hl, hmem⟩ := store?_of_lt net i (moveToward t w quad) h0 h1
  refine ⟨net1, by simp only [moveAt, hw, hs], hl, fun x hx => ?_⟩
  rcases hmem x hx with h | h
  · exact hnet x h
  · rw [h]; exact moveToward_inRange M t w quad ht0 ht1 (hnet w hwm) hq

theorem alterSingle_inRange (M alpha : ℚ) (n : NeuQuant) (i : Int) (quad : Neuron)
    (h0 : 0 ≤ i) (h1 : i < (n.Network.length : Int)) (ht0 : 0 ≤ alpha) (ht1 : alpha ≤ 1)
    (hnet : ∀ w, w ∈ n.Network → InRange M w) (hq : InRange M quad) :
    ∃ n1, alterSingle n alpha i quad = some n1 ∧
      n1.Colormap = n.Colormap ∧ n1.Netindex = n.Netindex ∧ n1.Bias = n.Bias ∧
      n1.Freq = n.Freq ∧ n1.Samplefrac = n.Samplefrac ∧ n1.Netsize = n.Netsize ∧
      n1.Network.length = n.Network.length ∧ ∀ w, w ∈ n1.Network → InRange M w := by
  obtain ⟨net1, hs, hl, hr⟩ := moveAt_inRange M alpha n.Network i quad h0 h1 ht0 ht1 hnet hq
  refine ⟨{ n with Network := net1 }, ?_, rfl, rfl, rfl, rfl, rfl, rfl, hl, hr⟩
  simp only [alterSingle, hs]

/-- The factor `alpha * (rad^2 - q^2) / rad^2` of `alterNeigh` lies in `[0, 1]`
when `alpha` does and `0 ≤ q ≤ rad`, `1 ≤ rad`. -/
theorem neigh_factor_range (alpha : ℚ) (rad q : Int) (ha0 : 0 ≤ alpha) (ha1 : alpha ≤ 1)
    (hq0 : 0 ≤ q) (hq1 : q ≤ rad) (hr : 1 ≤ rad) :
    0 ≤ (alpha * ((rad : ℚ) * (rad : ℚ) - (q : ℚ) * (q : ℚ))) / ((rad : ℚ) * (rad : ℚ)) ∧
    (alpha * ((rad : ℚ) * (rad : ℚ) - (q : ℚ) * (q : ℚ))) / ((rad : ℚ) * (rad : ℚ)) ≤ 1 := by
  have hr1 : (1 : ℚ) ≤ (rad : ℚ) := by exact_mod_cast hr
  have hq0' : (0 : ℚ) ≤ (q : ℚ) := by exact_mod_cast hq0
  have hq1' : (q : ℚ) ≤ (rad : ℚ) := by exact_mod_cast hq1
  have hpos : (0 : ℚ) < (rad : ℚ) * (rad : ℚ) := by nlinarith
  have hqq : (q : ℚ) * (q : ℚ) ≤ (rad : ℚ) * (rad : ℚ) := by nlinarith
  have hnum0 : 0 ≤ alpha * ((rad : ℚ) * (rad : ℚ) - (q : ℚ) * (q : ℚ)) :=
    mul_nonneg ha0 (by linarith)
  have hnum1 : alpha * ((rad : ℚ) * (rad : ℚ) - (q : ℚ) * (q : ℚ)) ≤ (rad : ℚ) * (rad : ℚ) := by
    have h1 : alpha * ((rad : ℚ) * (rad : ℚ) - (q : ℚ) * (q : ℚ)) ≤
        1 * ((rad : ℚ) * (rad : ℚ) - (q : ℚ) * (q : ℚ)) :=
      mul_le_mul_of_nonneg_right ha1 (by linarith)
    nlinarith
  exact ⟨div_nonneg hnum0 (le_of_lt hpos), (div_le_one hpos).mpr hnum1⟩

theorem alterNeighLoop_inRange (M alpha : ℚ) (rad lo hi i : Int) (quad : Neuron)
    (ha0 : 0 ≤ alpha) (ha1 : alpha ≤ 1) (hr : 1 ≤ rad) (hq : InRange M quad)
    (hlo0 : 0 ≤ lo) (hlo : i - rad ≤ lo) (hhi : hi ≤ i + rad) (hi0 : 0 ≤ i) :
    ∀ (fuel : Nat) (net : List Neuron) (j k q : Int),
      (hi - j).toNat + (k - lo).toNat + 1 ≤ fuel → 0 ≤ q →
      (j < hi → j = i + 1 + q) → (k > lo → k = i - 1 - q) →
      hi ≤ (net.length : Int) → i < (net.length : Int) →
      (∀ w, w ∈ net → InRange M w) →
      ∃ net1, alterNeighLoop alpha rad lo hi quad fuel net j k q = some net1 ∧
        net1.length = net.length ∧ ∀ w, w ∈ net1 → InRange M w := by
  intro fuel
  induction fuel with
  | zero => intro net j k q h; omega
  | succ m ih =>
    intro net j k q hfuel hq0 hj hk hhl hil hnet
    unfold alterNeighLoop
    by_cases hc : j < hi ∨ k > lo
    · rw [if_pos hc]
      have hqr : q ≤ rad := by
        rcases hc with h | h
        · have := hj h; omega
        · have := hk h; omega
      obtain ⟨hf0, hf1⟩ := neigh_factor_range alpha rad q ha0 ha1 hq0 hqr hr
      simp only
      have hup : ∃ net1, (if j < hi then
            (moveAt ((alpha * ((rad : ℚ) * (rad : ℚ) - (q : ℚ) * (q : ℚ))) /
              ((rad : ℚ) * (rad : ℚ))) quad net j).map (fun net1 => (net1, j + 1))
          else some (net, j)) = some (net1, if j < hi then j + 1 else j) ∧
          net1.length = net.length ∧ ∀ w, w ∈ net1 → InRange M w := by
        by_cases h : j < hi
        · have hje := hj h
          obtain ⟨net1, h1, h2, h3⟩ := moveAt_inRange M _ net j quad (by omega) (by omega)
            hf0 hf1 hnet hq
          exact ⟨net1, by rw [if_pos h, if_pos h, h1]; rfl, h2, h3⟩
        · exact ⟨net, by rw [if_neg h, if_neg h], rfl, hnet⟩
      obtain ⟨net1, hup1, hl1, hr1⟩ := hup
      rw [hup1]
      simp only
      have hdown : ∃ net2, (if k > lo then
            (moveAt ((alpha * ((rad : ℚ) * (rad : ℚ) - (q : ℚ) * (q : ℚ))) /
              ((rad : ℚ) * (rad : ℚ))) quad net1 k).map (fun net2 => (net2, k - 1))
          else some (net1, k)) = some (net2, if k > lo then k - 1 else k) ∧
          net2.length = net.length ∧ ∀ w, w ∈ net2 → InRange M w := by
        by_cases h : k > lo
        · have hke := hk h
          obtain ⟨net2, h1, h2, h3⟩ := moveAt_inRange M _ net1 k quad (by omega) (by omega)
            hf0 hf1 hr1 hq
          exact ⟨net2, by rw [if_pos h, if_pos h, h1]; rfl, by rw [h2, hl1], h3⟩
        · exact ⟨net1, by rw [if_neg h, if_neg h], hl1, hr1⟩
      obtain ⟨net2, hdown1, hl2, hr2⟩ := hdown
      rw [hdown1]
      simp only
      obtain ⟨net3, h1, h2, h3⟩ := ih net2 (if j < hi then j + 1 else j)
        (if k > lo then k - 1 else k) (q + 1)
        (by split_ifs <;> omega) (by omega)
        (by split_ifs <;> omega) (by split_ifs <;> omega)
        (by omega) (by omega) hr2
      exact ⟨net3, h1, by rw [h2, hl2], h3⟩
    · rw [if_neg hc]
      exact ⟨net, rfl, rfl, hnet⟩

theorem alterNeigh_inRange (M alpha : ℚ) (n : NeuQuant) (rad i : Int) (quad : Neuron)
    (h0 : 0 ≤ i) (h1 : i < (n.Network.length : Int))
    (hN : (n.Network.length : Int) = n.Netsize) (ha0 : 0 ≤ alpha) (ha1 : alpha ≤ 1)
    (hr : 1 ≤ rad) (hnet : ∀ w, w ∈ n.Network → InRange M w) (hq : InRange M quad) :
    ∃ n1, alterNeigh n alpha rad i quad = some n1 ∧
      n1.Colormap = n.Colormap ∧ n1.Netindex = n.Netindex ∧ n1.Bias = n.Bias ∧
      n1.Freq = n.Freq ∧ n1.Samplefrac = n.Samplefrac ∧ n1.Netsize = n.Netsize ∧
      n1.Network.length = n.Network.length ∧ ∀ w, w ∈ n1.Network → InRange M w := by
  obtain ⟨net1, hs, hl, hrng⟩ := alterNeighLoop_inRange M alpha rad (max (i - rad) 0)
    (min (i + rad) n.Netsize) i quad ha0 ha1 hr hq (le_max_right _ _) (le_max_left _ _)
    (min_le_left _ _) h0
    ((min (i + rad) n.Netsize - (i + 1)).toNat + (i - 1 - max (i - rad) 0).toNat + 1)
    n.Network (i + 1) (i - 1) 0 (le_refl _) (le_refl _) (fun _ => by omega) (fun _ => by omega)
    (by rw [hN]; exact min_le_right _ _) h1 hnet
  refine ⟨{ n with Network := net1 }, ?_, rfl, rfl, rfl, rfl, rfl, rfl, hl, hrng⟩
  simp only [alterNeigh, hs]

theorem index?_mem {α : Type} {xs : List α} {i : Int} {x : α} (h : index? xs i = some x) :
    x ∈ xs := by
  unfold index? at h
  split_ifs at h
  exact List.getElem?_mem h

theorem store?_mem {α : Type} {xs ys : List α} {i : Int} {v : α}
    (h : store? xs i v = some ys) : ∀ y, y ∈ ys → y ∈ xs ∨ y = v := by
  unfold store? at h
  split_ifs at h
  cases h
  exact fun y hy => List.mem_or_eq_of_mem_set hy

theorem BETA_val : BETA = 1 / 1024 := rfl

theorem BETAGAMMA_val : BETAGAMMA = 1 := by
  simp only [BETAGAMMA, BETA, GAMMA]
  norm_num

/-- One iteration of `contest` keeps the frequencies non-negative and does not
lower any bias. -/
theorem contestStep_bounds (b g r a L : ℚ) (s s1 : NeuQuant × Best) (k : Nat)
    (h : contestStep b g r a s k = some s1)
    (hF : ∀ f, f ∈ s.1.Freq → 0 ≤ f) (hB : ∀ β, β ∈ s.1.Bias → L ≤ β) :
    (∀ f, f ∈ s1.1.Freq → 0 ≤ f) ∧ (∀ β, β ∈ s1.1.Bias → L ≤ β) := by
  unfold contestStep at h
  simp only at h
  split at h
  · rename_i bias neuron freq hb hw hf
    have hfreq : 0 ≤ freq := hF freq (index?_mem hf)
    have hbias : L ≤ bias := hB bias (index?_mem hb)
    have hfreq1 : 0 ≤ freq - BETA * freq := by
      rw [BETA_val]
      linarith
    split at h
    · cases h
    · rename_i Freq1 hs1
      split at h
      · cases h
      · rename_i Bias1 hs2
        cases h
        constructor
        · intro f hfm
          rcases store?_mem hs1 f hfm with h1 | h1
          · exact hF f h1
          · rw [h1]; exact hfreq1
        · intro β hβ
          rcases store?_mem hs2 β hβ with h1 | h1
          · exact hB β h1
          · rw [h1, BETAGAMMA_val]
            linarith
  · cases h

/-- A call of `contest` keeps the frequencies non-negative and lowers no bias
by more than `1`. -/
theorem contest_bounds (n n1 : NeuQuant) (b g r a L : ℚ) (j : Int)
    (h : contest n b g r a = some (j, n1))
    (hF : ∀ f, f ∈ n.Freq → 0 ≤ f) (hB : ∀ β, β ∈ n.Bias → L ≤ β) :
    (∀ f, f ∈ n1.Freq → 0 ≤ f) ∧ (∀ β, β ∈ n1.Bias → L - 1 ≤ β) := by
  unfold contest at h
  simp only at h
  split at h
  · cases h
  · rename_i n2 bs hloop
    obtain ⟨hF2, hB2⟩ := foldlM_range_partial (contestStep b g r a)
      (fun _ s => (∀ f, f ∈ s.1.Freq → 0 ≤ f) ∧ (∀ β, β ∈ s.1.Bias → L ≤ β))
      _ n.Netsize.toNat ⟨hF, hB⟩
      (fun i s s1 _ hP hs => contestStep_bounds b g r a L s s1 i hs hP.1 hP.2) _ hloop
    simp only at hF2 hB2
    split at h
    · rename_i f bi hf hbi
      split at h
      · rename_i Freq2 Bias2 hs1 hs2
        cases h
        constructor
        · intro x hx
          rcases store?_mem hs1 x hx with h1 | h1
          · exact hF2 x h1
          · rw [h1, BETA_val]
            have := hF2 f (index?_mem hf)
            linarith
        · intro x hx
          rcases store?_mem hs2 x hx with h1 | h1
          · have := hB2 x h1
            linarith
          · rw [h1, BETAGAMMA_val]
            have := hB2 bi (index?_mem hbi)
            linarith
      · cases h
    · cases h

theorem abs_sub_le_of_range (M x y : ℚ) (hx : 0 ≤ x ∧ x ≤ M) (hy : 0 ≤ y ∧ y ≤ M) :
    |x - y| ≤ M := by
  rw [abs_le]
  constructor <;> linarith [hx.1, hx.2, hy.1, hy.2]

theorem absDist_le_of_inRange (M : ℚ) (w q : Neuron) (hw : InRange M w) (hq : InRange M q) :
    absDist w q.b q.g q.r q.a ≤ 4 * M := by
  obtain ⟨wr, wg, wb, wa⟩ := hw
  obtain ⟨qr, qg, qb, qa⟩ := hq
  have h1 := abs_sub_le_of_range M w.b q.b wb qb
  have h2 := abs_sub_le_of_range M w.g q.g wg qg
  have h3 := abs_sub_le_of_range M w.r q.r wr qr
  have h4 := abs_sub_le_of_range M w.a q.a wa qa
  unfold absDist
  linarith

theorem INIT_ALPHA_val : (INIT_ALPHA : ℚ) = 1024 := by
  have h : INIT_ALPHA = 1024 := by decide
  rw [h]
  norm_num

theorem learnPixel_inv (M : ℚ) (n0 : NeuQuant) (c : Nat) (img : Image) (alphadec : ℚ)
    (delta : Int) (x y : Nat) (st : LearnState) (hN : 1 ≤ n0.Netsize) (hdec : 1 ≤ alphadec)
    (hpx : InRange M (sampleOf (img.At x y))) (hM : 4 * M + (c : ℚ) < MaxFloat64)
    (h : TrainInv M n0 c st) :
    ∃ st1, learnPixel img alphadec delta x y st = some st1 ∧ TrainInv M n0 (c + 1) st1 := by
  obtain ⟨hCm, hNi, hSf, hNs, hNl, hBl, hFl, hW, hF, hB, ha0, ha1⟩ := h
  have hc0 : (0 : ℚ) ≤ (c : ℚ) := Nat.cast_nonneg c
  have h0N : 0 < st.net.Network.length := by omega
  have h0B : 0 < st.net.Bias.length := by omega
  have hw0 : InRange M (neuronAt st.net 0) := by
    have : neuronAt st.net 0 = st.net.Network[0] := by
      simp [neuronAt, List.getElem?_eq_getElem h0N]
    rw [this]
    exact hW _ (List.getElem_mem _)
  have hb0 : -(c : ℚ) ≤ biasAt st.net 0 := by
    have : biasAt st.net 0 = st.net.Bias[0] := by
      simp [biasAt, List.getElem?_eq_getElem h0B]
    rw [this]
    exact hB _ (List.getElem_mem _)
  have hd0 : absDist (neuronAt st.net 0) (img.At x y).b (img.At x y).g (img.At x y).r
      (img.At x y).a ≤ 4 * M :=
    absDist_le_of_inRange M (neuronAt st.net 0) (sampleOf (img.At x y)) hw0 hpx
  obtain ⟨j, n1, hcon, hNet1, hCm1, hNi1, hSf1, hNs1, hBl1, hFl1, hj⟩ :=
    contest_result st.net (img.At x y).b (img.At x y).g (img.At x y).r (img.At x y).a
      (by omega) (by omega) (by omega) ⟨0, by omega, by linarith⟩
  obtain ⟨hF1, hB1⟩ := contest_bounds st.net n1 _ _ _ _ (-(c : ℚ)) j hcon hF hB
  obtain ⟨p, hp, hpN, -, -⟩ : ∃ p : Nat, j = (p : Int) ∧ p < st.net.Netsize.toNat ∧
      (∀ i, i < st.net.Netsize.toNat →
        biasedDist st.net (img.At x y).b (img.At x y).g (img.At x y).r (img.At x y).a p ≤
        biasedDist st.net (img.At x y).b (img.At x y).g (img.At x y).r (img.At x y).a i) ∧
      ∀ i, i < p →
        biasedDist st.net (img.At x y).b (img.At x y).g (img.At x y).r (img.At x y).a p <
        biasedDist st.net (img.At x y).b (img.At x y).g (img.At x y).r (img.At x y).a i := by
    rcases hj with ⟨_, hall⟩ | h
    · have h1 := hall 0 (by omega)
      unfold biasedDist at h1
      linarith
    · exact h
  have hal0 : 0 ≤ 1 * st.alpha / (INIT_ALPHA : ℚ) := by
    rw [INIT_ALPHA_val]
    linarith
  have hal1 : 1 * st.alpha / (INIT_ALPHA : ℚ) ≤ 1 := by
    rw [INIT_ALPHA_val]
    linarith
  have hW1 : ∀ w, w ∈ n1.Network → InRange M w := by rw [hNet1]; exact hW
  obtain ⟨n2, hsing, hCm2, hNi2, hB2, hF2, hSf2, hNs2, hl2, hW2⟩ :=
    alterSingle_inRange M _ n1 j (sampleOf (img.At x y)) (by omega)
      (by rw [hNet1]; omega) hal0 hal1 hW1 hpx
  have hneigh : ∃ n3, (if st.rad > 0 then
        alterNeigh n2 (1 * st.alpha / (INIT_ALPHA : ℚ)) st.rad j (sampleOf (img.At x y))
      else some n2) = some n3 ∧
      n3.Colormap = n2.Colormap ∧ n3.Netindex = n2.Netindex ∧ n3.Bias = n2.Bias ∧
      n3.Freq = n2.Freq ∧ n3.Samplefrac = n2.Samplefrac ∧ n3.Netsize = n2.Netsize ∧
      n3.Network.length = n2.Network.length ∧ ∀ w, w ∈ n3.Network → InRange M w := by
    by_cases hr : st.rad > 0
    · rw [if_pos hr]
      exact alterNeigh_inRange M _ n2 st.rad j (sampleOf (img.At x y)) (by omega)
        (by rw [hl2, hNet1]; omega) (by rw [hl2, hNet1, hNs2, hNs1, hNs]; exact hNl)
        hal0 hal1 (by omega) hW2 hpx
    · rw [if_neg hr]
      exact ⟨n2, rfl, rfl, rfl, rfl, rfl, rfl, rfl, rfl, hW2⟩
  obtain ⟨n3, hn3, hCm3, hNi3, hB3, hF3, hSf3, hNs3, hl3, hW3⟩ := hneigh
  have hbase : n3.Colormap = n0.Colormap ∧ n3.Netindex = n0.Netindex ∧
      n3.Samplefrac = n0.Samplefrac ∧ n3.Netsize = n0.Netsize ∧
      (n3.Network.length : Int) = n0.Netsize ∧ (n3.Bias.length : Int) = n0.Netsize ∧
      (n3.Freq.length : Int) = n0.Netsize ∧
      (∀ w, w ∈ n3.Network → InRange M w) ∧ (∀ f, f ∈ n3.Freq → 0 ≤ f) ∧
      (∀ β, β ∈ n3.Bias → -((c + 1 : Nat) : ℚ) ≤ β) := by
    refine ⟨by rw [hCm3, hCm2, hCm1, hCm], by rw [hNi3, hNi2, hNi1, hNi],
      by rw [hSf3, hSf2, hSf1, hSf], by rw [hNs3, hNs2, hNs1, hNs],
      by rw [hl3, hl2, hNet1]; exact hNl, by rw [hB3, hB2, hBl1]; exact hBl,
      by rw [hF3, hF2, hFl1]; exact hFl, hW3, by rw [hF3, hF2]; exact hF1, ?_⟩
    intro β hβ
    rw [hB3, hB2] at hβ
    have := hB1 β hβ
    push_cast
    linarith
  unfold learnPixel
  have hq : Neuron.mk ((img.At x y).r : ℚ) ((img.At x y).g : ℚ) ((img.At x y).b : ℚ)
      ((img.At x y).a : ℚ) = sampleOf (img.At x y) := rfl
  simp only [hcon, hq, hsing, hn3]
  obtain ⟨b1, b2, b3, b4, b5, b6, b7, b8, b9, b10⟩ := hbase
  by_cases hdecay : (x > 0 ∧ y > 0) ∧ (wrapInt ((x : Int) * (y : Int))).tmod delta = 0
  · rw [if_pos hdecay]
    refine ⟨_, rfl, b1, b2, b3, b4, b5, b6, b7, b8, b9, b10, ?_, ?_⟩
    · show 0 ≤ st.alpha - st.alpha / alphadec
      have : st.alpha / alphadec ≤ st.alpha := div_le_self ha0 hdec
      linarith
    · show st.alpha - st.alpha / alphadec ≤ 1024
      have : 0 ≤ st.alpha / alphadec := div_nonneg ha0 (by linarith)
      linarith
  · rw [if_neg hdecay]
    exact ⟨_, rfl, b1, b2, b3, b4, b5, b6, b7, b8, b9, b10, ha0, ha1⟩

theorem learnColumn_inv (M : ℚ) (n0 : NeuQuant) (img : Image) (alphadec : ℚ) (delta : Int)
    (x : Nat) (st : LearnState) (hN : 1 ≤ n0.Netsize) (hdec : 1 ≤ alphadec)
    (hx : x < img.MaxX.toNat)
    (hpx : ∀ x y : Nat, x < img.MaxX.toNat → y < img.MaxY.toNat →
      InRange M (sampleOf (img.At x y)))
    (hM : 4 * M + ((img.MaxX.toNat * img.MaxY.toNat : Nat) : ℚ) < MaxFloat64)
    (h : TrainInv M n0 (x * img.MaxY.toNat) st) :
    ∃ st1, learnColumn img alphadec delta st x = some st1 ∧
      TrainInv M n0 ((x + 1) * img.MaxY.toNat) st1 := by
  have hgoal : (x + 1) * img.MaxY.toNat = x * img.MaxY.toNat + img.MaxY.toNat := by ring
  rw [hgoal]
  unfold learnColumn
  apply foldlM_range_inv (fun st y => learnPixel img alphadec delta x y st)
    (fun y s => TrainInv M n0 (x * img.MaxY.toNat + y) s)
  · exact h
  · intro y s hy hs
    have hc : x * img.MaxY.toNat + y ≤ img.MaxX.toNat * img.MaxY.toNat := by
      have h1 : (x + 1) * img.MaxY.toNat ≤ img.MaxX.toNat * img.MaxY.toNat :=
        Nat.mul_le_mul_right _ hx
      rw [hgoal] at h1
      omega
    have hcq : ((x * img.MaxY.toNat + y : Nat) : ℚ) ≤
        ((img.MaxX.toNat * img.MaxY.toNat : Nat) : ℚ) := by exact_mod_cast hc
    exact learnPixel_inv M n0 (x * img.MaxY.toNat + y) img alphadec delta x y s hN hdec
      (hpx x y hx hy) (by linarith) hs

/-- Totality of the training scan: from a state whose `Network`, `Bias` and
`Freq` have `Netsize ≥ 1` entries, with weights in `[0, M]`, frequencies and
biases non-negative, on an image whose channel values lie in `[0, M]`, with
`Samplefrac ≥ 1` and `4 M` plus the number of pixels below `MaxFloat64`,
`Learn` does not panic, and the invariant `TrainInv` holds at the end. -/
theorem learnScan_total (M : ℚ) (n : NeuQuant) (img : Image) (hN : 1 ≤ n.Netsize)
    (hS : 1 ≤ n.Samplefrac)
    (hNl : (n.Network.length : Int) = n.Netsize) (hBl : (n.Bias.length : Int) = n.Netsize)
    (hFl : (n.Freq.length : Int) = n.Netsize)
    (hW : ∀ w, w ∈ n.Network → InRange M w) (hF : ∀ f, f ∈ n.Freq → 0 ≤ f)
    (hB : ∀ β, β ∈ n.Bias → 0 ≤ β)
    (hpx : ∀ x y : Nat, x < img.MaxX.toNat → y < img.MaxY.toNat →
      InRange M (sampleOf (img.At x y)))
    (hM : 4 * M + ((img.MaxX.toNat * img.MaxY.toNat : Nat) : ℚ) < MaxFloat64) :
    ∃ st, learnScan n img = some st ∧
      TrainInv M n (img.MaxX.toNat * img.MaxY.toNat) st := by
  unfold learnScan
  have hs : ¬ n.Samplefrac = 0 := by omega
  simp only [hs, if_false]
  have hdec : (1 : ℚ) ≤ ((((30 : Int) <<< 8) + (n.Samplefrac - 1).tdiv 3 : Int) : ℚ) := by
    have h1 : (0 : Int) ≤ (n.Samplefrac - 1).tdiv 3 :=
      Int.tdiv_nonneg (by omega) (by decide)
    have h2 : ((30 : Int) <<< 8) = 7680 := by decide
    have h3 : (1 : Int) ≤ ((30 : Int) <<< 8) + (n.Samplefrac - 1).tdiv 3 := by omega
    exact_mod_cast h3
  apply foldlM_range_inv (learnColumn img _ _)
    (fun x s => TrainInv M n (x * img.MaxY.toNat) s)
  · refine ⟨rfl, rfl, rfl, rfl, hNl, hBl, hFl, hW, hF, ?_, ?_, ?_⟩
    · intro β hβ
      have := hB β hβ
      simpa using this
    · show (0 : ℚ) ≤ (INIT_ALPHA : ℚ)
      rw [INIT_ALPHA_val]; norm_num
    · show (INIT_ALPHA : ℚ) ≤ 1024
      rw [INIT_ALPHA_val]
  · intro x s hx hsx
    exact learnColumn_inv M n img _ _ x s hN hdec hx hpx hM hsx

theorem initArrays_Network (n : NeuQuant) :
    (initArrays n).Network = (List.range n.Netsize.toNat).map
      (fun (i : Nat) => ({ r := (i : ℚ), g := (i : ℚ), b := (i : ℚ), a := 255 } : Neuron)) := by
  have h := (initStep_loop (n.Netsize : ℚ)
    { n with Network := [], Colormap := [], Bias := [], Freq := [] } n.Netsize.toNat).2.2.1
  simpa [initArrays] using h

theorem initArrays_Colormap (n : NeuQuant) :
    (initArrays n).Colormap =
      List.replicate n.Netsize.toNat ({ r := 0, g := 0, b := 0, a := 0 } : Color) := by
  have h := (initStep_loop (n.Netsize : ℚ)
    { n with Network := [], Colormap := [], Bias := [], Freq := [] } n.Netsize.toNat).2.2.2.1
  simpa [initArrays] using h

theorem initArrays_Netindex (n : NeuQuant) :
    (initArrays n).Netindex = n.Netindex.appendZeros (1 <<< 16) := by
  have h := (initStep_loop (n.Netsize : ℚ)
    { n with Network := [], Colormap := [], Bias := [], Freq := [] } n.Netsize.toNat).2.2.2.2.1
  simp only [initArrays, h]

theorem MaxFloat64_large : (4 : ℚ) * 65535 + 2 ^ 126 < MaxFloat64 := by
  unfold MaxFloat64
  norm_num

theorem pixels_below_MaxFloat64 (w h : Int) (hw : w < 2 ^ 63) (hh : h < 2 ^ 63) :
    (4 : ℚ) * 65535 + ((w.toNat * h.toNat : Nat) : ℚ) < MaxFloat64 := by
  have h1 : w.toNat ≤ 2 ^ 63 := by omega
  have h2 : h.toNat ≤ 2 ^ 63 := by omega
  have h3 : w.toNat * h.toNat ≤ 2 ^ 63 * 2 ^ 63 := Nat.mul_le_mul h1 h2
  have h4 : ((w.toNat * h.toNat : Nat) : ℚ) ≤ ((2 ^ 63 * 2 ^ 63 : Nat) : ℚ) := by
    exact_mod_cast h3
  have h5 : ((2 ^ 63 * 2 ^ 63 : Nat) : ℚ) = 2 ^ 126 := by norm_num
  have := MaxFloat64_large
  linarith

/-- Training never panics on a network fresh from `Init`: for `Samplefrac ≥ 1`,
`1 ≤ Netsize ≤ 65536`, 16-bit pixel values and image bounds within the range of
a Go `int`, the scan of `Learn` completes with every weight in `[0, 65535]`. -/
theorem learnScan_total_from_Init (samplefrac colors : Int) (img : Image)
    (hS : 1 ≤ samplefrac) (hN : 1 ≤ colors) (hN1 : colors ≤ 65536)
    (hpx : ∀ x y : Nat, x < img.MaxX.toNat → y < img.MaxY.toNat →
      (img.At x y).r ≤ 65535 ∧ (img.At x y).g ≤ 65535 ∧ (img.At x y).b ≤ 65535 ∧
      (img.At x y).a ≤ 65535)
    (hw : img.MaxX < 2 ^ 63) (hh : img.MaxY < 2 ^ 63) :
    ∃ st, learnScan (initArrays (emptyNet samplefrac colors)) img = some st ∧
      TrainInv 65535 (initArrays (emptyNet samplefrac colors))
        (img.MaxX.toNat * img.MaxY.toNat) st := by
  have hNs : (initArrays (emptyNet samplefrac colors)).Netsize = colors :=
    initArrays_Netsize _
  have hSf : (initArrays (emptyNet samplefrac colors)).Samplefrac = samplefrac :=
    initArrays_Samplefrac _
  have hnat : (emptyNet samplefrac colors).Netsize.toNat = colors.toNat := rfl
  apply learnScan_total 65535 _ img (by rw [hNs]; exact hN) (by rw [hSf]; exact hS)
  · rw [initArrays_Network, hNs, hnat]; simp; omega
  · rw [initArrays_Bias, hNs, hnat]; simp; omega
  · rw [initArrays_Freq, hNs, hnat]; simp; omega
  · intro w hwm
    rw [initArrays_Network, hnat] at hwm
    obtain ⟨i, hi, rfl⟩ := List.mem_map.mp hwm
    have hi1 : i < colors.toNat := List.mem_range.mp hi
    have hi2 : (i : ℚ) ≤ 65535 := by
      have : i ≤ 65535 := by omega
      exact_mod_cast this
    have hi0 : (0 : ℚ) ≤ (i : ℚ) := Nat.cast_nonneg i
    exact ⟨⟨hi0, hi2⟩, ⟨hi0, hi2⟩, ⟨hi0, hi2⟩, ⟨by norm_num, by norm_num⟩⟩
  · intro f hf
    rw [initArrays_Freq] at hf
    rw [List.eq_of_mem_replicate hf]
    have : (0 : Int) ≤ (emptyNet samplefrac colors).Netsize := by
      show (0 : Int) ≤ colors
      omega
    exact_mod_cast this
  · intro β hβ
    rw [initArrays_Bias] at hβ
    rw [List.eq_of_mem_replicate hβ]
  · intro x y hx hy
    obtain ⟨h1, h2, h3, h4⟩ := hpx x y hx hy
    have c1 : ((img.At x y).r : ℚ) ≤ 65535 := by exact_mod_cast h1
    have c2 : ((img.At x y).g : ℚ) ≤ 65535 := by exact_mod_cast h2
    have c3 : ((img.At x y).b : ℚ) ≤ 65535 := by exact_mod_cast h3
    have c4 : ((img.At x y).a : ℚ) ≤ 65535 := by exact_mod_cast h4
    exact ⟨⟨Nat.cast_nonneg _, c1⟩, ⟨Nat.cast_nonneg _, c2⟩, ⟨Nat.cast_nonneg _, c3⟩,
      ⟨Nat.cast_nonneg _, c4⟩⟩
  · exact pixels_below_MaxFloat64 img.MaxX img.MaxY hw hh

/-! ## The decay schedule of Learn -/

/-- Whenever the scan of `Learn` completes on an image of fewer than `2^63`
pixels, the decay step has run once for every pixel position `(x, y)` with
`0 < x`, `0 < y` and `x * y` divisible by `delta`. -/
theorem learnScan_decays (n : NeuQuant) (img : Image) (st : LearnState)
    (hwh : img.MaxX.toNat * img.MaxY.toNat < 2 ^ 63)
    (h : learnScan n img = some st) :
    st.decays = decayPositions img.MaxX.toNat img.MaxY.toNat (scanDelta n img) := by
  unfold learnScan at h
  by_cases hs : n.Samplefrac = 0
  · simp [hs] at h
  · simp only [hs, if_false] at h
    have hd : 0 < scanDelta n img := by
      unfold scanDelta
      simp only
      split_ifs with h1
      · decide
      · omega
    refine foldlM_range_partial (learnColumn img _ (scanDelta n img))
      (fun t s => s.decays = decayPositions t img.MaxY.toNat (scanDelta n img))
      _ img.MaxX.toNat (by simp [decayPositions]) ?_ st h
    intro i s s1 hi hP hs1
    have hiy : i * img.MaxY.toNat < 2 ^ 63 :=
      lt_of_le_of_lt (Nat.mul_le_mul_right _ (le_of_lt hi)) hwh
    rw [learnColumn_decays img _ (scanDelta n img) i s s1 hd hiy hs1, hP]
    simp [decayPositions, List.range_succ]

/-- On a 1 by 1 image (`Netsize = 16`, `Samplefrac = 1`) the scan of `Learn`
completes and has run the decay step `0` times; on a 3 by 3 image it has run it
`4` times. -/
theorem Learn_decays_small_images :
    (learnScan (initArrays (emptyNet 1 16)) (solidImage 1 1 black)).map
        (fun st => st.decays) = some 0 ∧
    (learnScan (initArrays (emptyNet 1 16)) (solidImage 3 3 black)).map
        (fun st => st.decays) = some 4 := by
  constructor <;> decide!

/-- The number of decay steps of one scan: on the network `Init` has set up
(`Samplefrac ≥ 1`, `1 ≤ Netsize ≤ 65536`), for an image with bounds in the range
of a Go `int`, fewer than `2^63` pixels and 16-bit channel values, the scan of
`Learn` completes, and the decay step has run once for every pixel position
`(x, y)` with `0 < x < W`, `0 < y < H` and `x * y` divisible by `delta`. -/
theorem learnScan_decay_positions (samplefrac colors : Int) (img : Image)
    (hS : 1 ≤ samplefrac) (hN : 1 ≤ colors) (hN1 : colors ≤ 65536)
    (hpx : ∀ x y : Nat, x < img.MaxX.toNat → y < img.MaxY.toNat →
      (img.At x y).r ≤ 65535 ∧ (img.At x y).g ≤ 65535 ∧ (img.At x y).b ≤ 65535 ∧
      (img.At x y).a ≤ 65535)
    (hw : img.MaxX < 2 ^ 63) (hh : img.MaxY < 2 ^ 63)
    (hwh : img.MaxX.toNat * img.MaxY.toNat < 2 ^ 63) :
    ∃ st, learnScan (initArrays (emptyNet samplefrac colors)) img = some st ∧
      st.decays = decayPositions img.MaxX.toNat img.MaxY.toNat
        (scanDelta (initArrays (emptyNet samplefrac colors)) img) := by
  obtain ⟨st, hst, _⟩ := learnScan_total_from_Init samplefrac colors img hS hN hN1 hpx hw hh
  exact ⟨st, hst, learnScan_decays _ img st hwh hst⟩

/-- C9: on a 40 by 30 image with `Samplefrac = 1` (16 neurons) `Learn` scans
`1200` pixels with `delta = 1200 / 1 / 600 = 2`, so that a decay step at every
`delta`-th pixel would run `600` times; the scan completes and has run the decay
step `831` times, once for each of the `831` positions `(x, y)` with `0 < x`,
`0 < y` and `x * y` even. -/
theorem Learn_decays_831_times_on_40_by_30 :
    scanDelta (initArrays (emptyNet 1 16)) (solidImage 40 30 black) = 2 ∧
    (solidImage 40 30 black).MaxX * (solidImage 40 30 black).MaxY = 600 * 2 ∧
    ∃ st, learnScan (initArrays (emptyNet 1 16)) (solidImage 40 30 black) = some st ∧
      st.decays = 831 := by
  refine ⟨by decide!, by decide, ?_⟩
  obtain ⟨st, hst, hd⟩ := learnScan_decay_positions 1 16 (solidImage 40 30 black)
    (by decide) (by decide) (by decide)
    (fun _ _ _ _ =>
      (by decide : black.r ≤ 65535 ∧ black.g ≤ 65535 ∧ black.b ≤ 65535 ∧ black.a ≤ 65535))
    (by decide) (by decide) (by decide)
  refine ⟨st, hst, ?_⟩
  rw [hd]
  decide!

/-! ## The early filter and the bias relation of contest -/

theorem fabs_nonneg (x : ℚ) : 0 ≤ fabs x := by
  rw [fabs_eq_abs]
  exact abs_nonneg x

theorem updateBest_eq_unpruned (b g r a : ℚ) (bs : Best) (i : Nat) (neuron : Neuron)
    (bias : ℚ) :
    updateBest b g r a bs i neuron bias = updateBestUnpruned b g r a bs i neuron bias := by
  unfold updateBest updateBestUnpruned
  simp only
  by_cases hf : fabs (neuron.b - b) + fabs (neuron.r - r) < bs.bestd ∨
      fabs (neuron.b - b) + fabs (neuron.r - r) < bs.bestbiasd + bias
  · rw [if_pos hf]
  · rw [if_neg hf]
    have hg := fabs_nonneg (neuron.g - g)
    have ha := fabs_nonneg (neuron.a - a)
    have h1 : bs.bestd ≤ fabs (neuron.b - b) + fabs (neuron.r - r) :=
      not_lt.mp (fun h => hf (Or.inl h))
    have h2 : bs.bestbiasd + bias ≤ fabs (neuron.b - b) + fabs (neuron.r - r) :=
      not_lt.mp (fun h => hf (Or.inr h))
    have h3 : ¬ fabs (neuron.b - b) + fabs (neuron.r - r) + fabs (neuron.g - g) +
        fabs (neuron.a - a) < bs.bestd := by
      apply not_lt.mpr
      linarith
    have h4 : ¬ fabs (neuron.b - b) + fabs (neuron.r - r) + fabs (neuron.g - g) +
        fabs (neuron.a - a) - bias < bs.bestbiasd := by
      apply not_lt.mpr
      linarith
    rw [if_neg h3, if_neg h4]

theorem contestStep_eq_unpruned (b g r a : ℚ) :
    contestStep b g r a = contestStepUnpruned b g r a := by
  funext st i
  unfold contestStep contestStepUnpruned
  simp only [updateBest_eq_unpruned]

/-- With every operation exact the early filter of `contest` is transparent: for
every state and every sample, `contest` as written and the variant that
computes the full four-channel distance for every neuron have the same
outcome: both panic, or both return the same index and leave the same state.
With binary64 rounding this fails, see `contestF64`. -/
theorem contest_filter_transparent (n : NeuQuant) (b g r a : ℚ) :
    contest n b g r a = contestUnpruned n b g r a := by
  unfold contest contestUnpruned
  rw [contestStep_eq_unpruned]

/-- C17: in the state `Init` creates for `Netsize = 2` (no call of `contest`
yet) `Bias[0]` is `0` while `GAMMA * (1/Netsize - Freq[0])` is `-1536`; and for
`Netsize = 1`, where the relation holds at first, one call of `contest` leaves
`Bias[0] = -1/1024` while `GAMMA * (1/Netsize - Freq[0])` is `0`. -/
theorem Bias_not_gamma_times_Freq_deficit :
    biasAt (initArrays (emptyNet 1 2)) 0 = 0 ∧
    biasFromFreq (initArrays (emptyNet 1 2)) 0 = -1536 ∧
    biasAt (initArrays (emptyNet 1 1)) 0 = biasFromFreq (initArrays (emptyNet 1 1)) 0 ∧
    (contest (initArrays (emptyNet 1 1)) 0 0 0 0).map
        (fun x => (biasAt x.2 0, biasFromFreq x.2 0)) = some (-1 / 1024, 0) := by
  refine ⟨by decide!, by decide!, by decide!, by decide!⟩

/-! ## Quantising the weights -/

theorem clamp_le_MaxInt32 (x : ℚ) : clamp x ≤ 2147483647 := by
  unfold clamp
  simp only [MaxInt32]
  split_ifs <;> omega

theorem toUint32_of_range (z : Int) (h0 : 0 ≤ z) (h1 : z < 4294967296) :
    toUint32 z = z.toNat := by
  unfold toUint32
  rw [Int.emod_eq_of_lt h0 h1]

/-- Inside the range of `uint32` the function `clamp` is the rounding and
clamping of the specification. -/
theorem clamp_eq_spec_of_range (x : ℚ) (h0 : 0 ≤ AwayFromZero x)
    (h1 : AwayFromZero x < 4294967296) : (clamp x : Int) = clampSpec x := by
  unfold clamp clampSpec
  rw [toUint32_of_range _ h0 h1]
  simp only [MaxInt32]
  split_ifs <;> omega

theorem AwayFromZero_range (x : ℚ) (M : Nat) (h0 : 0 ≤ x) (h1 : x ≤ (M : ℚ)) :
    0 ≤ AwayFromZero x ∧ AwayFromZero x ≤ (M : Int) := by
  unfold AwayFromZero
  rw [if_neg (not_lt.mpr h0)]
  constructor
  · apply Int.floor_nonneg.mpr
    linarith
  · have h2 : ⌊x + 1 / 2⌋ < (M : Int) + 1 := by
      apply Int.floor_lt.mpr
      push_cast
      linarith
    omega

theorem clamp_le_of_range (x : ℚ) (M : Nat) (hM : M ≤ 2147483647) (h0 : 0 ≤ x)
    (h1 : x ≤ (M : ℚ)) : clamp x ≤ M := by
  obtain ⟨ha, hb⟩ := AwayFromZero_range x M h0 h1
  have h := clamp_eq_spec_of_range x ha (by omega)
  unfold clampSpec at h
  omega

/-- On a state whose `Network` and `Colormap` have `Netsize` entries
`buildColormap` does not panic; it changes only `Colormap`, whose entry `i`
becomes the quantised neuron `i`. -/
theorem buildColormap_result (n : NeuQuant) (hNet : n.Network.length = n.Netsize.toNat)
    (hCm : n.Colormap.length = n.Netsize.toNat) :
    ∃ n1, buildColormap n = some n1 ∧
      n1.Network = n.Network ∧ n1.Netindex = n.Netindex ∧ n1.Bias = n.Bias ∧
      n1.Freq = n.Freq ∧ n1.Samplefrac = n.Samplefrac ∧ n1.Netsize = n.Netsize ∧
      n1.Colormap = n.Network.map quantise := by
  obtain ⟨n1, h1, hN, hNi, hB, hF, hS, hNs, hl, hpt⟩ :=
    foldlM_range_inv buildColormapStep
      (fun k s => s.Network = n.Network ∧ s.Netindex = n.Netindex ∧ s.Bias = n.Bias ∧
        s.Freq = n.Freq ∧ s.Samplefrac = n.Samplefrac ∧ s.Netsize = n.Netsize ∧
        s.Colormap.length = n.Colormap.length ∧
        ∀ i, i < k → s.Colormap[i]? = (n.Network[i]?).map quantise)
      n n.Netsize.toNat
      ⟨rfl, rfl, rfl, rfl, rfl, rfl, rfl, fun i hi => absurd hi (Nat.not_lt_zero i)⟩
      (by
        intro k s hk ⟨hN, hNi, hB, hF, hS, hNs, hl, hpt⟩
        have hkc : k < s.Colormap.length := by omega
        have hkn : k < s.Network.length := by rw [hN]; omega
        simp only [buildColormapStep, index?_natCast, List.getElem?_eq_getElem hkc,
          List.getElem?_eq_getElem hkn, store?_natCast _ _ _ hkc]
        refine ⟨_, rfl, hN, hNi, hB, hF, hS, hNs, by simp [hl], ?_⟩
        intro i hi
        rcases Nat.lt_succ_iff_lt_or_eq.mp hi with h | h
        · simp only
          rw [List.getElem?_set_ne (by omega)]
          exact hpt i h
        · subst h
          simp only
          rw [List.getElem?_set_eq_of_lt _ hkc, ← hN, List.getElem?_eq_getElem hkn]
          rfl)
  refine ⟨n1, h1, hN, hNi, hB, hF, hS, hNs, ?_⟩
  apply List.ext_getElem?
  intro i
  rcases Nat.lt_or_ge i n.Netsize.toNat with h | h
  · rw [hpt i h, List.getElem?_map]
  · rw [List.getElem?_eq_none (by omega), List.getElem?_eq_none (by simp; omega)]

/-- C11: for the neuron with weights `r = -1`, `g = 0`, `b = 2^32`, `a = 5/2`,
`buildColormap` stores `r = 2147483647`, `g = 0`, `b = 0`, `a = 3`, where the
rounding and clamping of the specification gives `r = 0` and `b = 2147483647`
(the conversion to `uint32` precedes the tests, so `r < 0` never holds; the
values are those of the two's-complement conversion). -/
theorem buildColormap_clamps_after_conversion :
    (buildColormap outOfRangeWeights).map (fun n => n.Colormap) =
      some [{ r := 2147483647, g := 0, b := 0, a := 3 }] ∧
    clampSpec (-1) = 0 ∧ clampSpec 4294967296 = 2147483647 ∧ clampSpec (5 / 2) = 3 := by
  refine ⟨by decide!, by decide!, by decide!, by decide!⟩

/-! ## The neighbourhood update -/

theorem moveAt_eq_set (f : ℚ) (quad : Neuron) (net : List Neuron) (pos : Int) (h0 : 0 ≤ pos)
    (h1 : pos < (net.length : Int)) :
    ∃ w, net[pos.toNat]? = some w ∧
      moveAt f quad net pos = some (net.set pos.toNat (moveToward f w quad)) := by
  have hlt : pos.toNat < net.length := by omega
  refine ⟨net[pos.toNat], List.getElem?_eq_getElem hlt, ?_⟩
  simp only [moveAt, index?, if_pos h0, List.getElem?_eq_getElem hlt, store?,
    if_pos (And.intro h0 hlt)]

theorem neighOutcome_up (alpha : ℚ) (rad lo hi i : Int) (quad : Neuron) (net : List Neuron)
    (j k : Int) (p : Nat) (h : j ≤ (p : Int) ∧ (p : Int) < hi) :
    neighOutcome alpha rad lo hi i quad net j k p =
      (net[p]?).map (fun w => moveToward (neighFactor alpha rad ((p : Int) - i - 1)) w quad) := by
  unfold neighOutcome
  rw [if_pos h]

theorem neighOutcome_down (alpha : ℚ) (rad lo hi i : Int) (quad : Neuron) (net : List Neuron)
    (j k : Int) (p : Nat) (h1 : ¬ (j ≤ (p : Int) ∧ (p : Int) < hi))
    (h2 : lo < (p : Int) ∧ (p : Int) ≤ k) :
    neighOutcome alpha rad lo hi i quad net j k p =
      (net[p]?).map (fun w => moveToward (neighFactor alpha rad (i - 1 - (p : Int))) w quad) := by
  unfold neighOutcome
  rw [if_neg h1, if_pos h2]

theorem neighOutcome_rest (alpha : ℚ) (rad lo hi i : Int) (quad : Neuron) (net : List Neuron)
    (j k : Int) (p : Nat) (h1 : ¬ (j ≤ (p : Int) ∧ (p : Int) < hi))
    (h2 : ¬ (lo < (p : Int) ∧ (p : Int) ≤ k)) :
    neighOutcome alpha rad lo hi i quad net j k p = net[p]? := by
  unfold neighOutcome
  rw [if_neg h1, if_neg h2]

/-- Two runs of the loop that differ in where they start and in positions they
do not touch agree wherever the tests agree. -/
theorem neighOutcome_congr (alpha : ℚ) (rad lo hi i : Int) (quad : Neuron)
    (net net1 : List Neuron) (j k j1 k1 : Int) (p : Nat) (hp : net1[p]? = net[p]?)
    (e1 : (j1 ≤ (p : Int) ∧ (p : Int) < hi) ↔ (j ≤ (p : Int) ∧ (p : Int) < hi))
    (e2 : (lo < (p : Int) ∧ (p : Int) ≤ k1) ↔ (lo < (p : Int) ∧ (p : Int) ≤ k)) :
    neighOutcome alpha rad lo hi i quad net1 j1 k1 p =
      neighOutcome alpha rad lo hi i quad net j k p := by
  unfold neighOutcome
  rw [hp]
  exact if_congr e1 rfl (if_congr e2 rfl rfl)

/-- The loop of `alterNeigh`, position by position: it does not panic, keeps
the length of the slice, and leaves at every position what `neighOutcome`
says. -/
theorem alterNeighLoop_outcome (alpha : ℚ) (rad lo hi i : Int) (quad : Neuron)
    (hlo0 : 0 ≤ lo) (hi0 : 0 ≤ i) :
    ∀ (fuel : Nat) (net : List Neuron) (j k q : Int),
      (hi - j).toNat + (k - lo).toNat + 1 ≤ fuel →
      (j < hi → j = i + 1 + q) → (k > lo → k = i - 1 - q) → i < j → k < i →
      hi ≤ (net.length : Int) → i < (net.length : Int) →
      ∃ net1, alterNeighLoop alpha rad lo hi quad fuel net j k q = some net1 ∧
        net1.length = net.length ∧
        ∀ p : Nat, net1[p]? = neighOutcome alpha rad lo hi i quad net j k p := by
  intro fuel
  induction fuel with
  | zero => intro net j k q h; omega
  | succ m ih =>
    intro net j k q hfuel hj hk hij hki hhl hil
    unfold alterNeighLoop
    by_cases hc : j < hi ∨ k > lo
    · rw [if_pos hc]
      simp only
      have hf : (alpha * ((rad : ℚ) * (rad : ℚ) - (q : ℚ) * (q : ℚ))) /
          ((rad : ℚ) * (rad : ℚ)) = neighFactor alpha rad q := rfl
      rw [hf]
      by_cases hjh : j < hi
      · have hje := hj hjh
        obtain ⟨wj, hwj, hmj⟩ := moveAt_eq_set (neighFactor alpha rad q) quad net j
          (by omega) (by omega)
        rw [if_pos hjh, hmj]
        simp only [Option.map_some']
        have hl1 : (net.set j.toNat (moveToward (neighFactor alpha rad q) wj quad)).length =
            net.length := List.length_set _ _ _
        by_cases hkl : k > lo
        · have hke := hk hkl
          obtain ⟨wk, hwk, hmk⟩ := moveAt_eq_set (neighFactor alpha rad q) quad
            (net.set j.toNat (moveToward (neighFactor alpha rad q) wj quad)) k
            (by omega) (by omega)
          rw [if_pos hkl, hmk]
          simp only [Option.map_some']
          have hl2 : ((net.set j.toNat (moveToward (neighFactor alpha rad q) wj quad)).set
              k.toNat (moveToward (neighFactor alpha rad q) wk quad)).length = net.length := by
            rw [List.length_set, hl1]
          obtain ⟨net1, h1, h2, h3⟩ := ih
            ((net.set j.toNat (moveToward (neighFactor alpha rad q) wj quad)).set
              k.toNat (moveToward (neighFactor alpha rad q) wk quad))
            (j + 1) (k - 1) (q + 1) (by omega)
            (fun _ => by omega) (fun _ => by omega) (by omega) (by omega) (by omega) (by omega)
          refine ⟨net1, h1, by rw [h2, hl2], ?_⟩
          intro p
          rw [h3 p]
          have hwk1 : net[k.toNat]? = some wk := by
            rw [List.getElem?_set_ne (by omega)] at hwk
            exact hwk
          by_cases hpj : p = j.toNat
          · subst hpj
            have e1 : ((j.toNat : Nat) : Int) - i - 1 = q := by omega
            rw [neighOutcome_rest _ _ _ _ _ _ _ _ _ _ (by omega) (by omega),
              neighOutcome_up _ _ _ _ _ _ _ _ _ _ (by omega),
              List.getElem?_set_ne (by omega),
              List.getElem?_set_eq_of_lt _ (by omega), hwj, e1]
            rfl
          · by_cases hpk : p = k.toNat
            · subst hpk
              have e1 : i - 1 - ((k.toNat : Nat) : Int) = q := by omega
              rw [neighOutcome_rest _ _ _ _ _ _ _ _ _ _ (by omega) (by omega),
                neighOutcome_down _ _ _ _ _ _ _ _ _ _ (by omega) (by omega),
                List.getElem?_set_eq_of_lt _ (by omega), hwk1, e1]
              rfl
            · exact neighOutcome_congr _ _ _ _ _ _ _ _ _ _ _ _ _
                (by rw [List.getElem?_set_ne (Ne.symm hpk),
                  List.getElem?_set_ne (Ne.symm hpj)])
                (by omega) (by omega)
        · rw [if_neg hkl]
          simp only
          obtain ⟨net1, h1, h2, h3⟩ := ih
            (net.set j.toNat (moveToward (neighFactor alpha rad q) wj quad))
            (j + 1) k (q + 1) (by omega)
            (fun _ => by omega) (fun h => absurd h hkl) (by omega) (by omega) (by omega) (by omega)
          refine ⟨net1, h1, by rw [h2, hl1], ?_⟩
          intro p
          rw [h3 p]
          by_cases hpj : p = j.toNat
          · subst hpj
            have e1 : ((j.toNat : Nat) : Int) - i - 1 = q := by omega
            rw [neighOutcome_rest _ _ _ _ _ _ _ _ _ _ (by omega) (by omega),
              neighOutcome_up _ _ _ _ _ _ _ _ _ _ (by omega),
              List.getElem?_set_eq_of_lt _ (by omega), hwj, e1]
            rfl
          · exact neighOutcome_congr _ _ _ _ _ _ _ _ _ _ _ _ _
              (by rw [List.getElem?_set_ne (Ne.symm hpj)]) (by omega) (by omega)
      · have hkl : k > lo := by
          rcases hc with h | h
          · exact absurd h hjh
          · exact h
        have hke := hk hkl
        rw [if_neg hjh]
        simp only
        obtain ⟨wk, hwk, hmk⟩ := moveAt_eq_set (neighFactor alpha rad q) quad net k
          (by omega) (by omega)
        rw [if_pos hkl, hmk]
        simp only [Option.map_some']
        have hl1 : (net.set k.toNat (moveToward (neighFactor alpha rad q) wk quad)).length =
            net.length := List.length_set _ _ _
        obtain ⟨net1, h1, h2, h3⟩ := ih
          (net.set k.toNat (moveToward (neighFactor alpha rad q) wk quad))
          j (k - 1) (q + 1) (by omega)
          (fun h => absurd h hjh) (fun _ => by omega) (by omega) (by omega) (by omega) (by omega)
        refine ⟨net1, h1, by rw [h2, hl1], ?_⟩
        intro p
        rw [h3 p]
        by_cases hpk : p = k.toNat
        · subst hpk
          have e1 : i - 1 - ((k.toNat : Nat) : Int) = q := by omega
          rw [neighOutcome_rest _ _ _ _ _ _ _ _ _ _ (by omega) (by omega),
            neighOutcome_down _ _ _ _ _ _ _ _ _ _ (by omega) (by omega),
            List.getElem?_set_eq_of_lt _ (by omega), hwk, e1]
          rfl
        · exact neighOutcome_congr _ _ _ _ _ _ _ _ _ _ _ _ _
            (by rw [List.getElem?_set_ne (Ne.symm hpk)]) (by omega) (by omega)
    · rw [if_neg hc]
      refine ⟨net, rfl, rfl, ?_⟩
      intro p
      rw [neighOutcome_rest _ _ _ _ _ _ _ _ _ _ (by omega) (by omega)]

/-- What `alterNeigh` does, for a winner `i` inside the network: it does not
panic, changes only `Network`, keeps its length, and moves exactly the neurons
`p` with `i < p < min (i + rad) Netsize` or `max (i - rad) 0 < p < i`, neuron `p`
by the factor `alpha * (rad^2 - q^2) / rad^2` with `q = |p - i| - 1`. -/
theorem alterNeigh_outcome (n : NeuQuant) (alpha : ℚ) (rad i : Int) (quad : Neuron)
    (h0 : 0 ≤ i) (h1 : i < (n.Network.length : Int))
    (hN : (n.Network.length : Int) = n.Netsize) :
    ∃ n1, alterNeigh n alpha rad i quad = some n1 ∧
      n1.Colormap = n.Colormap ∧ n1.Netindex = n.Netindex ∧ n1.Bias = n.Bias ∧
      n1.Freq = n.Freq ∧ n1.Samplefrac = n.Samplefrac ∧ n1.Netsize = n.Netsize ∧
      n1.Network.length = n.Network.length ∧
      ∀ p : Nat, n1.Network[p]? =
        neighOutcome alpha rad (max (i - rad) 0) (min (i + rad) n.Netsize) i quad n.Network
          (i + 1) (i - 1) p := by
  obtain ⟨net1, hs, hl, hp⟩ := alterNeighLoop_outcome alpha rad (max (i - rad) 0)
    (min (i + rad) n.Netsize) i quad (le_max_right _ _) h0
    ((min (i + rad) n.Netsize - (i + 1)).toNat + (i - 1 - max (i - rad) 0).toNat + 1)
    n.Network (i + 1) (i - 1) 0 (le_refl _) (fun _ => by omega) (fun _ => by omega)
    (by omega) (by omega) (by rw [hN]; exact min_le_right _ _) h1
  refine ⟨{ n with Network := net1 }, ?_, rfl, rfl, rfl, rfl, rfl, rfl, hl, hp⟩
  simp only [alterNeigh, hs]

/-- The factor of `alterNeigh` is positive and at most `1` when `alpha` is and
the counter satisfies `0 ≤ q < rad`. -/
theorem neighFactor_pos_le_one (alpha : ℚ) (rad q : Int) (ha0 : 0 < alpha) (ha1 : alpha ≤ 1)
    (hq0 : 0 ≤ q) (hq1 : q < rad) :
    0 < neighFactor alpha rad q ∧ neighFactor alpha rad q ≤ 1 := by
  have hr : 1 ≤ rad := by omega
  refine ⟨?_, (neigh_factor_range alpha rad q (le_of_lt ha0) ha1 hq0 (le_of_lt hq1) hr).2⟩
  have hr1 : (1 : ℚ) ≤ (rad : ℚ) := by exact_mod_cast hr
  have hq0' : (0 : ℚ) ≤ (q : ℚ) := by exact_mod_cast hq0
  have hq1' : (q : ℚ) + 1 ≤ (rad : ℚ) := by exact_mod_cast hq1
  have hpos : (0 : ℚ) < (rad : ℚ) * (rad : ℚ) := by nlinarith
  have hqq : (q : ℚ) * (q : ℚ) < (rad : ℚ) * (rad : ℚ) := by nlinarith
  unfold neighFactor
  exact div_pos (mul_pos ha0 (by linarith)) hpos

/-- C14: with three neurons, winner `i = 1` and `rad = 2`, `alterNeigh` (factor
`1/2`, sample `(0,0,0,0)`) moves neuron `2` and leaves neuron `0` as it was,
although `|0 - 1| < rad`: the downward side stops above index `0`. -/
theorem alterNeigh_skips_neuron_zero :
    (alterNeigh threeNeurons (1 / 2) 2 1 { r := 0, g := 0, b := 0, a := 0 }).map
        (fun n => n.Network) =
      some [{ r := 10, g := 10, b := 10, a := 10 }, { r := 20, g := 20, b := 20, a := 20 },
            { r := 15, g := 15, b := 15, a := 15 }] := by
  decide!

/-- C15: with four neurons, winner `i = 0`, `rad = 3`, `alpha = 1` and the sample
`(0,0,0,0)`, `alterNeigh` multiplies the weights of neuron `1` by `1 - 9/9 = 0`
and those of neuron `2` by `1 - 8/9`: the factors are those of the distances
`0` and `1`, where `alpha * (rad^2 - q^2) / rad^2` for the distances `q = 1`
and `q = 2` gives `8/9` and `5/9`, that is the weights `2` and `12`. -/
theorem alterNeigh_attenuates_one_step_late :
    (alterNeigh fourNeurons 1 3 0 { r := 0, g := 0, b := 0, a := 0 }).map
        (fun n => n.Network) =
      some [{ r := 9, g := 9, b := 9, a := 9 }, { r := 0, g := 0, b := 0, a := 0 },
            { r := 3, g := 3, b := 3, a := 3 }, { r := 36, g := 36, b := 36, a := 36 }] ∧
    (18 : ℚ) - neighFactor 1 3 1 * (18 - 0) = 2 ∧
    (27 : ℚ) - neighFactor 1 3 2 * (27 - 0) = 12 := by
  refine ⟨by decide!, by decide!, by decide!⟩

/-! ## The index built by buildIndex -/

/-- Exchanging two entries of a list gives a permutation of it. -/
theorem swap_perm (cm : List Color) (k sp : Nat) (p q : Color) (hk : cm[k]? = some p)
    (hq : cm[sp]? = some q) (hne : k ≠ sp) : List.Perm ((cm.set k q).set sp p) cm := by
  have hkl := getElem?_some_lt hk
  have hspl := getElem?_some_lt hq
  have hpk : cm[k] = p := by
    rw [List.getElem?_eq_getElem hkl] at hk
    exact Option.some.inj hk
  have hqs : cm[sp] = q := by
    rw [List.getElem?_eq_getElem hspl] at hq
    exact Option.some.inj hq
  rw [List.perm_iff_count]
  intro a
  have hspl1 : sp < (cm.set k q).length := by rw [List.length_set]; exact hspl
  rw [List.count_set _ _ _ _ hspl1, List.count_set _ _ _ _ hkl,
    List.getElem_set_ne hne hspl1, hpk, hqs]
  have hp1 : (if (p == a) = true then 1 else 0) ≤ List.count a cm := by
    by_cases h : (p == a) = true
    · rw [if_pos h]
      have : a ∈ cm := by
        rw [← eq_of_beq h]
        exact List.getElem?_mem hk
      exact List.count_pos_iff.mpr this
    · rw [if_neg h]
      exact Nat.zero_le _
  omega

/-- In a list whose first `k` entries have green at most `v` and whose other
entries have a larger green, `k` entries have green at most `v`. -/
theorem countLE_of_split (v : Nat) :
    ∀ (l : List Color) (k : Nat), k ≤ l.length →
      (∀ (p : Nat) (c : Color), p < k → l[p]? = some c → c.g ≤ v) →
      (∀ (p : Nat) (c : Color), k ≤ p → l[p]? = some c → v < c.g) →
      countLE l v = k := by
  intro l
  induction l with
  | nil =>
    intro k hk _ _
    simp only [List.length_nil] at hk
    have : k = 0 := by omega
    rw [this]
    rfl
  | cons c t ih =>
    intro k hk hlo hhi
    cases k with
    | zero =>
      have h0 : v < c.g := hhi 0 c (Nat.le_refl 0) (by simp)
      have ht := ih 0 (Nat.zero_le _) (fun p c hp => absurd hp (Nat.not_lt_zero p))
        (fun p c _ hc => hhi (p + 1) c (Nat.zero_le _) (by simpa using hc))
      unfold countLE at ht ⊢
      rw [List.countP_cons, ht]
      simp
      omega
    | succ m =>
      have h0 : c.g ≤ v := hlo 0 c (Nat.succ_pos m) (by simp)
      have ht := ih m (by simpa using hk)
        (fun p c hp hc => hlo (p + 1) c (by omega) (by simpa using hc))
        (fun p c hp hc => hhi (p + 1) c (by omega) (by simpa using hc))
      unfold countLE at ht ⊢
      rw [List.countP_cons, ht]
      simp [h0]

theorem IntSlice.store_some_val (s : IntSlice) (i v : Int) (h0 : 0 ≤ i)
    (h1 : i < (s.len : Int)) :
    ∃ s1, s.store i v = some s1 ∧ s1.len = s.len ∧
      ∀ k : Nat, s1.val k = if k = i.toNat then v else s.val k := by
  have h : 0 ≤ i ∧ i.toNat < s.len := ⟨h0, by omega⟩
  exact ⟨{ len := s.len, val := fun k => if k = i.toNat then v else s.val k },
    by simp only [IntSlice.store, if_pos h], rfl, fun _ => rfl⟩

theorem IntSlice.fill_some_val (s : IntSlice) (lo hi v : Int) (h0 : 0 ≤ lo)
    (h1 : hi ≤ (s.len : Int)) :
    ∃ s1, s.fill lo hi v = some s1 ∧ s1.len = s.len ∧
      ∀ k : Nat, s1.val k = if lo ≤ (k : Int) ∧ (k : Int) < hi then v else s.val k := by
  unfold IntSlice.fill
  by_cases h : lo < hi
  · rw [if_pos h, if_pos ⟨h0, h1⟩]
    exact ⟨_, rfl, rfl, fun _ => rfl⟩
  · rw [if_neg h]
    refine ⟨s, rfl, rfl, fun k => ?_⟩
    rw [if_neg (by omega)]

theorem swap_result_perm (cm cm1 : List Color) (k sp : Nat) (p q : Color)
    (hk : cm[k]? = some p) (hq : cm[sp]? = some q)
    (h : (if (k : Int) ≠ (sp : Int) then
        (match store? cm (k : Int) q with
          | none => none
          | some c1 => store? c1 (sp : Int) p)
        else some cm) = some cm1) : List.Perm cm1 cm := by
  have hkl := getElem?_some_lt hk
  have hspl := getElem?_some_lt hq
  by_cases hks : k = sp
  · have hne : ¬ (k : Int) ≠ (sp : Int) := by omega
    rw [if_neg hne] at h
    cases h
    exact List.Perm.refl _
  · have hne : (k : Int) ≠ (sp : Int) := by omega
    rw [if_pos hne, store?_natCast _ _ _ hkl] at h
    simp only at h
    rw [store?_natCast _ _ _ (by simpa using hspl)] at h
    cases h
    exact swap_perm cm k sp p q hk hq hks

/-- One iteration of the outer loop of `buildIndex` keeps both invariants. -/
theorem buildIndexStep_inv2 (n : NeuQuant) (k : Nat) (st : IndexState)
    (hlen : n.Colormap.length = n.Netsize.toNat) (hidx : 65536 ≤ n.Netindex.len)
    (hg : ∀ c, c ∈ n.Colormap → c.g ≤ 65535) (hk : k < n.Netsize.toNat)
    (h : IndexInv n k st) (h2 : IndexInv2 n k st) :
    ∃ st1, buildIndexStep st k = some st1 ∧ IndexInv n (k + 1) st1 ∧
      IndexInv2 n (k + 1) st1 := by
  obtain ⟨hNet, hBias, hFreq, hSf, hNs, hCl, hmem, hNl, ⟨hpc0, hpc1⟩, hsorted⟩ := h
  obtain ⟨hperm, hpcg, hpre, hpost, hval⟩ := h2
  have hkl : k < st.net.Colormap.length := by omega
  have hp : st.net.Colormap[k]? = some st.net.Colormap[k] := List.getElem?_eq_getElem hkl
  obtain ⟨sp, q, hfs, hksp, hq, hmin⟩ :=
    findSmallest_spec st.net.Colormap st.net.Netsize k st.net.Colormap[k] (by omega) hp
  obtain ⟨cm1, hswap, hl1, hmem1, hbefore, hatk, hafter⟩ :=
    swap_facts st.net.Colormap k sp st.net.Colormap[k] q hp hq hksp
  have hperm1 : List.Perm cm1 n.Colormap :=
    (swap_result_perm st.net.Colormap cm1 k sp st.net.Colormap[k] q hp hq hswap).trans hperm
  have hqmem : q ∈ n.Colormap := hmem q (List.getElem?_mem hq)
  have hqg : q.g ≤ 65535 := hg q hqmem
  have hpq : st.previousCol ≤ (q.g : Int) := hpost sp q hksp hq
  have hsorted1 : ∀ (i j : Nat) (ci cj : Color), i < k + 1 → i ≤ j → cm1[i]? = some ci →
      cm1[j]? = some cj → ci.g ≤ cj.g := by
    intro i j ci cj hi hij hci hcj
    rcases Nat.lt_succ_iff_lt_or_eq.mp hi with hik | hik
    · rw [hbefore i hik] at hci
      rcases Nat.lt_or_ge j k with hjk | hjk
      · rw [hbefore j hjk] at hcj
        exact hsorted i j ci cj hik hij hci hcj
      · obtain ⟨j1, hj1, hcj1⟩ := hafter j cj hjk hcj
        exact hsorted i j1 ci cj hik (by omega) hci hcj1
    · subst hik
      rw [hatk] at hci
      cases hci
      obtain ⟨j1, hj1, hcj1⟩ := hafter j cj hij hcj
      exact hmin j1 cj hj1 hcj1
  have hpre1 : ∀ (p : Nat) (c : Color), p < k + 1 → cm1[p]? = some c →
      (c.g : Int) ≤ (q.g : Int) := by
    intro p c hpk hc
    rcases Nat.lt_succ_iff_lt_or_eq.mp hpk with h1 | h1
    · rw [hbefore p h1] at hc
      have := hpre p c h1 hc
      omega
    · subst h1
      rw [hatk] at hc
      cases hc
      exact le_refl _
  have hpost1 : ∀ (p : Nat) (c : Color), k + 1 ≤ p → cm1[p]? = some c →
      (q.g : Int) ≤ (c.g : Int) := by
    intro p c hpk hc
    obtain ⟨j1, hj1, hcj1⟩ := hafter p c (by omega) hc
    have := hmin j1 c hj1 hcj1
    omega
  have hcount : ∀ v : Nat, st.previousCol ≤ (v : Int) → v < q.g →
      countLE n.Colormap v = k := by
    intro v hv1 hv2
    have e : countLE n.Colormap v = countLE cm1 v := (hperm1.countP_eq _).symm
    rw [e]
    apply countLE_of_split v cm1 k (by omega)
    · intro p c hpk hc
      rw [hbefore p hpk] at hc
      have := hpre p c hpk hc
      omega
    · intro p c hpk hc
      obtain ⟨j1, hj1, hcj1⟩ := hafter p c hpk hc
      have := hmin j1 c hj1 hcj1
      omega
  unfold buildIndexStep
  simp only [index?_natCast, hp, hfs, hq, hswap]
  by_cases hne : (q.g : Int) ≠ st.previousCol
  · obtain ⟨ni1, hst, hl2, hv2⟩ :=
      IntSlice.store_some_val st.net.Netindex st.previousCol (st.startpos + (k : Int)) hpc0
        (by omega)
    obtain ⟨ni2, hfill, hl3, hv3⟩ :=
      IntSlice.fill_some_val ni1 st.previousCol (q.g : Int) (k : Int) hpc0 (by omega)
    rw [if_pos hne]
    simp only [hst, hfill]
    refine ⟨_, rfl, ⟨hNet, hBias, hFreq, hSf, hNs, by rw [hl1, hCl],
      fun c hc => hmem c (hmem1 c hc), by rw [hl3, hl2, hNl],
      ⟨Int.natCast_nonneg q.g, by show ((q.g : Nat) : Int) ≤ 65535; omega⟩, hsorted1⟩,
      hperm1, Or.inr (List.mem_map.mpr ⟨q, hqmem, rfl⟩), hpre1, hpost1, ?_⟩
    intro v hv
    show ni2.val v = (countLE n.Colormap v : Int)
    have hv' : (v : Int) < (q.g : Int) := hv
    rw [hv3 v]
    by_cases hin : st.previousCol ≤ (v : Int)
    · rw [if_pos ⟨hin, hv'⟩, hcount v hin (by omega)]
    · rw [if_neg (fun hh => hin hh.1), hv2 v, if_neg (by omega)]
      exact hval v (by omega)
  · rw [if_neg hne]
    have heq : (q.g : Int) = st.previousCol := not_not.mp hne
    refine ⟨_, rfl, ⟨hNet, hBias, hFreq, hSf, hNs, by rw [hl1, hCl],
      fun c hc => hmem c (hmem1 c hc), hNl, ⟨hpc0, hpc1⟩, hsorted1⟩,
      hperm1, hpcg, ?_, ?_, hval⟩
    · intro p c hpk hc
      show (c.g : Int) ≤ st.previousCol
      rw [← heq]
      exact hpre1 p c hpk hc
    · intro p c hpk hc
      show st.previousCol ≤ (c.g : Int)
      rw [← heq]
      exact hpost1 p c hpk hc

theorem buildIndex_loop2 (n : NeuQuant) (hlen : n.Colormap.length = n.Netsize.toNat)
    (hidx : 65536 ≤ n.Netindex.len) (hg : ∀ c, c ∈ n.Colormap → c.g ≤ 65535) :
    ∃ st, (List.range n.Netsize.toNat).foldlM buildIndexStep
        { net := n, previousCol := 0, startpos := 0 } = some st ∧
      IndexInv n n.Netsize.toNat st ∧ IndexInv2 n n.Netsize.toNat st := by
  apply foldlM_range_inv buildIndexStep (fun k st => IndexInv n k st ∧ IndexInv2 n k st)
  · refine ⟨⟨rfl, rfl, rfl, rfl, rfl, rfl, fun c hc => hc, rfl,
      ⟨le_refl _, by show (0 : Int) ≤ 65535; decide⟩,
      fun i j ci cj hi => absurd hi (Nat.not_lt_zero i)⟩,
      List.Perm.refl _, Or.inl rfl, fun p c hp => absurd hp (Nat.not_lt_zero p),
      fun p c _ _ => Int.natCast_nonneg c.g, ?_⟩
    intro v hv
    have : (0 : Int) ≤ (v : Int) := Int.natCast_nonneg v
    exact absurd hv (by show ¬ (v : Int) < 0; omega)
  · intro i st hi ⟨h1, h2⟩
    exact buildIndexStep_inv2 n i st hlen hidx hg hi h1 h2

theorem countLE_lt_length (l : List Color) (v : Nat) (c : Color) (hc : c ∈ l)
    (hv : v < c.g) : countLE l v < l.length := by
  have h1 : countLE l v ≤ l.length := List.countP_le_length _
  have h2 : countLE l v ≠ l.length := by
    intro h
    have h3 := (List.countP_eq_length.mp h) c hc
    simp at h3
    omega
  omega

/-- What `buildIndex` computes, on a state whose palette has `Netsize ≥ 1`
entries with 16-bit greens and whose `Netindex` has at least 65536 entries: it
does not panic; the palette becomes a permutation of itself in ascending green
order; and for every green value `v` of 16 bits `Netindex[v]` becomes the
number of palette entries with green at most `v`, capped at `Netsize - 1`. -/
theorem buildIndex_index (n : NeuQuant) (hlen : n.Colormap.length = n.Netsize.toNat)
    (hidx : 65536 ≤ n.Netindex.len) (hg : ∀ c, c ∈ n.Colormap → c.g ≤ 65535)
    (hN : 1 ≤ n.Netsize) :
    ∃ n1, buildIndex n = some n1 ∧
      n1.Network = n.Network ∧ n1.Bias = n.Bias ∧ n1.Freq = n.Freq ∧
      n1.Samplefrac = n.Samplefrac ∧ n1.Netsize = n.Netsize ∧
      List.Perm n1.Colormap n.Colormap ∧ n1.Netindex.len = n.Netindex.len ∧
      (∀ (i j : Nat) (ci cj : Color), i ≤ j → n1.Colormap[i]? = some ci →
        n1.Colormap[j]? = some cj → ci.g ≤ cj.g) ∧
      ∀ v : Nat, v ≤ 65535 →
        n1.Netindex.val v = min (countLE n.Colormap v : Int) (n.Netsize - 1) := by
  obtain ⟨st, hst, ⟨hNet, hBias, hFreq, hSf, hNs, hCl, hmem, hNl, ⟨hpc0, hpc1⟩, hsorted⟩,
    hperm, hpcg, hpre, hpost, hval⟩ := buildIndex_loop2 n hlen hidx hg
  obtain ⟨ni1, hs1, hl1, hv1⟩ :=
    IntSlice.store_some_val st.net.Netindex st.previousCol (st.startpos + (st.net.Netsize - 1))
      hpc0 (by omega)
  have h16 : (((1 <<< 16 : Nat)) : Int) = 65536 := by decide
  obtain ⟨ni2, hs2, hl2, hv2⟩ :=
    IntSlice.fill_some_val ni1 st.previousCol (1 <<< 16) (st.net.Netsize - 1) hpc0
      (by rw [hl1, hNl, h16]; omega)
  refine ⟨{ st.net with Netindex := ni2 }, ?_, hNet, hBias, hFreq, hSf, hNs, hperm,
    by rw [hl2, hl1, hNl], ?_, ?_⟩
  · unfold buildIndex
    simp only [hst, hs1, hs2]
  · intro i j ci cj hij hci hcj
    have hj := getElem?_some_lt hcj
    exact hsorted i j ci cj (by simp only at hj; omega) hij hci hcj
  · intro v hv
    show ni2.val v = min (countLE n.Colormap v : Int) (n.Netsize - 1)
    rw [hv2 v, h16]
    by_cases hin : st.previousCol ≤ (v : Int)
    · rw [if_pos ⟨hin, by omega⟩]
      have hcount : countLE n.Colormap v = st.net.Colormap.length := by
        have hpc : countLE st.net.Colormap v = countLE n.Colormap v := hperm.countP_eq _
        rw [← hpc]
        apply countLE_of_split v st.net.Colormap st.net.Colormap.length (Nat.le_refl _)
        · intro p c hp hc
          have := hpre p c (by omega) hc
          omega
        · intro p c hp hc
          rw [List.getElem?_eq_none hp] at hc
          cases hc
      rw [hcount, hNs]
      have : (st.net.Colormap.length : Int) = n.Netsize := by omega
      rw [this]
      omega
    · rw [if_neg (fun hh => hin hh.1), hv1 v, if_neg (by omega), hval v (by omega)]
      have hne : st.previousCol ≠ 0 := by omega
      rcases hpcg with h0 | hm
      · exact absurd h0 hne
      · obtain ⟨c, hc, hcg⟩ := List.mem_map.mp hm
        have hlt := countLE_lt_length n.Colormap v c hc (by omega)
        have : (countLE n.Colormap v : Int) ≤ n.Netsize - 1 := by omega
        exact (min_eq_left this).symm

/-- C18: `buildIndex` only permutes the palette: for every palette of `Netsize`
entries with 16-bit greens (and the `Netindex` of at least 65536 entries that
`Init` allocates) it completes, and the multiset of colours of `Colormap`
after it equals the multiset before it. -/
theorem buildIndex_permutes_palette (n : NeuQuant)
    (hlen : (n.Colormap.length : Int) = n.Netsize) (hidx : 65536 ≤ n.Netindex.len)
    (hg : ∀ c, c ∈ n.Colormap → c.g ≤ 65535) :
    ∃ n1, buildIndex n = some n1 ∧
      (n1.Colormap : Multiset Color) = (n.Colormap : Multiset Color) := by
  obtain ⟨st, hst, ⟨_, _, _, _, _, _, _, hNl, ⟨hpc0, hpc1⟩, _⟩, hperm, _⟩ :=
    buildIndex_loop2 n (by omega) hidx hg
  obtain ⟨ni1, hs1, hl1, _⟩ :=
    IntSlice.store_some_val st.net.Netindex st.previousCol (st.startpos + (st.net.Netsize - 1))
      hpc0 (by omega)
  have h16 : (((1 <<< 16 : Nat)) : Int) = 65536 := by decide
  obtain ⟨ni2, hs2, _, _⟩ :=
    IntSlice.fill_some_val ni1 st.previousCol (1 <<< 16) (st.net.Netsize - 1) hpc0
      (by rw [hl1, hNl, h16]; omega)
  refine ⟨{ st.net with Netindex := ni2 }, ?_, Multiset.coe_eq_coe.mpr hperm⟩
  unfold buildIndex
  simp only [hst, hs1, hs2]

/-- C18, witness: the palette with greens `7`, `3`, `5`. -/
theorem buildIndex_permutes_palette_witness :
    ∃ n1, buildIndex smallGreens = some n1 ∧
      (n1.Colormap : Multiset Color) = (smallGreens.Colormap : Multiset Color) :=
  buildIndex_permutes_palette smallGreens (by decide) (by decide) (by decide)

/-- C13: after `buildIndex` on a palette of `Netsize ≥ 1` entries with 16-bit
greens, every 16-bit `v` below all greens of the palette has `Netindex[v] = 0`,
the position of the entry of smallest green, and every 16-bit `v` above all
greens has `Netindex[v] = Netsize - 1`. -/
theorem buildIndex_boundary_fallbacks (n : NeuQuant)
    (hlen : (n.Colormap.length : Int) = n.Netsize) (hidx : 65536 ≤ n.Netindex.len)
    (hg : ∀ c, c ∈ n.Colormap → c.g ≤ 65535) (hN : 1 ≤ n.Netsize) :
    ∃ n1, buildIndex n = some n1 ∧
      (∀ v : Nat, v ≤ 65535 → (∀ c, c ∈ n.Colormap → v < c.g) →
        n1.Netindex.read (v : Int) = some 0 ∧
        ∃ c0, n1.Colormap[0]? = some c0 ∧ ∀ c, c ∈ n1.Colormap → c0.g ≤ c.g) ∧
      (∀ v : Nat, v ≤ 65535 → (∀ c, c ∈ n.Colormap → c.g < v) →
        n1.Netindex.read (v : Int) = some (n.Netsize - 1)) := by
  obtain ⟨n1, h1, _, _, _, _, _, hperm, hl, hsorted, hval⟩ :=
    buildIndex_index n (by omega) hidx hg hN
  have hread : ∀ v : Nat, v ≤ 65535 → n1.Netindex.read (v : Int) = some (n1.Netindex.val v) := by
    intro v hv
    simp only [IntSlice.read, Int.toNat_ofNat]
    rw [if_pos ⟨by omega, by omega⟩]
  have hlen1 : n1.Colormap.length = n.Colormap.length := hperm.length_eq
  refine ⟨n1, h1, ?_, ?_⟩
  · intro v hv hall
    constructor
    · rw [hread v hv, hval v hv]
      have h0 : countLE n.Colormap v = 0 := by
        unfold countLE
        rw [List.countP_eq_zero]
        intro c hc
        have := hall c hc
        simp
        omega
      rw [h0]
      congr 1
      omega
    · have h0 : 0 < n1.Colormap.length := by omega
      refine ⟨n1.Colormap[0], List.getElem?_eq_getElem h0, ?_⟩
      intro c hc
      obtain ⟨j, hj⟩ := List.mem_iff_getElem?.mp hc
      exact hsorted 0 j _ c (Nat.zero_le j) (List.getElem?_eq_getElem h0) hj
  · intro v hv hall
    rw [hread v hv, hval v hv]
    have hfull : countLE n.Colormap v = n.Colormap.length := by
      unfold countLE
      rw [List.countP_eq_length]
      intro c hc
      have := hall c hc
      simp
      omega
    rw [hfull]
    congr 1
    omega

/-- C13, witness: the palette with greens `7`, `3`, `5`. -/
theorem buildIndex_boundary_fallbacks_witness :
    ∃ n1, buildIndex smallGreens = some n1 ∧
      (∀ v : Nat, v ≤ 65535 → (∀ c, c ∈ smallGreens.Colormap → v < c.g) →
        n1.Netindex.read (v : Int) = some 0 ∧
        ∃ c0, n1.Colormap[0]? = some c0 ∧ ∀ c, c ∈ n1.Colormap → c0.g ≤ c.g) ∧
      (∀ v : Nat, v ≤ 65535 → (∀ c, c ∈ smallGreens.Colormap → c.g < v) →
        n1.Netindex.read (v : Int) = some (smallGreens.Netsize - 1)) :=
  buildIndex_boundary_fallbacks smallGreens (by decide) (by decide) (by decide) (by decide)

/-- C12: on the palette with greens `7`, `3`, `5` `buildIndex` leaves the palette
in the order `3`, `5`, `7` and `Netindex[3] = 1`, `Netindex[5] = 2`: the entry
for an attained green points past the first palette entry of that green
(positions `0` and `1`), not at or before it. -/
theorem buildIndex_points_past_attained_green :
    (buildIndex smallGreens).map
        (fun n => (n.Colormap.map (fun c => c.g), n.Netindex.read 3, n.Netindex.read 5)) =
      some ([3, 5, 7], some 1, some 2) := by
  decide!

/-! ## Safety of indexSearch -/

theorem visit_next_best (p : Color) (b g r a bestd : Nat) (best pos : Int) (d : Nat) (k : Int)
    (h : visit p b g r a bestd best pos = Visit.next d k) : k = best ∨ k = pos := by
  unfold visit at h
  simp only at h
  split at h
  · cases h
  · split at h
    · split at h
      · split at h
        · cases h; exact Or.inr rfl
        · cases h; exact Or.inl rfl
      · cases h; exact Or.inl rfl
    · cases h; exact Or.inl rfl

/-- The loop of `indexSearch` is safe and terminates: started with `i ≥ 0`,
`0 ≤ j < Netsize`, a running best in `[0, Netsize)` and a palette of `Netsize`
entries, with fuel above `(Netsize - i) + j`, it reads the palette in bounds
only and returns a position in `[0, Netsize)`. -/
theorem searchLoop_safe (cm : List Color) (N : Int) (b g r a : Nat)
    (hlen : (cm.length : Int) = N) :
    ∀ (fuel bestd : Nat) (best i j : Int), 0 ≤ i → 0 ≤ j → j < N → 0 ≤ best → best < N →
      (N - i).toNat + j.toNat < fuel →
      ∃ k, searchLoop cm N b g r a fuel bestd best i j = some k ∧ 0 ≤ k ∧ k < N := by
  intro fuel
  induction fuel with
  | zero => intro bestd best i j _ _ _ _ _ hf; omega
  | succ fuel ih =>
    intro bestd best i j hi hj hjN hb0 hbN hf
    unfold searchLoop
    by_cases hc : i < N ∨ j > 0
    · rw [if_pos hc]
      by_cases hiN : i < N
      · rw [if_pos hiN]
        obtain ⟨p, hp, _⟩ := index?_of_lt cm i hi (by omega)
        simp only [hp]
        cases hv : visit p b g r a bestd best i with
        | brk => exact ⟨best, rfl, hb0, hbN⟩
        | next bestd1 best1 =>
          simp only
          have hb1 : 0 ≤ best1 ∧ best1 < N := by
            rcases visit_next_best p b g r a bestd best i bestd1 best1 hv with h | h
            · rw [h]; exact ⟨hb0, hbN⟩
            · rw [h]; exact ⟨hi, hiN⟩
          by_cases hj0 : j > 0
          · rw [if_pos hj0]
            obtain ⟨q, hq, _⟩ := index?_of_lt cm j hj (by omega)
            simp only [hq]
            cases hv2 : visit q b g r a bestd1 best1 j with
            | brk => exact ⟨best1, rfl, hb1.1, hb1.2⟩
            | next bestd2 best2 =>
              simp only
              have hb2 : 0 ≤ best2 ∧ best2 < N := by
                rcases visit_next_best q b g r a bestd1 best1 j bestd2 best2 hv2 with h | h
                · rw [h]; exact hb1
                · rw [h]; exact ⟨hj, hjN⟩
              exact ih bestd2 best2 (i + 1) (j - 1) (by omega) (by omega) (by omega)
                hb2.1 hb2.2 (by omega)
          · rw [if_neg hj0]
            exact ih bestd1 best1 (i + 1) j (by omega) hj hjN hb1.1 hb1.2 (by omega)
      · rw [if_neg hiN]
        have hj0 : j > 0 := by
          rcases hc with h | h
          · exact absurd h hiN
          · exact h
        simp only
        rw [if_pos hj0]
        obtain ⟨q, hq, _⟩ := index?_of_lt cm j hj (by omega)
        simp only [hq]
        cases hv2 : visit q b g r a bestd best j with
        | brk => exact ⟨best, rfl, hb0, hbN⟩
        | next bestd2 best2 =>
          simp only
          have hb2 : 0 ≤ best2 ∧ best2 < N := by
            rcases visit_next_best q b g r a bestd best j bestd2 best2 hv2 with h | h
            · rw [h]; exact ⟨hb0, hbN⟩
            · rw [h]; exact ⟨hj, hjN⟩
          exact ih bestd2 best2 i (j - 1) hi (by omega) (by omega) hb2.1 hb2.2 (by omega)
    · rw [if_neg hc]
      exact ⟨best, rfl, hb0, hbN⟩

/-- More fuel does not change what the loop of `indexSearch` returns. -/
theorem searchLoop_fuel_mono (cm : List Color) (N : Int) (b g r a : Nat) :
    ∀ (fuel bestd : Nat) (best i j k : Int),
      searchLoop cm N b g r a fuel bestd best i j = some k →
      searchLoop cm N b g r a (fuel + 1) bestd best i j = some k := by
  intro fuel
  induction fuel with
  | zero => intro bestd best i j k h; simp [searchLoop] at h
  | succ fuel ih =>
    intro bestd best i j k h
    unfold searchLoop
    unfold searchLoop at h
    by_cases hc : i < N ∨ j > 0
    · rw [if_pos hc] at h ⊢
      by_cases hiN : i < N
      · rw [if_pos hiN] at h ⊢
        cases hp : index? cm i with
        | none => simp only [hp] at h; cases h
        | some p =>
          simp only [hp] at h ⊢
          cases hv : visit p b g r a bestd best i with
          | brk => simp only [hv] at h ⊢; exact h
          | next bestd1 best1 =>
            simp only [hv] at h ⊢
            by_cases hj0 : j > 0
            · rw [if_pos hj0] at h ⊢
              cases hq : index? cm j with
              | none => simp only [hq] at h; cases h
              | some q =>
                simp only [hq] at h ⊢
                cases hv2 : visit q b g r a bestd1 best1 j with
                | brk => simp only [hv2] at h ⊢; exact h
                | next bestd2 best2 =>
                  simp only [hv2] at h ⊢
                  exact ih _ _ _ _ _ h
            · rw [if_neg hj0] at h ⊢
              exact ih _ _ _ _ _ h
      · rw [if_neg hiN] at h ⊢
        simp only at h ⊢
        by_cases hj0 : j > 0
        · rw [if_pos hj0] at h ⊢
          cases hq : index? cm j with
          | none => simp only [hq] at h; cases h
          | some q =>
            simp only [hq] at h ⊢
            cases hv2 : visit q b g r a bestd best j with
            | brk => simp only [hv2] at h ⊢; exact h
            | next bestd2 best2 =>
              simp only [hv2] at h ⊢
              exact ih _ _ _ _ _ h
        · rw [if_neg hj0] at h ⊢
          exact ih _ _ _ _ _ h
    · rw [if_neg hc] at h ⊢
      exact h

/-- C19: `indexSearch` is safe and total on a built network.  For every state
with `Netsize ≥ 1` neurons and palette slots and a `Netindex` of at least 65536
entries, whose weights quantise to greens of at most `65535`, `buildColormap`
followed by `buildIndex` completes; in the state they leave every `Netindex`
entry lies in `[0, Netsize - 1]`, and every query with `g ≤ 65535` makes
`indexSearch` terminate without an out-of-range access and return an index in
`[0, Netsize)`, a valid position of the list `GetPalette` returns. -/
theorem indexSearch_safe_on_built_network (n0 : NeuQuant) (b g r a : Nat)
    (hNet : (n0.Network.length : Int) = n0.Netsize)
    (hCm : (n0.Colormap.length : Int) = n0.Netsize)
    (hidx : 65536 ≤ n0.Netindex.len) (hN : 1 ≤ n0.Netsize)
    (hg : ∀ w, w ∈ n0.Network → (quantise w).g ≤ 65535) (hq : g ≤ 65535) :
    ∃ n1 n2, buildColormap n0 = some n1 ∧ buildIndex n1 = some n2 ∧
      (∀ v : Nat, v ≤ 65535 → ∃ e, n2.Netindex.read (v : Int) = some e ∧
        0 ≤ e ∧ e ≤ n2.Netsize - 1) ∧
      ∃ k, indexSearch n2 b g r a = some k ∧ 0 ≤ k ∧ k < n2.Netsize ∧
        ∃ pal, GetPalette n2 = some (pal, n2) ∧ k.toNat < pal.length := by
  obtain ⟨n1, h1, _, hNi1, _, _, _, hNs1, hC1⟩ :=
    buildColormap_result n0 (by omega) (by omega)
  have hlen1 : n1.Colormap.length = n1.Netsize.toNat := by
    rw [hC1, List.length_map, hNs1]; omega
  have hg1 : ∀ c, c ∈ n1.Colormap → c.g ≤ 65535 := by
    intro c hc
    rw [hC1] at hc
    obtain ⟨w, hw, rfl⟩ := List.mem_map.mp hc
    exact hg w hw
  obtain ⟨n2, h2, _, _, _, _, hNs2, hperm, hl2, _, hval⟩ :=
    buildIndex_index n1 hlen1 (by rw [hNi1]; exact hidx) hg1 (by rw [hNs1]; exact hN)
  have hlen2 : (n2.Colormap.length : Int) = n2.Netsize := by
    rw [hperm.length_eq, hNs2]; omega
  have hrange : ∀ v : Nat, v ≤ 65535 →
      n2.Netindex.read (v : Int) = some (n2.Netindex.val v) ∧
        0 ≤ n2.Netindex.val v ∧ n2.Netindex.val v ≤ n2.Netsize - 1 := by
    intro v hv
    constructor
    · simp only [IntSlice.read, Int.toNat_ofNat]
      rw [if_pos ⟨by omega, by rw [hl2, hNi1]; omega⟩]
    · rw [hval v hv, hNs2]
      have h0 : (0 : Int) ≤ (countLE n1.Colormap v : Int) := Int.natCast_nonneg _
      constructor
      · exact le_min h0 (by omega)
      · exact min_le_right _ _
  refine ⟨n1, n2, h1, h2, fun v hv => ⟨_, hrange v hv⟩, ?_⟩
  obtain ⟨hread, hi0, hi1⟩ := hrange g hq
  have hj : 0 ≤ (if n2.Netindex.val g > 0 then n2.Netindex.val g - 1 else 0) ∧
      (if n2.Netindex.val g > 0 then n2.Netindex.val g - 1 else 0) < n2.Netsize := by
    split <;> omega
  obtain ⟨k, hk, hk0, hk1⟩ :=
    searchLoop_safe n2.Colormap n2.Netsize b g r a hlen2
      ((n2.Netsize - n2.Netindex.val g).toNat +
        (if n2.Netindex.val g > 0 then n2.Netindex.val g - 1 else 0).toNat + 1)
      MaxUint32 0 (n2.Netindex.val g)
      (if n2.Netindex.val g > 0 then n2.Netindex.val g - 1 else 0)
      hi0 hj.1 hj.2 (Int.le_refl 0) (by omega) (Nat.lt_succ_self _)
  refine ⟨k, ?_, hk0, hk1, n2.Colormap.map toRGBA, GetPalette_eq n2 hlen2, ?_⟩
  · unfold indexSearch
    simp only [hread]
    exact hk
  · rw [List.length_map]
    omega

/-- C19, witness: the state with greens `7`, `3`, `5` and the query
`(b, g, r, a) = (0, 4, 0, 0)`. -/
theorem indexSearch_safe_on_built_network_witness :
    ∃ n1 n2, buildColormap smallGreens = some n1 ∧ buildIndex n1 = some n2 ∧
      (∀ v : Nat, v ≤ 65535 → ∃ e, n2.Netindex.read (v : Int) = some e ∧
        0 ≤ e ∧ e ≤ n2.Netsize - 1) ∧
      ∃ k, indexSearch n2 0 4 0 0 = some k ∧ 0 ≤ k ∧ k < n2.Netsize ∧
        ∃ pal, GetPalette n2 = some (pal, n2) ∧ k.toNat < pal.length :=
  indexSearch_safe_on_built_network smallGreens 0 4 0 0 (by decide) (by decide) (by decide)
    (by decide) (by decide!) (by decide)

/-! ## Training keeps the weights in the sample range -/

/-- The scan of `Learn` is the state before pixel `(Max.X, 0)`. -/
theorem learnScan_eq_learnBefore (n : NeuQuant) (img : Image) :
    learnScan n img = learnBefore n img img.MaxX.toNat 0 := by
  unfold learnScan learnBefore
  by_cases hs : n.Samplefrac = 0
  · simp only [hs, if_true]
  · simp only [hs, if_false]
    have e : ∀ o : Option LearnState,
        o = (match o with
          | none => none
          | some st =>
            (List.range 0).foldlM
              (fun st y =>
                learnPixel img (scanAlphadec n) (scanDelta n img) img.MaxX.toNat y st) st) := by
      intro o
      cases o <;> rfl
    exact e _

theorem scanAlphadec_large (n : NeuQuant) (hS : 1 ≤ n.Samplefrac) : 1 < scanAlphadec n := by
  have h1 : (0 : Int) ≤ (n.Samplefrac - 1).tdiv 3 := Int.tdiv_nonneg (by omega) (by decide)
  have h2 : ((30 : Int) <<< 8) = 7680 := by decide
  have h3 : (1 : Int) < ((30 : Int) <<< 8) + (n.Samplefrac - 1).tdiv 3 := by omega
  unfold scanAlphadec
  exact_mod_cast h3

/-- The decay step keeps `alpha` strictly positive. -/
theorem learnPixel_alpha_pos (img : Image) (alphadec : ℚ) (delta : Int) (x y : Nat)
    (st st1 : LearnState) (hdec : 1 < alphadec) (ha : 0 < st.alpha)
    (h : learnPixel img alphadec delta x y st = some st1) : 0 < st1.alpha := by
  unfold learnPixel at h
  simp only at h
  split at h
  · cases h
  · split at h
    · cases h
    · split at h
      · cases h
      · split at h
        · cases h
          show 0 < st.alpha - st.alpha / alphadec
          have := div_lt_self ha hdec
          linarith
        · cases h
          exact ha

theorem learnPixel_inv_pos (M : ℚ) (n0 : NeuQuant) (c : Nat) (img : Image) (alphadec : ℚ)
    (delta : Int) (x y : Nat) (st : LearnState) (hN : 1 ≤ n0.Netsize) (hdec : 1 < alphadec)
    (hpx : InRange M (sampleOf (img.At x y))) (hM : 4 * M + (c : ℚ) < MaxFloat64)
    (h : TrainInvPos M n0 c st) :
    ∃ st1, learnPixel img alphadec delta x y st = some st1 ∧ TrainInvPos M n0 (c + 1) st1 := by
  obtain ⟨st1, h1, hinv⟩ :=
    learnPixel_inv M n0 c img alphadec delta x y st hN (le_of_lt hdec) hpx hM h.1
  exact ⟨st1, h1, hinv, learnPixel_alpha_pos img alphadec delta x y st st1 hdec h.2 h1⟩

/-- The invariant after the first `y` pixels of column `x`. -/
theorem learnColumn_prefix_inv (M : ℚ) (n0 : NeuQuant) (img : Image) (alphadec : ℚ)
    (delta : Int) (x y : Nat) (st : LearnState) (hN : 1 ≤ n0.Netsize) (hdec : 1 < alphadec)
    (hx : x < img.MaxX.toNat) (hy : y ≤ img.MaxY.toNat)
    (hpx : ∀ x y : Nat, x < img.MaxX.toNat → y < img.MaxY.toNat →
      InRange M (sampleOf (img.At x y)))
    (hM : 4 * M + ((img.MaxX.toNat * img.MaxY.toNat : Nat) : ℚ) < MaxFloat64)
    (h : TrainInvPos M n0 (x * img.MaxY.toNat) st) :
    ∃ st1, (List.range y).foldlM (fun st y => learnPixel img alphadec delta x y st) st =
        some st1 ∧ TrainInvPos M n0 (x * img.MaxY.toNat + y) st1 := by
  apply foldlM_range_inv (fun st y => learnPixel img alphadec delta x y st)
    (fun y s => TrainInvPos M n0 (x * img.MaxY.toNat + y) s)
  · exact h
  · intro t s ht hs
    have hc : x * img.MaxY.toNat + t ≤ img.MaxX.toNat * img.MaxY.toNat := by
      have h1 : (x + 1) * img.MaxY.toNat ≤ img.MaxX.toNat * img.MaxY.toNat :=
        Nat.mul_le_mul_right _ hx
      have h2 : (x + 1) * img.MaxY.toNat = x * img.MaxY.toNat + img.MaxY.toNat := by ring
      omega
    have hcq : ((x * img.MaxY.toNat + t : Nat) : ℚ) ≤
        ((img.MaxX.toNat * img.MaxY.toNat : Nat) : ℚ) := by exact_mod_cast hc
    exact learnPixel_inv_pos M n0 (x * img.MaxY.toNat + t) img alphadec delta x t s hN hdec
      (hpx x t hx (by omega)) (by linarith) hs

/-- The invariant after the first `x` columns. -/
theorem learnScan_prefix_inv (M : ℚ) (n0 : NeuQuant) (img : Image) (alphadec : ℚ)
    (delta : Int) (x : Nat) (st : LearnState) (hN : 1 ≤ n0.Netsize) (hdec : 1 < alphadec)
    (hx : x ≤ img.MaxX.toNat)
    (hpx : ∀ x y : Nat, x < img.MaxX.toNat → y < img.MaxY.toNat →
      InRange M (sampleOf (img.At x y)))
    (hM : 4 * M + ((img.MaxX.toNat * img.MaxY.toNat : Nat) : ℚ) < MaxFloat64)
    (h : TrainInvPos M n0 0 st) :
    ∃ st1, (List.range x).foldlM (learnColumn img alphadec delta) st = some st1 ∧
      TrainInvPos M n0 (x * img.MaxY.toNat) st1 := by
  apply foldlM_range_inv (learnColumn img alphadec delta)
    (fun x s => TrainInvPos M n0 (x * img.MaxY.toNat) s)
  · simpa using h
  · intro t s ht hs
    have h2 : (t + 1) * img.MaxY.toNat = t * img.MaxY.toNat + img.MaxY.toNat := by ring
    rw [h2]
    exact learnColumn_prefix_inv M n0 img alphadec delta t img.MaxY.toNat s hN hdec
      (by omega) (Nat.le_refl _) hpx hM hs

/-- The state before every pixel of the image satisfies the invariant. -/
theorem learnBefore_inv (M : ℚ) (n : NeuQuant) (img : Image) (x y : Nat)
    (hN : 1 ≤ n.Netsize) (hS : 1 ≤ n.Samplefrac)
    (hx : x < img.MaxX.toNat ∨ (x = img.MaxX.toNat ∧ y = 0)) (hy : y ≤ img.MaxY.toNat)
    (hpx : ∀ x y : Nat, x < img.MaxX.toNat → y < img.MaxY.toNat →
      InRange M (sampleOf (img.At x y)))
    (hM : 4 * M + ((img.MaxX.toNat * img.MaxY.toNat : Nat) : ℚ) < MaxFloat64)
    (h : TrainInvPos M n 0 (scanStart n)) :
    ∃ st, learnBefore n img x y = some st ∧ TrainInvPos M n (x * img.MaxY.toNat + y) st := by
  have hdec := scanAlphadec_large n hS
  obtain ⟨st0, h0, hinv0⟩ := learnScan_prefix_inv M n img (scanAlphadec n) (scanDelta n img) x
    (scanStart n) hN hdec (by omega) hpx hM h
  have hs : ¬ n.Samplefrac = 0 := by omega
  unfold learnBefore
  simp only [hs, if_false, h0]
  rcases hx with hx | ⟨_, hy0⟩
  · exact learnColumn_prefix_inv M n img (scanAlphadec n) (scanDelta n img) x y st0 hN hdec
      hx hy hpx hM hinv0
  · subst hy0
    exact ⟨st0, rfl, hinv0⟩

/-- The steps of the loop body of `Learn` under the invariant: `contest`,
`alterSingle` and `alterNeigh` do not panic and leave every weight in `[0, M]`. -/
theorem learnPixel_steps (M : ℚ) (n0 : NeuQuant) (c : Nat) (px : Pixel)
    (st : LearnState) (hN : 1 ≤ n0.Netsize)
    (hpx : InRange M (sampleOf px)) (hM : 4 * M + (c : ℚ) < MaxFloat64)
    (h : TrainInv M n0 c st) :
    ∃ (j : Int) (n1 n2 n3 : NeuQuant),
      contest st.net (px.b : ℚ) (px.g : ℚ) (px.r : ℚ) (px.a : ℚ) = some (j, n1) ∧
      alterSingle n1 (1 * st.alpha / (INIT_ALPHA : ℚ)) j (sampleOf px) = some n2 ∧
      (∀ w, w ∈ n2.Network → InRange M w) ∧
      (if st.rad > 0 then
          alterNeigh n2 (1 * st.alpha / (INIT_ALPHA : ℚ)) st.rad j (sampleOf px)
        else some n2) = some n3 ∧
      (∀ w, w ∈ n3.Network → InRange M w) := by
  obtain ⟨hCm, hNi, hSf, hNs, hNl, hBl, hFl, hW, hF, hB, ha0, ha1⟩ := h
  have hc0 : (0 : ℚ) ≤ (c : ℚ) := Nat.cast_nonneg c
  have h0N : 0 < st.net.Network.length := by omega
  have h0B : 0 < st.net.Bias.length := by omega
  have hw0 : InRange M (neuronAt st.net 0) := by
    have : neuronAt st.net 0 = st.net.Network[0] := by
      simp [neuronAt, List.getElem?_eq_getElem h0N]
    rw [this]
    exact hW _ (List.getElem_mem _)
  have hd0 : absDist (neuronAt st.net 0) px.b px.g px.r px.a ≤ 4 * M :=
    absDist_le_of_inRange M (neuronAt st.net 0) (sampleOf px) hw0 hpx
  obtain ⟨j, n1, hcon, hNet1, hCm1, hNi1, hSf1, hNs1, hBl1, hFl1, hj⟩ :=
    contest_result st.net px.b px.g px.r px.a
      (by omega) (by omega) (by omega) ⟨0, by omega, by linarith⟩
  have hb0 : -(c : ℚ) ≤ biasAt st.net 0 := by
    have : biasAt st.net 0 = st.net.Bias[0] := by
      simp [biasAt, List.getElem?_eq_getElem h0B]
    rw [this]
    exact hB _ (List.getElem_mem _)
  obtain ⟨p, hp, hpN, -, -⟩ : ∃ p : Nat, j = (p : Int) ∧ p < st.net.Netsize.toNat ∧
      (∀ i, i < st.net.Netsize.toNat →
        biasedDist st.net px.b px.g px.r px.a p ≤ biasedDist st.net px.b px.g px.r px.a i) ∧
      ∀ i, i < p →
        biasedDist st.net px.b px.g px.r px.a p < biasedDist st.net px.b px.g px.r px.a i := by
    rcases hj with ⟨_, hall⟩ | h
    · have h1 := hall 0 (by omega)
      unfold biasedDist at h1
      linarith
    · exact h
  have hal0 : 0 ≤ 1 * st.alpha / (INIT_ALPHA : ℚ) := by
    rw [INIT_ALPHA_val]
    linarith
  have hal1 : 1 * st.alpha / (INIT_ALPHA : ℚ) ≤ 1 := by
    rw [INIT_ALPHA_val]
    linarith
  have hW1 : ∀ w, w ∈ n1.Network → InRange M w := by rw [hNet1]; exact hW
  obtain ⟨n2, hsing, hCm2, hNi2, hB2, hF2, hSf2, hNs2, hl2, hW2⟩ :=
    alterSingle_inRange M _ n1 j (sampleOf px) (by omega)
      (by rw [hNet1]; omega) hal0 hal1 hW1 hpx
  by_cases hr : st.rad > 0
  · obtain ⟨n3, hn3, _, _, _, _, _, _, _, hW3⟩ :=
      alterNeigh_inRange M (1 * st.alpha / (INIT_ALPHA : ℚ)) n2 st.rad j (sampleOf px)
        (by omega) (by rw [hl2, hNet1]; omega)
        (by rw [hl2, hNet1, hNs2, hNs1, hNs]; exact hNl) hal0 hal1 (by omega) hW2 hpx
    exact ⟨j, n1, n2, n3, hcon, hsing, hW2, by rw [if_pos hr]; exact hn3, hW3⟩
  · exact ⟨j, n1, n2, n2, hcon, hsing, hW2, by rw [if_neg hr], hW2⟩

theorem IntSlice.appendZeros_len (s : IntSlice) (k : Nat) : (s.appendZeros k).len = s.len + k :=
  rfl

/-- The state `Init` hands to `Learn` satisfies the invariant of the scan. -/
theorem scanStart_inv (samplefrac colors : Int) (hN : 1 ≤ colors) (hN1 : colors ≤ 65536) :
    TrainInvPos 65535 (initArrays (emptyNet samplefrac colors)) 0
      (scanStart (initArrays (emptyNet samplefrac colors))) := by
  have hNs : (initArrays (emptyNet samplefrac colors)).Netsize = colors :=
    initArrays_Netsize _
  have hnat : (emptyNet samplefrac colors).Netsize.toNat = colors.toNat := rfl
  refine ⟨⟨rfl, rfl, rfl, rfl, ?_, ?_, ?_, ?_, ?_, ?_, ?_, ?_⟩, ?_⟩
  · show (((initArrays (emptyNet samplefrac colors)).Network.length : Nat) : Int) = _
    rw [initArrays_Network, hNs, hnat]; simp; omega
  · show (((initArrays (emptyNet samplefrac colors)).Bias.length : Nat) : Int) = _
    rw [initArrays_Bias, hNs, hnat]; simp; omega
  · show (((initArrays (emptyNet samplefrac colors)).Freq.length : Nat) : Int) = _
    rw [initArrays_Freq, hNs, hnat]; simp; omega
  · intro w hwm
    have hwm1 : w ∈ (initArrays (emptyNet samplefrac colors)).Network := hwm
    rw [initArrays_Network, hnat] at hwm1
    obtain ⟨i, hi, rfl⟩ := List.mem_map.mp hwm1
    have hi1 : i < colors.toNat := List.mem_range.mp hi
    have hi2 : (i : ℚ) ≤ 65535 := by
      have : i ≤ 65535 := by omega
      exact_mod_cast this
    have hi0 : (0 : ℚ) ≤ (i : ℚ) := Nat.cast_nonneg i
    exact ⟨⟨hi0, hi2⟩, ⟨hi0, hi2⟩, ⟨hi0, hi2⟩, ⟨by norm_num, by norm_num⟩⟩
  · intro f hf
    have hf1 : f ∈ (initArrays (emptyNet samplefrac colors)).Freq := hf
    rw [initArrays_Freq] at hf1
    rw [List.eq_of_mem_replicate hf1]
    have : (0 : Int) ≤ (emptyNet samplefrac colors).Netsize := by
      show (0 : Int) ≤ colors
      omega
    exact_mod_cast this
  · intro β hβ
    have hβ1 : β ∈ (initArrays (emptyNet samplefrac colors)).Bias := hβ
    rw [initArrays_Bias] at hβ1
    rw [List.eq_of_mem_replicate hβ1]
    simp
  · show (0 : ℚ) ≤ (INIT_ALPHA : ℚ)
    rw [INIT_ALPHA_val]; norm_num
  · show (INIT_ALPHA : ℚ) ≤ 1024
    rw [INIT_ALPHA_val]
  · show (0 : ℚ) < (INIT_ALPHA : ℚ)
    rw [INIT_ALPHA_val]; norm_num

theorem sampleOf_inRange (px : Pixel)
    (h : px.r ≤ 65535 ∧ px.g ≤ 65535 ∧ px.b ≤ 65535 ∧ px.a ≤ 65535) :
    InRange 65535 (sampleOf px) := by
  obtain ⟨h1, h2, h3, h4⟩ := h
  have c1 : (px.r : ℚ) ≤ 65535 := by exact_mod_cast h1
  have c2 : (px.g : ℚ) ≤ 65535 := by exact_mod_cast h2
  have c3 : (px.b : ℚ) ≤ 65535 := by exact_mod_cast h3
  have c4 : (px.a : ℚ) ≤ 65535 := by exact_mod_cast h4
  exact ⟨⟨Nat.cast_nonneg _, c1⟩, ⟨Nat.cast_nonneg _, c2⟩, ⟨Nat.cast_nonneg _, c3⟩,
    ⟨Nat.cast_nonneg _, c4⟩⟩

theorem quantise_le_of_inRange (w : Neuron) (h : InRange 65535 w) :
    (quantise w).r ≤ 65535 ∧ (quantise w).g ≤ 65535 ∧ (quantise w).b ≤ 65535 ∧
      (quantise w).a ≤ 65535 := by
  obtain ⟨hr, hg, hb, ha⟩ := h
  have e : ((65535 : Nat) : ℚ) = 65535 := by norm_num
  exact ⟨clamp_le_of_range w.r 65535 (by decide) hr.1 (by rw [e]; exact hr.2),
    clamp_le_of_range w.g 65535 (by decide) hg.1 (by rw [e]; exact hg.2),
    clamp_le_of_range w.b 65535 (by decide) hb.1 (by rw [e]; exact hb.2),
    clamp_le_of_range w.a 65535 (by decide) ha.1 (by rw [e]; exact ha.2)⟩

/-- C20: training keeps the weights in the sample range.  On the network `Init`
sets up for `1 ≤ Netsize ≤ 65536` and `Samplefrac ≥ 1`, with an image whose
channel values are at most `65535` (bounds in the range of a Go `int`): before
every pixel `(x, y)` the scan of `Learn` has not panicked, the learning rate
`alpha / INIT_ALPHA` and every neighbourhood factor with counter `0 ≤ q < rad`
lie in `(0, 1]`, and `contest`, `alterSingle` and `alterNeigh` complete with
every weight in `[0, 65535]` after `alterSingle` and after `alterNeigh`; at the
end of `Learn` every weight lies in `[0, 65535]`, `buildColormap` yields
channels of at most `65535`, and `buildIndex` completes without an access
outside `Netindex`, so that `NewNeuquant` returns. -/
theorem Learn_keeps_weights_in_range (samplefrac colors : Int) (img : Image)
    (hS : 1 ≤ samplefrac) (hN : 1 ≤ colors) (hN1 : colors ≤ 65536)
    (hpx : ∀ x y : Nat, x < img.MaxX.toNat → y < img.MaxY.toNat →
      (img.At x y).r ≤ 65535 ∧ (img.At x y).g ≤ 65535 ∧ (img.At x y).b ≤ 65535 ∧
      (img.At x y).a ≤ 65535)
    (hw : img.MaxX < 2 ^ 63) (hh : img.MaxY < 2 ^ 63) :
    (∀ x y : Nat, x < img.MaxX.toNat → y < img.MaxY.toNat →
      ∃ (st : LearnState) (j : Int) (n1 n2 n3 : NeuQuant),
        learnBefore (initArrays (emptyNet samplefrac colors)) img x y = some st ∧
        (0 < 1 * st.alpha / (INIT_ALPHA : ℚ) ∧ 1 * st.alpha / (INIT_ALPHA : ℚ) ≤ 1) ∧
        (∀ q : Int, 0 ≤ q → q < st.rad →
          0 < neighFactor (1 * st.alpha / (INIT_ALPHA : ℚ)) st.rad q ∧
          neighFactor (1 * st.alpha / (INIT_ALPHA : ℚ)) st.rad q ≤ 1) ∧
        contest st.net ((img.At x y).b : ℚ) ((img.At x y).g : ℚ) ((img.At x y).r : ℚ)
          ((img.At x y).a : ℚ) = some (j, n1) ∧
        alterSingle n1 (1 * st.alpha / (INIT_ALPHA : ℚ)) j (sampleOf (img.At x y)) = some n2 ∧
        (∀ w, w ∈ n2.Network → InRange 65535 w) ∧
        (if st.rad > 0 then
            alterNeigh n2 (1 * st.alpha / (INIT_ALPHA : ℚ)) st.rad j (sampleOf (img.At x y))
          else some n2) = some n3 ∧
        (∀ w, w ∈ n3.Network → InRange 65535 w)) ∧
    ∃ n1 n2 n3 : NeuQuant,
      Learn (initArrays (emptyNet samplefrac colors)) img = some n1 ∧
      (∀ w, w ∈ n1.Network → InRange 65535 w) ∧
      buildColormap n1 = some n2 ∧
      (∀ c, c ∈ n2.Colormap → c.r ≤ 65535 ∧ c.g ≤ 65535 ∧ c.b ≤ 65535 ∧ c.a ≤ 65535) ∧
      buildIndex n2 = some n3 ∧
      NewNeuquant samplefrac colors img = some n3 := by
  have hNs : (initArrays (emptyNet samplefrac colors)).Netsize = colors :=
    initArrays_Netsize _
  have hSf : (initArrays (emptyNet samplefrac colors)).Samplefrac = samplefrac :=
    initArrays_Samplefrac _
  have hstart := scanStart_inv samplefrac colors hN hN1
  have hM := pixels_below_MaxFloat64 img.MaxX img.MaxY hw hh
  have hpxR : ∀ x y : Nat, x < img.MaxX.toNat → y < img.MaxY.toNat →
      InRange 65535 (sampleOf (img.At x y)) :=
    fun x y hx hy => sampleOf_inRange _ (hpx x y hx hy)
  constructor
  · intro x y hx hy
    obtain ⟨st, hst, hinv, hpos⟩ :=
      learnBefore_inv 65535 (initArrays (emptyNet samplefrac colors)) img x y
        (by rw [hNs]; exact hN) (by rw [hSf]; exact hS) (Or.inl hx) (le_of_lt hy) hpxR hM hstart
    have hc : x * img.MaxY.toNat + y ≤ img.MaxX.toNat * img.MaxY.toNat := by
      have h1 : (x + 1) * img.MaxY.toNat ≤ img.MaxX.toNat * img.MaxY.toNat :=
        Nat.mul_le_mul_right _ hx
      have h2 : (x + 1) * img.MaxY.toNat = x * img.MaxY.toNat + img.MaxY.toNat := by ring
      omega
    have hcq : ((x * img.MaxY.toNat + y : Nat) : ℚ) ≤
        ((img.MaxX.toNat * img.MaxY.toNat : Nat) : ℚ) := by exact_mod_cast hc
    obtain ⟨j, n1, n2, n3, h1, h2, hW2, h3, hW3⟩ :=
      learnPixel_steps 65535 (initArrays (emptyNet samplefrac colors))
        (x * img.MaxY.toNat + y) (img.At x y) st (by rw [hNs]; exact hN) (hpxR x y hx hy)
        (by linarith) hinv
    have ha1 : st.alpha ≤ 1024 := hinv.2.2.2.2.2.2.2.2.2.2.2
    have hrate : 0 < 1 * st.alpha / (INIT_ALPHA : ℚ) ∧ 1 * st.alpha / (INIT_ALPHA : ℚ) ≤ 1 := by
      rw [INIT_ALPHA_val]
      constructor
      · linarith
      · linarith
    exact ⟨st, j, n1, n2, n3, hst, hrate,
      fun q hq0 hq1 => neighFactor_pos_le_one _ st.rad q hrate.1 hrate.2 hq0 hq1,
      h1, h2, hW2, h3, hW3⟩
  · obtain ⟨st, hst, hinv, _⟩ :=
      learnBefore_inv 65535 (initArrays (emptyNet samplefrac colors)) img img.MaxX.toNat 0
        (by rw [hNs]; exact hN) (by rw [hSf]; exact hS) (Or.inr ⟨rfl, rfl⟩) (Nat.zero_le _)
        hpxR hM hstart
    rw [← learnScan_eq_learnBefore] at hst
    obtain ⟨hCm, hNi, _, hNs1, hNl, _, _, hW, _⟩ := hinv
    have hL : Learn (initArrays (emptyNet samplefrac colors)) img = some st.net := by
      unfold Learn
      rw [hst]
      rfl
    have hCl : st.net.Colormap.length = st.net.Netsize.toNat := by
      rw [hCm, initArrays_Colormap, List.length_replicate, hNs1, hNs]
      rfl
    obtain ⟨n2, h2, hNet2, hNi2, _, _, _, hNs2, hC2⟩ :=
      buildColormap_result st.net (by rw [hNs1]; omega) hCl
    have hch : ∀ c, c ∈ n2.Colormap →
        c.r ≤ 65535 ∧ c.g ≤ 65535 ∧ c.b ≤ 65535 ∧ c.a ≤ 65535 := by
      intro c hc
      rw [hC2] at hc
      obtain ⟨w, hwm, rfl⟩ := List.mem_map.mp hc
      exact quantise_le_of_inRange w (hW w hwm)
    obtain ⟨n3, h3, _⟩ := buildIndex_result n2
      (by rw [hC2, List.length_map, hNs2, hNs1]; omega)
      (by rw [hNi2, hNi, initArrays_Netindex, IntSlice.appendZeros_len]
          have : (1 <<< 16 : Nat) = 65536 := by decide
          omega)
      (fun c hc => (hch c hc).2.1)
    refine ⟨st.net, n2, n3, hL, hW, h2, hch, h3, ?_⟩
    unfold NewNeuquant
    rw [if_neg (by omega)]
    show Init (emptyNet samplefrac colors) img = some n3
    unfold Init
    simp only [hL, h2, h3]

/-- C20, witness: a 3 by 3 black image, 16 neurons, `Samplefrac = 1`. -/
theorem Learn_keeps_weights_in_range_witness :
    (∀ x y : Nat, x < (solidImage 3 3 black).MaxX.toNat →
        y < (solidImage 3 3 black).MaxY.toNat →
      ∃ (st : LearnState) (j : Int) (n1 n2 n3 : NeuQuant),
        learnBefore (initArrays (emptyNet 1 16)) (solidImage 3 3 black) x y = some st ∧
        (0 < 1 * st.alpha / (INIT_ALPHA : ℚ) ∧ 1 * st.alpha / (INIT_ALPHA : ℚ) ≤ 1) ∧
        (∀ q : Int, 0 ≤ q → q < st.rad →
          0 < neighFactor (1 * st.alpha / (INIT_ALPHA : ℚ)) st.rad q ∧
          neighFactor (1 * st.alpha / (INIT_ALPHA : ℚ)) st.rad q ≤ 1) ∧
        contest st.net (((solidImage 3 3 black).At x y).b : ℚ)
          (((solidImage 3 3 black).At x y).g : ℚ) (((solidImage 3 3 black).At x y).r : ℚ)
          (((solidImage 3 3 black).At x y).a : ℚ) = some (j, n1) ∧
        alterSingle n1 (1 * st.alpha / (INIT_ALPHA : ℚ)) j
          (sampleOf ((solidImage 3 3 black).At x y)) = some n2 ∧
        (∀ w, w ∈ n2.Network → InRange 65535 w) ∧
        (if st.rad > 0 then
            alterNeigh n2 (1 * st.alpha / (INIT_ALPHA : ℚ)) st.rad j
              (sampleOf ((solidImage 3 3 black).At x y))
          else some n2) = some n3 ∧
        (∀ w, w ∈ n3.Network → InRange 65535 w)) ∧
    ∃ n1 n2 n3 : NeuQuant,
      Learn (initArrays (emptyNet 1 16)) (solidImage 3 3 black) = some n1 ∧
      (∀ w, w ∈ n1.Network → InRange 65535 w) ∧
      buildColormap n1 = some n2 ∧
      (∀ c, c ∈ n2.Colormap → c.r ≤ 65535 ∧ c.g ≤ 65535 ∧ c.b ≤ 65535 ∧ c.a ≤ 65535) ∧
      buildIndex n2 = some n3 ∧
      NewNeuquant 1 16 (solidImage 3 3 black) = some n3 :=
  Learn_keeps_weights_in_range 1 16 (solidImage 3 3 black) (by decide) (by decide) (by decide)
    (fun _ _ _ _ =>
      (by decide : black.r ≤ 65535 ∧ black.g ≤ 65535 ∧ black.b ≤ 65535 ∧ black.a ≤ 65535))
    (by decide) (by decide)

/-! ## The early filter of contest in binary64 -/

/-- The weights and biases of `biasSevenTenths` and `biasTwoFifths` are `float64`
values: the literals `0.1`, `0.4`, `0.7` round to them, and
`0.7999999999999999` is the `float64` sum `0.1 + 0.7`. -/
theorem f64_values :
    roundF64 (1 / 10) = f64Tenth ∧ roundF64 (2 / 5) = f64TwoFifths ∧
    roundF64 (7 / 10) = f64SevenTenths ∧ addF64 f64Tenth f64SevenTenths = f64BelowFourFifths ∧
    roundF64 f64BelowFourFifths = f64BelowFourFifths ∧ roundF64 (1 / 2) = 1 / 2 ∧
    addF64 f64Tenth f64TwoFifths = 1 / 2 := by
  refine ⟨by decide!, by decide!, by decide!, by decide!, by decide!, by decide!, by decide!⟩

/-- The rounding `roundF64` on some landmarks of binary64: integers up to `2^53`
are kept, `2^53 + 1` and `2^53 + 3` are ties and go to the even significand,
`1/3` goes to the nearest value below it, the sign is kept, the least
subnormal `2^-1074` is a value and half of it rounds to `0`. -/
theorem roundF64_landmarks :
    roundF64 9007199254740992 = 9007199254740992 ∧
    roundF64 9007199254740993 = 9007199254740992 ∧
    roundF64 9007199254740995 = 9007199254740996 ∧
    roundF64 (1 / 3) = 6004799503160661 / 18014398509481984 ∧
    roundF64 (-(1 / 3)) = -(6004799503160661 / 18014398509481984) ∧
    roundF64 (1 / 2 ^ 1074) = 1 / 2 ^ 1074 ∧ roundF64 (1 / 2 ^ 1075) = 0 ∧
    roundF64 65535 = 65535 := by
  refine ⟨by decide!, by decide!, by decide!, by decide!, by decide!, by decide!, by decide!,
    by decide!⟩

/-- C7: in binary64, on the two neurons with `b = 0.1` and `b = 0.5` and
`Bias = [0, 0.4]`, `contest` with the sample `(0,0,0,0)` returns `0`, although
neuron `1` has the smaller bias-adjusted distance, both exactly
(`D(1) - Bias[1] < D(0) - Bias[0]`) and as `float64` values
(`0.5 - 0.4 = 0.09999999999999998 < 0.1`): the early filter compares the
partial distance `0.5` of neuron `1` with the rounded sum `0.1 + 0.4 = 0.5` and
skips the neuron. -/
theorem contest_misses_biased_winner_in_float64 :
    (contestF64 biasTwoFifths 0 0 0 0).map (fun x => x.1) = some 0 ∧
    biasedDist biasTwoFifths 0 0 0 0 1 < biasedDist biasTwoFifths 0 0 0 0 0 ∧
    subF64 (absDist (neuronAt biasTwoFifths 1) 0 0 0 0) (biasAt biasTwoFifths 1) <
      subF64 (absDist (neuronAt biasTwoFifths 0) 0 0 0 0) (biasAt biasTwoFifths 0) := by
  refine ⟨by decide!, by decide!, by decide!⟩

/-- C16: in binary64, on the two neurons with `b = 0.1` and
`b = 0.7999999999999999` and `Bias = [0, 0.7]`, `contest` with the sample
`(0,0,0,0)` returns `0` as written and `1` with the early filter removed: the
partial distance of neuron `1` is not below the rounded sum
`0.1 + 0.7 = 0.7999999999999999`, while its rounded bias-adjusted distance
`0.7999999999999999 - 0.7` is below `0.1`.  (With every operation exact both
return `1`.) -/
theorem contest_filter_changes_winner_in_float64 :
    (contestF64 biasSevenTenths 0 0 0 0).map (fun x => x.1) = some 0 ∧
    (contestUnprunedF64 biasSevenTenths 0 0 0 0).map (fun x => x.1) = some 1 ∧
    (contest biasSevenTenths 0 0 0 0).map (fun x => x.1) = some 1 ∧
    (contestUnpruned biasSevenTenths 0 0 0 0).map (fun x => x.1) = some 1 := by
  refine ⟨by decide!, by decide!, by decide!, by decide!⟩

end Quantization
